import Mathlib

/-!
# big_integer: a shallow embedding of `big_integer.cpp`

The C++ type `big_integer` is a sign flag together with a little-endian vector of
32-bit digits.  Every function below is a transcription of the function of the same
name in `src/big_integer.cpp`.  Conventions of the embedding:

* a `uint32_t` digit is a `Nat`; every place where the program truncates to 32 (or
  64) bits is written as an explicit `% 2 ^ 32` (or `% 2 ^ 64`);
* `std::vector<uint32_t>` is `List Nat`, index 0 being the least significant digit;
  container sizes, indices and shift counts (`size_t`, `uint32_t n, m`, `int rhs`)
  are natural numbers;
* `std::string` is `List Char`;
* exceptions are the `.error` results of `Except error`;
* the loops whose termination is not structural (`while (!dividend_copy.is_positive)`,
  the normalisation loop of `division`, `while (copy != 0)` of `to_string`, the chunk
  loop of the string constructor) take fuel and report `error.out_of_fuel` when it is
  exhausted; the theorems show that this never happens on well-formed operands.
-/

set_option autoImplicit false

/-! ## Constants of `big_integer.h` -/

/-- Models `big_integer::base_cnt_bits`. -/
def base_cnt_bits : Nat := 32

/-- Models `big_integer::base = 1 << base_cnt_bits`. -/
def base : Nat := 1 <<< base_cnt_bits

/-- Models `big_integer::all_bits_one = (uint32_t)(base - 1)`. -/
def all_bits_one : Nat := (base - 1) % 2 ^ 32

/-- Models `big_integer::buffer_base`. -/
def buffer_base : Nat := 1000000000

/-- Models `big_integer::buffer_base_cnt_bits`. -/
def buffer_base_cnt_bits : Nat := 9

/-- The two exceptions of the program, and the exhaustion of the fuel of a loop. -/
inductive error where
  | invalid_argument
  | division_by_zero
  | out_of_fuel
deriving DecidableEq, Repr

/-- Models `struct big_integer`: the digit vector `number` and the flag `is_positive`. -/
structure big_integer where
  number : List Nat
  is_positive : Bool
deriving DecidableEq, Repr

/-- Models `enum class comparison_result`. -/
inductive comparison_result where
  | less
  | equal
  | greater
deriving DecidableEq, Repr

namespace big_integer

/-! ## Representation -/

/-- The loop of `trim` on the digits read from the most significant one:
`while (number.size() > 1 && number.back() == 0) number.pop_back();`. -/
def trim_rev : List Nat → List Nat
  | [] => []
  | [x] => [x]
  | x :: y :: l => if x = 0 then trim_rev (y :: l) else x :: y :: l

/-- Models `big_integer::trim`. -/
def trim (a : big_integer) : big_integer :=
  { a with number := (trim_rev a.number.reverse).reverse }

/-- Models `big_integer(unsigned long long a)`; `a` is a 64-bit value. -/
def of_uint64 (a : Nat) : big_integer :=
  trim { number := [(a % base) % 2 ^ 32, (a / base) % 2 ^ 32], is_positive := true }

/-- Models `big_integer(long long a)`; `a` is a signed 64-bit value.  The magnitude is
`(unsigned long long)(~a) + 1` at the minimum and `std::abs(a)` elsewhere. -/
def of_int64 (a : Int) : big_integer :=
  let temp : Nat :=
    if a = -(2 : Int) ^ 63 then ((-a - 1).toNat % 2 ^ 64 + 1) % 2 ^ 64 else a.natAbs
  trim { number := [(temp % base) % 2 ^ 32, (temp / base) % 2 ^ 32],
         is_positive := decide (0 ≤ a) }

/-- Models `big_integer()`, that is `big_integer(0)`. -/
def zero : big_integer := of_int64 0

/-- The number `Σ l[i] * 2^(32*i)` written by a little-endian digit vector. -/
def mag_nat : List Nat → Nat
  | [] => 0
  | d :: l => d + base * mag_nat l

/-- The magnitude `Σ number[i] * 2^(32*i)`. -/
def mag (a : big_integer) : Nat := mag_nat a.number

/-- Value `(is_positive ? 1 : -1) * Σ number[i] * 2^(32*i)` of the data model. -/
def val (a : big_integer) : Int :=
  if a.is_positive then (mag a : Int) else -(mag a : Int)

/-- Every digit is a 32-bit value. -/
def digits_ok (l : List Nat) : Prop := ∀ d ∈ l, d < base

instance (l : List Nat) : Decidable (digits_ok l) := by
  unfold digits_ok; infer_instance

/-- Invariant 1 of the data model: the digit vector is nonempty and its most
significant digit is nonzero unless the vector is exactly `[0]`. -/
def canonical (l : List Nat) : Prop := l ≠ [] ∧ (l = [0] ∨ l.getLast? ≠ some 0)

instance (l : List Nat) : Decidable (canonical l) := by
  unfold canonical; infer_instance

/-- A well-formed object: 32-bit digits in canonical form.  Both signs of zero are
well formed (the program produces both). -/
def wf (a : big_integer) : Prop := digits_ok a.number ∧ canonical a.number

instance (a : big_integer) : Decidable (wf a) := by
  unfold wf; infer_instance

/-! ## Comparison -/

/-- Models `big_integer::inverse_comparison`. -/
def inverse_comparison : comparison_result → comparison_result
  | .greater => .less
  | .less => .greater
  | c => c

/-- The digit loop of `compare` on two vectors of equal size, read from the most
significant digit. -/
def compare_loop (result : comparison_result) : List Nat → List Nat → comparison_result
  | x :: xs, y :: ys =>
    if x < y then inverse_comparison result
    else if x > y then result
    else compare_loop result xs ys
  | _, _ => .equal

/-- Models `big_integer::compare`. -/
def compare (a other : big_integer) : comparison_result :=
  if a.number.length = 1 ∧ a.number.head? = some 0
      ∧ other.number.length = 1 ∧ other.number.head? = some 0 then .equal
  else if a.is_positive ∧ ¬ other.is_positive then .greater
  else if ¬ a.is_positive ∧ other.is_positive then .less
  else
    let result : comparison_result :=
      if ¬ a.is_positive ∧ ¬ other.is_positive then .less else .greater
    if a.number.length < other.number.length then inverse_comparison result
    else if a.number.length > other.number.length then result
    else compare_loop result a.number.reverse other.number.reverse

/-- Models `operator==`. -/
def eq (a b : big_integer) : Bool := decide (compare a b = .equal)

/-- Models `operator!=`. -/
def ne (a b : big_integer) : Bool := !(eq a b)

/-- Models `operator<`. -/
def lt (a b : big_integer) : Bool := decide (compare a b = .less)

/-- Models `operator>`. -/
def gt (a b : big_integer) : Bool := decide (compare a b = .greater)

/-- Models `operator<=`. -/
def le (a b : big_integer) : Bool := !(gt a b)

/-- Models `operator>=`. -/
def ge (a b : big_integer) : Bool := !(lt a b)

/-! ## Addition and subtraction -/

/-- Models `std::vector::resize(n, fill)` when it does not shrink. -/
def resize (l : List Nat) (n fill : Nat) : List Nat :=
  l ++ List.replicate (n - l.length) fill

/-- The carry loop of `operator+=` (lines 100-109) over the resized `number`: a digit of
`rhs` beyond its size counts as 0, and a final carry is pushed. -/
def add_loop : List Nat → List Nat → Nat → List Nat
  | [], _, carry => if carry > 0 then [carry % 2 ^ 32] else []
  | x :: xs, ys, carry =>
    let cur_num_place := (x + ys.headD 0 + carry) % 2 ^ 64
    (cur_num_place % base) % 2 ^ 32 :: add_loop xs ys.tail (cur_num_place / base)

/-- The part of `operator+=` after the two mixed-sign branches (lines 96-110). -/
def add_same (a rhs : big_integer) : big_integer :=
  let cnt_num_places := max a.number.length rhs.number.length
  { number := add_loop (resize a.number cnt_num_places 0) rhs.number 0,
    is_positive := a.is_positive }

/-- The borrow loop of `operator-=` (lines 131-144), in `int64_t`: it runs over the
digits of `number` only. -/
def sub_loop : List Nat → List Nat → Int → List Nat
  | [], _, _ => []
  | x :: xs, ys, carry =>
    let cur_num_place : Int := (x : Int) - ((ys.headD 0 : Nat) : Int) - carry
    if cur_num_place < 0 then
      ((cur_num_place + (base : Int)) % 2 ^ 32).toNat :: sub_loop xs ys.tail 1
    else
      (cur_num_place % 2 ^ 32).toNat :: sub_loop xs ys.tail 0

/-- The test of line 124 of `operator-=`. -/
def sub_swaps (a rhs : big_integer) : Bool :=
  (a.is_positive && lt a rhs) || (!a.is_positive && gt a rhs)

/-- Exchanging the operands of the digit loop of `compare` inverts its answer. -/
theorem compare_loop_swap (r : comparison_result) (xs ys : List Nat) :
    compare_loop r ys xs = inverse_comparison (compare_loop r xs ys) := by
  induction xs generalizing ys with
  | nil => cases ys <;> simp [compare_loop, inverse_comparison]
  | cons x xs ih =>
    cases ys with
    | nil => simp [compare_loop, inverse_comparison]
    | cons y ys =>
      simp only [compare_loop]
      rcases Nat.lt_trichotomy x y with h | h | h
      · have h2 : ¬ y < x := by omega
        simp only [h, h2, gt_iff_lt, if_true, if_false]
        cases r <;> rfl
      · subst h
        simp only [lt_irrefl, gt_iff_lt, if_false]
        exact ih ys
      · have h2 : ¬ x < y := by omega
        simp only [h, h2, gt_iff_lt, if_true, if_false]

/-- Exchanging the operands of `compare` inverts its answer. -/
theorem compare_swap (a b : big_integer) :
    compare b a = inverse_comparison (compare a b) := by
  unfold compare
  by_cases hz : a.number.length = 1 ∧ a.number.head? = some 0
      ∧ b.number.length = 1 ∧ b.number.head? = some 0
  · have hz2 : b.number.length = 1 ∧ b.number.head? = some 0
        ∧ a.number.length = 1 ∧ a.number.head? = some 0 := by tauto
    rw [if_pos hz, if_pos hz2]; rfl
  · have hz2 : ¬ (b.number.length = 1 ∧ b.number.head? = some 0
        ∧ a.number.length = 1 ∧ a.number.head? = some 0) := by tauto
    rw [if_neg hz, if_neg hz2]
    rcases Nat.lt_trichotomy a.number.length b.number.length with h | h | h
    · have h2 : ¬ b.number.length < a.number.length := by omega
      cases a.is_positive <;> cases b.is_positive <;>
        simp [h, h2, inverse_comparison]
    · have e := compare_loop_swap
      cases ha : a.is_positive <;> cases hb : b.is_positive <;>
        simp [h, inverse_comparison, e _ a.number.reverse b.number.reverse]
    · have h2 : ¬ a.number.length < b.number.length := by omega
      cases a.is_positive <;> cases b.is_positive <;>
        simp [h, h2, inverse_comparison]

/-- A positive receiver is below, or a negative receiver above, only an operand of
its own sign. -/
theorem compare_sign (a b : big_integer) :
    (a.is_positive = true → compare a b = .less → b.is_positive = true)
    ∧ (a.is_positive = false → compare a b = .greater → b.is_positive = false) := by
  unfold compare
  by_cases hz : a.number.length = 1 ∧ a.number.head? = some 0
      ∧ b.number.length = 1 ∧ b.number.head? = some 0
  · simp [hz]
  · simp only [hz, if_false]
    cases a.is_positive <;> cases b.is_positive <;> simp

/-- After the exchange of line 126 the test of line 124 fails: `operator-=` calls
itself at most once. -/
theorem sub_swaps_swap (a rhs : big_integer) (h : sub_swaps a rhs = true) :
    sub_swaps rhs a = false := by
  have hs := compare_sign a rhs
  unfold sub_swaps lt gt at *
  rw [compare_swap a rhs]
  cases ha : a.is_positive <;> cases hb : rhs.is_positive <;>
    simp [ha, hb] at h hs ⊢ <;> simp_all [inverse_comparison]

set_option linter.unusedVariables false in
/-- The same-sign part of `operator-=` (lines 124-146): when the receiver is the
smaller operand the operands are exchanged, `operator-=` is called again and the sign
is flipped; otherwise the borrow loop runs and the result is trimmed.  The operands of
the inner call have equal sign flags, so it runs lines 124-146 again
(`sub_same_swaps`). -/
def sub_same (a rhs : big_integer) : big_integer :=
  if h : sub_swaps a rhs = true then
    let r := sub_same rhs a
    { r with is_positive := !r.is_positive }
  else
    trim { a with number := sub_loop a.number rhs.number 0 }
termination_by (if sub_swaps a rhs = true then 1 else 0 : Nat)
decreasing_by
  rw [sub_swaps_swap a rhs h, if_pos h]
  simp

/-- Models `operator-=`.  In the two mixed-sign branches the sign of `rhs_copy` is set to
the sign of the receiver before `*this += rhs_copy`, so that call runs lines 96-110
(`sub_of_mixed_sign`). -/
def sub (a rhs : big_integer) : big_integer :=
  if a.is_positive && !rhs.is_positive then
    add_same a { rhs with is_positive := true }
  else if !a.is_positive && rhs.is_positive then
    add_same a { rhs with is_positive := false }
  else sub_same a rhs

/-- Models `operator+=`; `operator-(a, b)` is `a -= b` on a copy. -/
def add (a rhs : big_integer) : big_integer :=
  if !a.is_positive && rhs.is_positive then
    let a1 : big_integer := { a with is_positive := true }
    if le a1 rhs then sub rhs a1
    else { sub a1 rhs with is_positive := false }
  else if a.is_positive && !rhs.is_positive then
    let rhs_copy : big_integer := { rhs with is_positive := true }
    if le a rhs_copy then { sub rhs_copy a with is_positive := false }
    else sub a rhs_copy
  else add_same a rhs

/-- Unary `operator-`. -/
def neg (a : big_integer) : big_integer := { a with is_positive := !a.is_positive }

/-! ## Multiplication -/

/-- The inner loop of `operator*=` (lines 154-160) for the digit `y = rhs.number[i]`:
it runs over the digits `number[j]` of the receiver, updates `result.number[i + j]` and
returns the final carry. -/
def mul_inner (y i : Nat) : List Nat → Nat → List Nat → Nat → List Nat × Nat
  | [], _, result, carry => (result, carry)
  | x :: xs, j, result, carry =>
    let cur_num_place := (result.getD (i + j) 0 + (x * y) % 2 ^ 64 + carry) % 2 ^ 64
    mul_inner y i xs (j + 1)
      (result.set (i + j) ((cur_num_place &&& all_bits_one) % 2 ^ 32))
      (cur_num_place >>> base_cnt_bits)

/-- The outer loop of `operator*=` (lines 152-164) over the digits of `rhs`. -/
def mul_outer (number : List Nat) : List Nat → Nat → List Nat → List Nat
  | [], _, result => result
  | y :: ys, i, result =>
    let r := mul_inner y i number 0 result 0
    let result1 := if r.2 ≠ 0 then r.1.set (i + number.length) (r.2 % 2 ^ 32) else r.1
    mul_outer number ys (i + 1) result1

/-- Models `operator*=`: `result` starts as `number.size() + rhs.number.size()` zero
digits. -/
def mul (a rhs : big_integer) : big_integer :=
  let result := mul_outer a.number rhs.number 0
    (List.replicate (a.number.length + rhs.number.length) 0)
  { trim { number := result, is_positive := true } with
    is_positive := decide (a.is_positive = rhs.is_positive) }

/-! ## Increment, decrement and the two's-complement adapter -/

/-- Models `big_integer::inverse`: `~` on every 32-bit digit. -/
def inverse (a : big_integer) : big_integer :=
  { a with number := a.number.map (fun d => all_bits_one - d % 2 ^ 32) }

/-- The digit loop of `operator++` (lines 381-388). -/
def inc_loop : List Nat → List Nat
  | [] => []
  | x :: xs => if x = all_bits_one then 0 :: inc_loop xs else ((x + 1) % 2 ^ 32) :: xs

/-- The path of `operator++` for `is_positive == true` (lines 380-392). -/
def inc_pos (a : big_integer) : big_integer :=
  let t := trim a
  let number := inc_loop t.number
  { t with number :=
      if number.length > 1 ∧ number.getLast? = some 0 then number ++ [1] else number }

/-- The digit loop of `operator--` (lines 408-415). -/
def dec_loop : List Nat → List Nat
  | [] => []
  | x :: xs => if x = 0 then all_bits_one :: dec_loop xs else ((x + 2 ^ 32 - 1) % 2 ^ 32) :: xs

/-- Prefix `operator--`.  Its first branch sets `is_positive = true` before `++*this`,
so that call runs lines 380-392 (`dec_first_branch`). -/
def dec (a : big_integer) : big_integer :=
  if !a.is_positive || (a.number.length = 1 && a.number.head? = some 0) then
    { inc_pos { a with is_positive := true } with is_positive := false }
  else
    trim { a with number := dec_loop a.number }

/-- Prefix `operator++`. -/
def inc (a : big_integer) : big_integer :=
  if !a.is_positive then
    { dec { a with is_positive := true } with is_positive := false }
  else inc_pos a

/-- Postfix `operator++(int)`: the pair of the returned copy and the new receiver. -/
def post_inc (a : big_integer) : big_integer × big_integer := (a, inc a)

/-- Postfix `operator--(int)`: the pair of the returned copy and the new receiver. -/
def post_dec (a : big_integer) : big_integer × big_integer := (a, dec a)

/-- Models `big_integer::to_twos_complement`. -/
def to_twos_complement (a : big_integer) : big_integer :=
  if !a.is_positive then dec (inverse a) else a

/-- Models `big_integer::bitwise_operation`; `operation` is applied to 32-bit values and
the sign flags enter it as `!is_positive`, 0 or 1. -/
def bitwise_operation (operation : Nat → Nat → Nat) (a other : big_integer) : big_integer :=
  let a1 := to_twos_complement a
  let o1 := to_twos_complement other
  let n1 := if a1.number.length < o1.number.length then
      resize a1.number o1.number.length (if a1.is_positive then 0 else all_bits_one)
    else a1.number
  let n2 := if o1.number.length < n1.length then
      resize o1.number n1.length (if o1.is_positive then 0 else all_bits_one)
    else o1.number
  let number := List.zipWith (fun x y => operation x y % 2 ^ 32) n1 n2
  let sign := decide (operation (if a1.is_positive then 0 else 1)
      (if o1.is_positive then 0 else 1) % 2 ^ 32 = 0)
  trim (to_twos_complement { number := number, is_positive := sign })

/-- Models `operator&=`. -/
def band (a rhs : big_integer) : big_integer := bitwise_operation (fun x y => x &&& y) a rhs

/-- Models `operator|=`. -/
def bor (a rhs : big_integer) : big_integer := bitwise_operation (fun x y => x ||| y) a rhs

/-- Models `operator^=`. -/
def bxor (a rhs : big_integer) : big_integer := bitwise_operation (fun x y => x ^^^ y) a rhs

/-- The digit loop of `operator<<=` (lines 306-312) with the final
`push_back(carry)` and `number.back() += preserve_neg`. -/
def shl_loop (rem preserve_neg : Nat) : List Nat → Nat → List Nat
  | [], carry => [(carry + preserve_neg) % 2 ^ 32]
  | x :: xs, carry =>
    (((x <<< rem) % 2 ^ 32 + carry) % 2 ^ 32) ::
      shl_loop rem preserve_neg xs (x >>> (base_cnt_bits - rem))

/-- Models `operator<<=`. -/
def shl (a : big_integer) (rhs : Nat) : big_integer :=
  let a1 := to_twos_complement a
  let cnt_insert := rhs / base_cnt_bits
  let rem := rhs % base_cnt_bits
  let number := if rem > 0 then
      let preserve_neg := if !a1.is_positive then (all_bits_one <<< rem) % 2 ^ 32 else 0
      List.replicate cnt_insert 0 ++ shl_loop rem preserve_neg a1.number 0
    else List.replicate cnt_insert 0 ++ a1.number
  trim (to_twos_complement { a1 with number := number })

/-- The digit loop of `operator>>=` (lines 335-339) on the digits read from the most
significant one. -/
def shr_loop (rem : Nat) : List Nat → Nat → List Nat
  | [], _ => []
  | x :: xs, carry =>
    (((x >>> rem) + carry) % 2 ^ 32) ::
      shr_loop rem xs ((x <<< (base_cnt_bits - rem)) % 2 ^ 32)

/-- Models `operator>>=`. -/
def shr (a : big_integer) (rhs : Nat) : big_integer :=
  let a1 := to_twos_complement a
  let cnt_erase := rhs / base_cnt_bits
  let rem := rhs % base_cnt_bits
  if cnt_erase > 0 ∧ cnt_erase ≥ a1.number.length then zero
  else
    let number := a1.number.drop cnt_erase
    let number := if rem > 0 then
        let carry := if !a1.is_positive then
            (all_bits_one <<< (base_cnt_bits - rem)) % 2 ^ 32 else 0
        (shr_loop rem number.reverse carry).reverse
      else number
    trim (to_twos_complement { a1 with number := number })

/-- Models `operator~`. -/
def bnot (a : big_integer) : big_integer :=
  let res : big_integer := { a with number := a.number ++ [0] }
  let res := inverse (to_twos_complement res)
  let res := if res.number.getLast? = some all_bits_one then
      { res with is_positive := false } else res
  trim (to_twos_complement res)

/-! ## Division -/

/-- Models `struct big_integer::division_result`. -/
structure division_result where
  quotient : big_integer
  remainder : big_integer
deriving DecidableEq, Repr

/-- The loop of `short_division` (lines 179-184) on the digits of the dividend read from
the most significant one; it returns the quotient digits in the same order and the
final carry. -/
def short_division_loop (divisor : Nat) : List Nat → Nat → List Nat × Nat
  | [], carry => ([], carry)
  | x :: xs, carry =>
    let cur_num_place := (x + (carry * base) % 2 ^ 64) % 2 ^ 64
    let r := short_division_loop divisor xs (cur_num_place % divisor)
    (((cur_num_place / divisor) % 2 ^ 32) :: r.1, r.2)

/-- Models `big_integer::short_division`. -/
def short_division (dividend : big_integer) (divisor : Nat) (divisor_is_positive : Bool) :
    Except error division_result :=
  if divisor = 0 then .error .division_by_zero
  else
    let r := short_division_loop divisor dividend.number.reverse 0
    let quotient : big_integer :=
      ⟨r.1.reverse, decide (dividend.is_positive = divisor_is_positive)⟩
    let remainder := of_uint64 r.2
    .ok ⟨trim quotient, { remainder with is_positive := dividend.is_positive }⟩

/-- The normalisation loop of `division` (lines 204-207); it returns `k`. -/
def normalize_loop : Nat → Nat → Nat → Except error Nat
  | 0, _, _ => .error .out_of_fuel
  | fuel + 1, significant_place, k =>
    if significant_place ≤ all_bits_one >>> 1 then
      normalize_loop fuel ((significant_place <<< 1) % 2 ^ 32) ((k + 1) % 2 ^ 32)
    else .ok k

/-- The correction loop of `division` (lines 231-234); it returns the corrected
`dividend_copy` and `prediction`. -/
def correction_loop (shifted_divisor : big_integer) :
    Nat → big_integer → Nat → Except error (big_integer × Nat)
  | 0, dividend_copy, prediction =>
    if !dividend_copy.is_positive then .error .out_of_fuel else .ok (dividend_copy, prediction)
  | fuel + 1, dividend_copy, prediction =>
    if !dividend_copy.is_positive then
      correction_loop shifted_divisor fuel (add dividend_copy shifted_divisor)
        ((prediction + 2 ^ 64 - 1) % 2 ^ 64)
    else .ok (dividend_copy, prediction)

/-- The quotient-digit loop of `division` (lines 221-236), from `j` down to 1; the
state is `dividend_copy`, `shifted_divisor` and `quotient.number`. -/
def division_loop (fuel m prediction_divisor : Nat) :
    Nat → big_integer → big_integer → List Nat → Except error (big_integer × List Nat)
  | 0, dividend_copy, _, quotient => .ok (dividend_copy, quotient)
  | j + 1, dividend_copy, shifted_divisor, quotient =>
    let prediction_dividend :=
      ((dividend_copy.number.getD (m + (j + 1) - 1) 0 * base) % 2 ^ 64
        + dividend_copy.number.getD (m + (j + 1) - 2) 0) % 2 ^ 64
    let prediction := min (prediction_dividend / prediction_divisor) (base - 1)
    let dividend_copy := sub dividend_copy (mul shifted_divisor (of_uint64 prediction))
    match correction_loop shifted_divisor fuel dividend_copy prediction with
    | .error e => .error e
    | .ok (dividend_copy, prediction) =>
      division_loop fuel m prediction_divisor j dividend_copy
        (shr shifted_divisor base_cnt_bits) (quotient.set j (prediction % 2 ^ 32))

/-- Models `big_integer::division`; `fuel` bounds the iterations of each of its two `while`
loops. -/
def division (fuel : Nat) (dividend divisor : big_integer) : Except error division_result :=
  if divisor.number.length = 1 then
    short_division dividend (divisor.number.headD 0) divisor.is_positive
  else
    let dividend_copy : big_integer := { dividend with is_positive := true }
    let divisor_copy : big_integer := { divisor with is_positive := true }
    if lt dividend_copy divisor_copy then
      .ok { quotient := zero, remainder := dividend }
    else
      match normalize_loop fuel (divisor.number.getLastD 0) 0 with
      | .error e => .error e
      | .ok k =>
        let dividend_copy := shl dividend_copy k
        let divisor_copy := shl divisor_copy k
        let n := dividend_copy.number.length
        let m := divisor_copy.number.length
        let quotient := List.replicate (n - m + 1) 0
        let shifted_divisor := shl divisor_copy (base_cnt_bits * (n - m))
        let first := ge dividend_copy shifted_divisor
        let quotient := if first then quotient.set (n - m) 1 else quotient
        let dividend_copy := if first then sub dividend_copy shifted_divisor else dividend_copy
        let shifted_divisor := shr shifted_divisor base_cnt_bits
        let prediction_divisor := divisor_copy.number.getLastD 0
        match division_loop fuel m prediction_divisor (n - m) dividend_copy shifted_divisor
            quotient with
        | .error e => .error e
        | .ok (dividend_copy, quotient) =>
          let dividend_copy := shr dividend_copy k
          let q : big_integer :=
            ⟨quotient, decide (dividend.is_positive = divisor.is_positive)⟩
          .ok ⟨trim q, trim { dividend_copy with is_positive := dividend.is_positive }⟩

/-- Models `operator/=`. -/
def div (fuel : Nat) (a rhs : big_integer) : Except error big_integer :=
  (division fuel a rhs).map division_result.quotient

/-- Models `operator%=`. -/
def mod (fuel : Nat) (a rhs : big_integer) : Except error big_integer :=
  (division fuel a rhs).map division_result.remainder

/-! ## Decimal strings -/

/-- The inner loop of the string constructor (lines 44-50) for the chunk of `j` characters
that starts at index `i`. -/
def chunk_loop (str : List Char) (i : Nat) : Nat → Nat → Nat → Except error Nat
  | 0, cur_coef, _ => .ok cur_coef
  | j + 1, cur_coef, tens_power =>
    let cur_char := str.getD (i + (j + 1) - 1) (Char.ofNat 0)
    if cur_char < (Char.ofNat 48) ∨ cur_char > (Char.ofNat 57) then .error .invalid_argument
    else chunk_loop str i j
      ((cur_coef + ((cur_char.toNat - 48) * tens_power) % 2 ^ 32) % 2 ^ 32)
      ((tens_power * 10) % 2 ^ 32)

/-- The outer loop of the string constructor (lines 41-57); the state is `i`,
`step_size` and `*this`. -/
def parse_loop (str : List Char) (first_step_size : Nat) :
    Nat → Nat → Nat → big_integer → Except error big_integer
  | 0, i, _, acc => if i < str.length then .error .out_of_fuel else .ok acc
  | fuel + 1, i, step_size, acc =>
    if i < str.length then
      match chunk_loop str i step_size 0 1 with
      | .error e => .error e
      | .ok cur_coef =>
        parse_loop str first_step_size fuel (i + step_size)
          (if step_size = first_step_size then buffer_base_cnt_bits else step_size)
          (add (mul acc (of_uint64 buffer_base)) (of_uint64 cur_coef))
    else .ok acc

/-- Models `big_integer(std::string const&)`; `fuel` bounds the iterations of the outer loop. -/
def of_string (fuel : Nat) (str : List Char) : Except error big_integer :=
  if str = [Char.ofNat 45] ∨ str = [Char.ofNat 43] ∨ str = [] then .error .invalid_argument
  else
    let last_digit_index :=
      if str.head? = some (Char.ofNat 45) ∨ str.head? = some (Char.ofNat 43) then 1 else 0
    let first_step_size := (str.length - last_digit_index) % buffer_base_cnt_bits
    match parse_loop str first_step_size fuel last_digit_index first_step_size zero with
    | .error e => .error e
    | .ok r =>
      if str.head? = some (Char.ofNat 45) then .ok { r with is_positive := false } else .ok r

/-- The decimal digits of `n`, most significant first, at most `fuel` of them. -/
def std_to_string_loop : Nat → Nat → List Char → List Char
  | 0, _, acc => acc
  | fuel + 1, n, acc =>
    if n < 10 then Char.ofNat (48 + n) :: acc
    else std_to_string_loop fuel (n / 10) (Char.ofNat (48 + n % 10) :: acc)

/-- Models `std::to_string` on a `uint32_t`: its decimal digits without leading zero (a 32-bit
value has at most 10 of them). -/
def std_to_string (n : Nat) : List Char := std_to_string_loop 10 n []

/-- The loop `while (copy != 0)` of `to_string` (lines 536-548); it returns `vs`, the
chunks from the least significant one, and the amount added to `res_size`. -/
def to_string_loop : Nat → big_integer → Except error (List (List Char) × Nat)
  | 0, copy => if ne copy zero then .error .out_of_fuel else .ok ([], 0)
  | fuel + 1, copy =>
    if ne copy zero then
      match short_division copy buffer_base true with
      | .error e => .error e
      | .ok div_res =>
        let str_remainder := std_to_string (div_res.remainder.number.headD 0)
        let chunk := if eq div_res.quotient zero then str_remainder
          else List.replicate (buffer_base_cnt_bits - str_remainder.length) (Char.ofNat 48)
                 ++ str_remainder
        let size := if eq div_res.quotient zero then str_remainder.length
          else buffer_base_cnt_bits
        match to_string_loop fuel div_res.quotient with
        | .error e => .error e
        | .ok (vs, res_size) => .ok (chunk :: vs, size + res_size)
    else .ok ([], 0)

/-- The copying loop of `to_string` (lines 554-560): `count` characters are taken from
`vs[vs_ind][j]`, stepping to the previous chunk at the end of each one. -/
def assemble_loop (vs : List (List Char)) : Nat → Nat → Nat → List Char
  | 0, _, _ => []
  | count + 1, vs_ind, j =>
    let vs_ind1 := if j = (vs.getD vs_ind []).length then vs_ind - 1 else vs_ind
    let j1 := if j = (vs.getD vs_ind []).length then 0 else j
    (vs.getD vs_ind1 []).getD j1 (Char.ofNat 48) :: assemble_loop vs count vs_ind1 (j1 + 1)

/-- Models `to_string`; `fuel` bounds the iterations of `while (copy != 0)`.  The
copying loop writes the `res_size` characters that follow the sign. -/
def to_string (fuel : Nat) (a : big_integer) : Except error (List Char) :=
  if eq a zero then .ok [Char.ofNat 48]
  else
    match to_string_loop fuel { a with is_positive := true } with
    | .error e => .error e
    | .ok (vs, res_size) =>
      let body := assemble_loop vs res_size (vs.length - 1) 0
      .ok (if a.is_positive then body else Char.ofNat 45 :: body)

/-- The composition `to_string(big_integer(str))`. -/
def roundtrip (fuel : Nat) (str : List Char) : Except error (List Char) :=
  match of_string fuel str with
  | .error e => .error e
  | .ok r => to_string fuel r

/-! ## Vocabulary of the specification -/

/-- Three-way comparison of two integers. -/
def cmp (x y : Int) : comparison_result :=
  if x < y then .less else if x = y then .equal else .greater

/-- The characters `'0'` to `'9'`. -/
def is_digit (c : Char) : Prop := 48 ≤ c.toNat ∧ c.toNat ≤ 57

instance (c : Char) : Decidable (is_digit c) := by
  unfold is_digit; infer_instance

/-- The number written by a string of decimal digits. -/
def dec_val (s : List Char) : Nat := s.foldl (fun n c => 10 * n + (c.toNat - 48)) 0

/-- The string `s` is the canonical decimal representation of `n`: decimal digits that
denote `n`, with no leading zero except in `"0"` itself. -/
def canonical_decimal (s : List Char) (n : Nat) : Prop :=
  s ≠ [] ∧ (∀ c ∈ s, is_digit c) ∧ dec_val s = n
    ∧ (s = [Char.ofNat 48] ∨ s.head? ≠ some (Char.ofNat 48))

instance (s : List Char) (n : Nat) : Decidable (canonical_decimal s n) := by
  unfold canonical_decimal; infer_instance

/-- The part of a string after one optional leading sign character. -/
def digits_part (s : List Char) : List Char :=
  if s.head? = some (Char.ofNat 45) ∨ s.head? = some (Char.ofNat 43) then s.tail else s

/-- A decimal string accepted by the constructor: an optional sign and at least one
character, all of them decimal digits. -/
def valid_decimal (s : List Char) : Prop :=
  digits_part s ≠ [] ∧ ∀ c ∈ digits_part s, is_digit c

instance (s : List Char) : Decidable (valid_decimal s) := by
  unfold valid_decimal; infer_instance

/-! ## The calls unfolded by the embedding

`operator-=` calls `operator+=` and itself, `operator--` calls `operator++`, always right
after fixing the sign flags; the embedding writes the branch that such a call takes.
The lemmas below state that the full operator takes that branch. -/

theorem add_of_same_sign (a rhs : big_integer) (h : a.is_positive = rhs.is_positive) :
    add a rhs = add_same a rhs := by
  unfold add
  cases ha : a.is_positive <;> cases hb : rhs.is_positive <;> simp_all

theorem sub_of_same_sign (a rhs : big_integer) (h : a.is_positive = rhs.is_positive) :
    sub a rhs = sub_same a rhs := by
  unfold sub
  cases ha : a.is_positive <;> cases hb : rhs.is_positive <;> simp_all

theorem sub_of_mixed_sign (a rhs : big_integer) (h : a.is_positive ≠ rhs.is_positive) :
    sub a rhs = add a { rhs with is_positive := a.is_positive } := by
  rw [add_of_same_sign a { rhs with is_positive := a.is_positive } rfl]
  unfold sub
  cases ha : a.is_positive <;> cases hb : rhs.is_positive <;> simp_all

theorem sub_same_swaps (a rhs : big_integer) (h : sub_swaps a rhs = true) :
    a.is_positive = rhs.is_positive
    ∧ sub_same a rhs = neg (sub rhs a) := by
  have hs : a.is_positive = rhs.is_positive := by
    have hc := compare_sign a rhs
    unfold sub_swaps lt gt at h
    cases ha : a.is_positive <;> cases hb : rhs.is_positive <;> simp_all
  refine ⟨hs, ?_⟩
  rw [sub_of_same_sign rhs a hs.symm, sub_same, dif_pos h]
  rfl

theorem inc_of_pos (a : big_integer) (h : a.is_positive = true) : inc a = inc_pos a := by
  unfold inc
  simp [h]

theorem dec_first_branch (a : big_integer)
    (h : (!a.is_positive || (a.number.length = 1 && a.number.head? = some 0)) = true) :
    dec a = { inc { a with is_positive := true } with is_positive := false } := by
  rw [inc_of_pos _ rfl]
  unfold dec
  rw [if_pos h]

/-! ## Digit vectors and their values -/

theorem base_val : base = 4294967296 := by decide

theorem all_bits_one_val : all_bits_one = 4294967295 := by decide

theorem base_pos : 0 < base := by decide

theorem mag_nat_append (l r : List Nat) :
    mag_nat (l ++ r) = mag_nat l + base ^ l.length * mag_nat r := by
  induction l with
  | nil => simp [mag_nat]
  | cons d l ih =>
    rw [List.cons_append]
    simp only [mag_nat, List.length_cons, pow_succ]
    rw [ih]
    ring

theorem mag_nat_replicate_zero (n : Nat) : mag_nat (List.replicate n 0) = 0 := by
  induction n with
  | zero => rfl
  | succ n ih => simp [List.replicate_succ, mag_nat, ih]

theorem digits_ok_nil : digits_ok [] := by
  intro d hd; cases hd

theorem digits_ok_cons {d : Nat} {l : List Nat} :
    digits_ok (d :: l) ↔ d < base ∧ digits_ok l := by
  unfold digits_ok
  simp

theorem digits_ok_append {l r : List Nat} :
    digits_ok (l ++ r) ↔ digits_ok l ∧ digits_ok r := by
  unfold digits_ok
  simp only [List.mem_append]
  constructor
  · intro h
    exact ⟨fun d hd => h d (Or.inl hd), fun d hd => h d (Or.inr hd)⟩
  · rintro ⟨h1, h2⟩ d (hd | hd)
    · exact h1 d hd
    · exact h2 d hd

theorem digits_ok_reverse {l : List Nat} : digits_ok l.reverse ↔ digits_ok l := by
  unfold digits_ok
  simp

theorem digits_ok_replicate (n d : Nat) (hd : d < base) : digits_ok (List.replicate n d) := by
  intro x hx
  rw [List.mem_replicate] at hx
  rw [hx.2]; exact hd

theorem mag_nat_lt (l : List Nat) (h : digits_ok l) : mag_nat l < base ^ l.length := by
  induction l with
  | nil => simp [mag_nat]
  | cons d l ih =>
    rw [digits_ok_cons] at h
    have h1 := ih h.2
    have h2 : base * (mag_nat l + 1) ≤ base * base ^ l.length :=
      Nat.mul_le_mul_left _ h1
    simp only [mag_nat, List.length_cons, pow_succ]
    have h3 := h.1
    rw [Nat.mul_comm (base ^ l.length) base]
    rw [Nat.mul_add] at h2
    omega

/-! ## `trim` -/

theorem trim_rev_mag (l : List Nat) : mag_nat (trim_rev l).reverse = mag_nat l.reverse := by
  induction l with
  | nil => rfl
  | cons x l ih =>
    cases l with
    | nil => rfl
    | cons y l =>
      simp only [trim_rev]
      by_cases hx : x = 0
      · rw [if_pos hx, ih, hx, List.reverse_cons (a := 0), mag_nat_append]
        simp [mag_nat]
      · rw [if_neg hx]

theorem trim_rev_digits_ok (l : List Nat) (h : digits_ok l) : digits_ok (trim_rev l) := by
  induction l with
  | nil => exact h
  | cons x l ih =>
    cases l with
    | nil => exact h
    | cons y l =>
      simp only [trim_rev]
      by_cases hx : x = 0
      · rw [if_pos hx]; exact ih (digits_ok_cons.1 h).2
      · rw [if_neg hx]; exact h

theorem trim_rev_ne_nil (l : List Nat) (h : l ≠ []) : trim_rev l ≠ [] := by
  induction l with
  | nil => exact h
  | cons x l ih =>
    cases l with
    | nil => simp [trim_rev]
    | cons y l =>
      simp only [trim_rev]
      by_cases hx : x = 0
      · rw [if_pos hx]; exact ih (by simp)
      · rw [if_neg hx]; simp

theorem trim_rev_head (l : List Nat) :
    trim_rev l = [0] ∨ (trim_rev l).head? ≠ some 0 := by
  induction l with
  | nil => right; simp [trim_rev]
  | cons x l ih =>
    cases l with
    | nil =>
      by_cases hx : x = 0
      · left; rw [hx]; rfl
      · right; simp [trim_rev, hx]
    | cons y l =>
      simp only [trim_rev]
      by_cases hx : x = 0
      · rw [if_pos hx]; exact ih
      · rw [if_neg hx]; right; simp [hx]

theorem trim_rev_fixed (l : List Nat) (h : l = [0] ∨ l.head? ≠ some 0) : trim_rev l = l := by
  rcases h with h | h
  · rw [h]; rfl
  · cases l with
    | nil => rfl
    | cons x l =>
      cases l with
      | nil => rfl
      | cons y l =>
        have hx : x ≠ 0 := by simpa using h
        simp [trim_rev, hx]

theorem canonical_iff_rev (l : List Nat) :
    canonical l ↔ l.reverse ≠ [] ∧ (l.reverse = [0] ∨ l.reverse.head? ≠ some 0) := by
  unfold canonical
  rw [List.head?_reverse]
  have e : l.reverse = [0] ↔ l = [0] := by
    constructor
    · intro h
      have := congrArg List.reverse h
      simpa using this
    · intro h; rw [h]; rfl
  rw [e]
  simp

theorem mag_trim (a : big_integer) : mag (trim a) = mag a := by
  unfold mag trim
  simp only
  rw [trim_rev_mag, List.reverse_reverse]

theorem val_trim (a : big_integer) : val (trim a) = val a := by
  unfold val
  rw [mag_trim]
  rfl

theorem trim_is_positive (a : big_integer) : (trim a).is_positive = a.is_positive := rfl

theorem trim_canonical (a : big_integer) (h : a.number ≠ []) : canonical (trim a).number := by
  rw [canonical_iff_rev]
  unfold trim
  simp only [List.reverse_reverse]
  exact ⟨trim_rev_ne_nil _ (by simpa using h), trim_rev_head _⟩

theorem trim_digits_ok (a : big_integer) (h : digits_ok a.number) :
    digits_ok (trim a).number := by
  unfold trim
  simp only
  rw [digits_ok_reverse]
  exact trim_rev_digits_ok _ (digits_ok_reverse.2 h)

theorem trim_wf (a : big_integer) (h : digits_ok a.number) (hn : a.number ≠ []) :
    wf (trim a) :=
  ⟨trim_digits_ok a h, trim_canonical a hn⟩

theorem trim_of_canonical (a : big_integer) (h : canonical a.number) : trim a = a := by
  unfold trim
  rw [canonical_iff_rev] at h
  rw [trim_rev_fixed _ h.2, List.reverse_reverse]

theorem trim_length_le (l : List Nat) : (trim_rev l).length ≤ l.length := by
  induction l with
  | nil => simp [trim_rev]
  | cons x l ih =>
    cases l with
    | nil => simp [trim_rev]
    | cons y l =>
      simp only [trim_rev]
      by_cases hx : x = 0
      · rw [if_pos hx]
        have := ih
        simp only [List.length_cons] at this ⊢
        omega
      · rw [if_neg hx]

/-- A canonical vector other than `[0]` has a nonzero most significant digit, so its
value is at least `base ^ (length - 1)`. -/
theorem canonical_mag_ge (l : List Nat) (hc : canonical l) (hz : l ≠ [0]) :
    base ^ (l.length - 1) ≤ mag_nat l := by
  obtain ⟨hne, h⟩ := hc
  rcases h with h | h
  · exact absurd h hz
  · obtain ⟨l', x, rfl⟩ : ∃ l' x, l = l' ++ [x] := by
      refine ⟨l.dropLast, l.getLast hne, ?_⟩
      exact (List.dropLast_append_getLast hne).symm
    have hx : x ≠ 0 := by simpa using h
    rw [mag_nat_append]
    simp only [List.length_append, List.length_singleton, Nat.add_sub_cancel, mag_nat]
    have : 1 ≤ x + base * 0 := by omega
    calc base ^ l'.length = base ^ l'.length * 1 := by ring
      _ ≤ base ^ l'.length * (x + base * 0) := Nat.mul_le_mul_left _ this
      _ ≤ _ := Nat.le_add_left _ _

theorem canonical_mag_zero (l : List Nat) (hc : canonical l) : mag_nat l = 0 ↔ l = [0] := by
  constructor
  · intro h
    by_contra hz
    have := canonical_mag_ge l hc hz
    have hp : 0 < base ^ (l.length - 1) := Nat.pow_pos base_pos
    omega
  · intro h; rw [h]; rfl


/-! ## Comparison agrees with the order of the values -/

theorem mag_nat_reverse_cons (x : Nat) (l : List Nat) :
    mag_nat (x :: l).reverse = mag_nat l.reverse + base ^ l.length * x := by
  rw [List.reverse_cons, mag_nat_append]
  simp [mag_nat]

theorem compare_loop_mag (r : comparison_result) (xs ys : List Nat)
    (hl : xs.length = ys.length) (hx : digits_ok xs) (hy : digits_ok ys) :
    compare_loop r xs ys =
      if mag_nat xs.reverse < mag_nat ys.reverse then inverse_comparison r
      else if mag_nat xs.reverse > mag_nat ys.reverse then r else .equal := by
  induction xs generalizing ys with
  | nil =>
    cases ys with
    | nil => simp [compare_loop, mag_nat]
    | cons y ys => simp at hl
  | cons x xs ih =>
    cases ys with
    | nil => simp at hl
    | cons y ys =>
      have hl2 : xs.length = ys.length := by simpa using hl
      have hx2 := (digits_ok_cons.1 hx).2
      have hy2 := (digits_ok_cons.1 hy).2
      have bx := mag_nat_lt xs.reverse (digits_ok_reverse.2 hx2)
      have b_y := mag_nat_lt ys.reverse (digits_ok_reverse.2 hy2)
      rw [List.length_reverse] at bx b_y
      rw [mag_nat_reverse_cons, mag_nat_reverse_cons, ← hl2]
      simp only [compare_loop]
      rw [← hl2] at b_y
      generalize base ^ xs.length = P at *
      rcases Nat.lt_trichotomy x y with h | h | h
      · have h1 : P * (x + 1) ≤ P * y := Nat.mul_le_mul_left _ h
        rw [Nat.mul_add] at h1
        have h3 : mag_nat xs.reverse + P * x < mag_nat ys.reverse + P * y := by omega
        rw [if_pos h, if_pos h3]
      · subst h
        rw [if_neg (lt_irrefl _), if_neg (by simp), ih ys hl2 hx2 hy2]
        simp only [gt_iff_lt, Nat.add_lt_add_iff_right]
      · have h1 : P * (y + 1) ≤ P * x := Nat.mul_le_mul_left _ h
        rw [Nat.mul_add] at h1
        have h3 : mag_nat ys.reverse + P * y < mag_nat xs.reverse + P * x := by omega
        rw [if_neg (by omega), if_pos h, if_neg (by omega), if_pos h3]

/-- On magnitudes of canonical vectors the size decides. -/
theorem mag_lt_of_length_lt (l r : List Nat) (hl : digits_ok l) (hr : canonical r)
    (hlr : l.length < r.length) (hne : l ≠ []) : mag_nat l < mag_nat r := by
  have h1 := mag_nat_lt l hl
  have hz : r ≠ [0] := by
    intro h
    rw [h] at hlr
    cases l with
    | nil => exact hne rfl
    | cons x l => simp at hlr
  have h2 := canonical_mag_ge r hr hz
  have h3 : base ^ l.length ≤ base ^ (r.length - 1) :=
    Nat.pow_le_pow_right base_pos (by omega)
  omega

theorem is_zero_iff (a : big_integer) (h : wf a) :
    (a.number.length = 1 ∧ a.number.head? = some 0) ↔ mag a = 0 := by
  unfold mag
  rw [canonical_mag_zero _ h.2]
  constructor
  · rintro ⟨h1, h2⟩
    match hn : a.number, h1, h2 with
    | [x], _, h2 => simp at h2; rw [h2]
  · intro h; rw [h]; simp

/-- The magnitude comparison made by `compare` on two operands of the same sign. -/
theorem compare_mag (r : comparison_result) (a b : big_integer) (ha : wf a) (hb : wf b) :
    (if a.number.length < b.number.length then inverse_comparison r
     else if a.number.length > b.number.length then r
     else compare_loop r a.number.reverse b.number.reverse) =
      if mag a < mag b then inverse_comparison r
      else if mag a > mag b then r else .equal := by
  unfold mag
  rcases Nat.lt_trichotomy a.number.length b.number.length with h | h | h
  · rw [if_pos h, if_pos (mag_lt_of_length_lt _ _ ha.1 hb.2 h ha.2.1)]
  · rw [if_neg (by omega), if_neg (by omega),
      compare_loop_mag r _ _ (by simpa using h) (digits_ok_reverse.2 ha.1)
        (digits_ok_reverse.2 hb.1)]
    simp only [List.reverse_reverse]
  · have h2 := mag_lt_of_length_lt _ _ hb.1 ha.2 h hb.2.1
    rw [if_neg (by omega), if_pos h, if_neg (by omega), if_pos h2]

/-- Function `compare` is the comparison of the values. -/
theorem compare_val (a b : big_integer) (ha : wf a) (hb : wf b) :
    compare a b = cmp (val a) (val b) := by
  have za := is_zero_iff a ha
  have zb := is_zero_iff b hb
  have hm := fun r => compare_mag r a b ha hb
  unfold compare
  simp only [hm]
  unfold cmp val
  by_cases hz : a.number.length = 1 ∧ a.number.head? = some 0
      ∧ b.number.length = 1 ∧ b.number.head? = some 0
  · rw [if_pos hz]
    have h1 : mag a = 0 := za.1 ⟨hz.1, hz.2.1⟩
    have h2 : mag b = 0 := zb.1 hz.2.2
    simp [h1, h2]
  · rw [if_neg hz]
    have hz2 : ¬ (mag a = 0 ∧ mag b = 0) := by
      rintro ⟨h1, h2⟩
      exact hz ⟨(za.2 h1).1, (za.2 h1).2, zb.2 h2⟩
    cases ha2 : a.is_positive <;> cases hb2 : b.is_positive <;>
      simp only [Bool.false_eq_true, not_false_eq_true, not_true_eq_false, and_self,
        and_true, and_false, true_and, false_and, if_true, if_false, inverse_comparison]
    · by_cases h1 : mag a < mag b
      · rw [if_pos h1, if_neg (by omega), if_neg (by omega)]
      · rw [if_neg h1]
        by_cases h2 : mag a > mag b
        · rw [if_pos h2, if_pos (by omega)]
        · rw [if_neg h2, if_neg (by omega), if_pos (by omega)]
    · rw [if_pos (by omega)]
    · rw [if_neg (by omega), if_neg (by omega)]
    · by_cases h1 : mag a < mag b
      · rw [if_pos h1, if_pos (by omega)]
      · rw [if_neg h1]
        by_cases h2 : mag a > mag b
        · rw [if_pos h2, if_neg (by omega), if_neg (by omega)]
        · rw [if_neg h2, if_neg (by omega), if_pos (by omega)]


/-! ## Addition and subtraction compute the sum and the difference -/

theorem canonical_of_mag (l : List Nat) (hd : digits_ok l) (hne : l ≠ [])
    (h : l = [0] ∨ base ^ (l.length - 1) ≤ mag_nat l) : canonical l := by
  refine ⟨hne, ?_⟩
  rcases h with h | h
  · exact Or.inl h
  · obtain ⟨l', x, rfl⟩ : ∃ l' x, l = l' ++ [x] :=
      ⟨l.dropLast, l.getLast hne, (List.dropLast_append_getLast hne).symm⟩
    by_cases hx : x = 0
    · subst hx
      rw [mag_nat_append] at h
      simp only [List.length_append, List.length_singleton, Nat.add_sub_cancel, mag_nat,
        Nat.mul_zero, Nat.add_zero] at h
      have := mag_nat_lt l' (digits_ok_append.1 hd).1
      omega
    · right
      simpa using hx

theorem add_loop_spec (xs ys : List Nat) (c : Nat) (hc : c ≤ 1) (hx : digits_ok xs)
    (hy : digits_ok ys) (hl : ys.length ≤ xs.length) :
    mag_nat (add_loop xs ys c) = mag_nat xs + mag_nat ys + c
    ∧ digits_ok (add_loop xs ys c)
    ∧ xs.length ≤ (add_loop xs ys c).length
    ∧ (add_loop xs ys c).length ≤ xs.length + 1
    ∧ ((add_loop xs ys c).length = xs.length + 1 → (add_loop xs ys c).getLast? = some 1) := by
  induction xs generalizing ys c with
  | nil =>
    have hy0 : ys = [] := by
      cases ys with
      | nil => rfl
      | cons y ys => simp at hl
    subst hy0
    simp only [add_loop]
    by_cases h0 : c > 0
    · have h1 : c = 1 := by omega
      subst h1
      simp [mag_nat, digits_ok, base_val]
    · have h1 : c = 0 := by omega
      subst h1
      simp [mag_nat, digits_ok]
  | cons x xs ih =>
    have hx1 := (digits_ok_cons.1 hx).1
    have hx2 := (digits_ok_cons.1 hx).2
    have key : ∀ (y : Nat) (ys' : List Nat), y < base → digits_ok ys' →
        ys'.length ≤ xs.length →
        mag_nat ((((x + y + c) % 2 ^ 64) % base) % 2 ^ 32 ::
            add_loop xs ys' (((x + y + c) % 2 ^ 64) / base))
          = mag_nat (x :: xs) + (y + base * mag_nat ys') + c
        ∧ digits_ok ((((x + y + c) % 2 ^ 64) % base) % 2 ^ 32 ::
            add_loop xs ys' (((x + y + c) % 2 ^ 64) / base))
        ∧ (x :: xs).length ≤ ((((x + y + c) % 2 ^ 64) % base) % 2 ^ 32 ::
            add_loop xs ys' (((x + y + c) % 2 ^ 64) / base)).length
        ∧ ((((x + y + c) % 2 ^ 64) % base) % 2 ^ 32 ::
            add_loop xs ys' (((x + y + c) % 2 ^ 64) / base)).length ≤ (x :: xs).length + 1
        ∧ (((((x + y + c) % 2 ^ 64) % base) % 2 ^ 32 ::
            add_loop xs ys' (((x + y + c) % 2 ^ 64) / base)).length = (x :: xs).length + 1 →
          ((((x + y + c) % 2 ^ 64) % base) % 2 ^ 32 ::
            add_loop xs ys' (((x + y + c) % 2 ^ 64) / base)).getLast? = some 1) := by
      intro y ys' hy1 hy2 hl2
      rw [base_val] at hx1 hy1
      have e1 : (x + y + c) % 2 ^ 64 = x + y + c := Nat.mod_eq_of_lt (by omega)
      have hc2 : (x + y + c) / base ≤ 1 := by
        rw [base_val]; omega
      obtain ⟨i1, i2, i3, i4, i5⟩ := ih ys' ((x + y + c) / base) hc2 hx2 hy2 hl2
      rw [e1]
      have e2 : (x + y + c) % base % 2 ^ 32 = (x + y + c) % base := by
        rw [base_val]; omega
      rw [e2]
      refine ⟨?_, ?_, ?_, ?_, ?_⟩
      · simp only [mag_nat, i1]
        have := Nat.div_add_mod (x + y + c) base
        rw [Nat.mul_add, Nat.mul_add]
        omega
      · rw [digits_ok_cons]
        exact ⟨Nat.mod_lt _ base_pos, i2⟩
      · simp only [List.length_cons]; omega
      · simp only [List.length_cons]; omega
      · intro h
        simp only [List.length_cons] at h
        have h2 := i5 (by omega)
        have hne : add_loop xs ys' ((x + y + c) / base) ≠ [] := by
          intro e; rw [e] at h2; simp at h2
        rw [List.getLast?_cons, h2]
        rfl
    cases ys with
    | nil =>
      have := key 0 [] base_pos digits_ok_nil (by simp)
      simpa [add_loop, mag_nat] using this
    | cons y ys =>
      have := key y ys (digits_ok_cons.1 hy).1 (digits_ok_cons.1 hy).2 (by simpa using hl)
      simpa [add_loop, mag_nat] using this

theorem digits_ok_resize (l : List Nat) (n : Nat) (h : digits_ok l) :
    digits_ok (resize l n 0) := by
  unfold resize
  rw [digits_ok_append]
  exact ⟨h, digits_ok_replicate _ _ base_pos⟩

theorem mag_nat_resize (l : List Nat) (n : Nat) : mag_nat (resize l n 0) = mag_nat l := by
  unfold resize
  rw [mag_nat_append, mag_nat_replicate_zero]
  simp

theorem length_resize (l : List Nat) (n f : Nat) :
    (resize l n f).length = max l.length n := by
  unfold resize
  simp only [List.length_append, List.length_replicate]
  omega

theorem length_pos_of_wf (a : big_integer) (ha : wf a) : 1 ≤ a.number.length := by
  have := ha.2.1
  cases h : a.number with
  | nil => exact absurd h this
  | cons x l => simp

theorem number_ne_zero_of_length (a : big_integer) (h : 2 ≤ a.number.length) :
    a.number ≠ [0] := by
  intro e
  rw [e] at h
  simp at h

/-- Lines 96-110 of `operator+=`: the magnitudes are added and the sign of the receiver
is kept. -/
theorem add_same_spec (a b : big_integer) (ha : wf a) (hb : wf b) :
    mag (add_same a b) = mag a + mag b ∧ (add_same a b).is_positive = a.is_positive
    ∧ wf (add_same a b) := by
  have hla := length_pos_of_wf a ha
  have hlb := length_pos_of_wf b hb
  have hr := digits_ok_resize a.number (max a.number.length b.number.length) ha.1
  have hlr : (resize a.number (max a.number.length b.number.length) 0).length
      = max a.number.length b.number.length := by
    rw [length_resize]; omega
  obtain ⟨i1, i2, i3, i4, i5⟩ := add_loop_spec _ b.number 0 (by omega) hr hb.1
    (by rw [hlr]; omega)
  rw [mag_nat_resize] at i1
  rw [hlr] at i3 i4 i5
  have hm : mag (add_same a b) = mag a + mag b := by
    unfold mag add_same
    simpa using i1
  refine ⟨hm, rfl, ?_⟩
  unfold add_same
  refine ⟨i2, ?_⟩
  simp only
  generalize add_loop (resize a.number (max a.number.length b.number.length) 0)
    b.number 0 = res at *
  have hne : res ≠ [] := by
    intro e
    have h0 : res.length = 0 := by rw [e]; rfl
    omega
  by_cases hlen : res.length = max a.number.length b.number.length + 1
  · refine ⟨hne, Or.inr ?_⟩
    rw [i5 hlen]; simp
  · apply canonical_of_mag res i2 hne
    have hlen2 : res.length = max a.number.length b.number.length := by omega
    rw [hlen2, i1]
    by_cases hL : max a.number.length b.number.length = 1
    · rw [hL] at hlen2 ⊢
      match res, hlen2, i1 with
      | [r], _, i1 =>
        by_cases hr0 : r = 0
        · left; rw [hr0]
        · right
          simp only [mag_nat] at i1
          simp only [Nat.sub_self, pow_zero]
          omega
    · right
      rcases Nat.le_total a.number.length b.number.length with h | h
      · rw [Nat.max_eq_right h] at hL ⊢
        have := canonical_mag_ge _ hb.2 (number_ne_zero_of_length b (by omega))
        omega
      · rw [Nat.max_eq_left h] at hL ⊢
        have := canonical_mag_ge _ ha.2 (number_ne_zero_of_length a (by omega))
        omega


theorem sub_loop_spec (xs ys : List Nat) (c : Int) (hc : c = 0 ∨ c = 1) (hx : digits_ok xs)
    (hy : digits_ok ys) (hl : ys.length ≤ xs.length) :
    ∃ b : Int, (b = 0 ∨ b = 1)
      ∧ (mag_nat (sub_loop xs ys c) : Int)
          = (mag_nat xs : Int) - (mag_nat ys : Int) - c + b * (base : Int) ^ xs.length
      ∧ digits_ok (sub_loop xs ys c)
      ∧ (sub_loop xs ys c).length = xs.length := by
  induction xs generalizing ys c with
  | nil =>
    have hy0 : ys = [] := by
      cases ys with
      | nil => rfl
      | cons y ys => simp at hl
    subst hy0
    refine ⟨c, hc, ?_, digits_ok_nil, rfl⟩
    simp [sub_loop, mag_nat]
  | cons x xs ih =>
    have hx1 := (digits_ok_cons.1 hx).1
    have hx2 := (digits_ok_cons.1 hx).2
    have key : ∀ (y : Nat) (ys' : List Nat), y < base → digits_ok ys' →
        ys'.length ≤ xs.length → ys.headD 0 = y → ys.tail = ys' →
        mag_nat ys = y + base * mag_nat ys' →
        ∃ b : Int, (b = 0 ∨ b = 1)
          ∧ (mag_nat (sub_loop (x :: xs) ys c) : Int)
              = (mag_nat (x :: xs) : Int) - (mag_nat ys : Int) - c
                + b * (base : Int) ^ (x :: xs).length
          ∧ digits_ok (sub_loop (x :: xs) ys c)
          ∧ (sub_loop (x :: xs) ys c).length = (x :: xs).length := by
      intro y ys' hy1 hy2 hl2 e1 e2 e3
      simp only [sub_loop, e1, e2, e3]
      rw [base_val] at hx1 hy1
      by_cases hneg : (x : Int) - (y : Int) - c < 0
      · rw [if_pos hneg]
        obtain ⟨b, hb, i1, i2, i3⟩ := ih ys' 1 (Or.inr rfl) hx2 hy2 hl2
        have hd : ((x : Int) - (y : Int) - c + (base : Int)) % 2 ^ 32
            = (x : Int) - (y : Int) - c + (base : Int) := by
          apply Int.emod_eq_of_lt
          · rw [base_val]; push_cast; rcases hc with h | h <;> omega
          · rw [base_val]; push_cast; omega
        rw [hd]
        have hd0 : 0 ≤ (x : Int) - (y : Int) - c + (base : Int) := by
          rw [base_val]; push_cast; rcases hc with h | h <;> omega
        refine ⟨b, hb, ?_, ?_, ?_⟩
        · simp only [mag_nat, List.length_cons]
          push_cast
          rw [Int.toNat_of_nonneg hd0, i1, pow_succ]
          ring
        · rw [digits_ok_cons]
          refine ⟨?_, i2⟩
          have : ((x : Int) - (y : Int) - c + (base : Int)).toNat < 4294967296 := by
            rw [base_val]; push_cast; omega
          rw [base_val]; exact this
        · simp [i3]
      · rw [if_neg hneg]
        obtain ⟨b, hb, i1, i2, i3⟩ := ih ys' 0 (Or.inl rfl) hx2 hy2 hl2
        have hd0 : 0 ≤ (x : Int) - (y : Int) - c := by omega
        have hd : ((x : Int) - (y : Int) - c) % 2 ^ 32 = (x : Int) - (y : Int) - c := by
          apply Int.emod_eq_of_lt hd0
          rcases hc with h | h <;> omega
        rw [hd]
        refine ⟨b, hb, ?_, ?_, ?_⟩
        · simp only [mag_nat, List.length_cons]
          push_cast
          rw [Int.toNat_of_nonneg hd0, i1, pow_succ]
          ring
        · rw [digits_ok_cons]
          refine ⟨?_, i2⟩
          have : ((x : Int) - (y : Int) - c).toNat < 4294967296 := by
            rcases hc with h | h <;> omega
          rw [base_val]; exact this
        · simp [i3]
    cases ys with
    | nil => exact key 0 [] base_pos digits_ok_nil (by simp) rfl rfl (by simp [mag_nat])
    | cons y ys =>
      exact key y ys (digits_ok_cons.1 hy).1 (digits_ok_cons.1 hy).2 (by simpa using hl)
        rfl rfl rfl

/-- The size of a canonical vector is monotone in its value. -/
theorem length_le_of_mag_le (a b : big_integer) (ha : wf a) (hb : wf b)
    (h : mag b ≤ mag a) : b.number.length ≤ a.number.length := by
  by_contra hlt
  have := mag_lt_of_length_lt a.number b.number ha.1 hb.2 (by omega) ha.2.1
  unfold mag at h
  omega

/-- Lines 131-146 of `operator-=`: the borrow loop and `trim`, when the magnitude of the
receiver is not the smaller one. -/
theorem sub_borrow_spec (a b : big_integer) (ha : wf a) (hb : wf b) (h : mag b ≤ mag a) :
    mag (trim { a with number := sub_loop a.number b.number 0 }) = mag a - mag b
    ∧ wf (trim { a with number := sub_loop a.number b.number 0 }) := by
  obtain ⟨c, hc, i1, i2, i3⟩ := sub_loop_spec a.number b.number 0 (Or.inl rfl) ha.1 hb.1
    (length_le_of_mag_le a b ha hb h)
  have hlt := mag_nat_lt _ i2
  rw [i3] at hlt
  have hlt2 := mag_nat_lt _ ha.1
  have hc0 : c = 0 := by
    rcases hc with h0 | h1
    · exact h0
    · exfalso
      rw [h1] at i1
      have e : ((base ^ a.number.length : Nat) : Int) = (base : Int) ^ a.number.length := by
        push_cast; rfl
      rw [← e] at i1
      unfold mag at h
      omega
  rw [hc0] at i1
  have hla := length_pos_of_wf a ha
  constructor
  · rw [mag_trim]
    unfold mag at h ⊢
    simp only
    omega
  · apply trim_wf _ i2
    intro e
    simp only at e
    rw [e] at i3
    simp at i3
    omega

theorem sub_swaps_iff (a b : big_integer) (ha : wf a) (hb : wf b)
    (hs : a.is_positive = b.is_positive) : sub_swaps a b = true ↔ mag a < mag b := by
  unfold sub_swaps lt gt
  rw [compare_val a b ha hb]
  unfold cmp val
  rw [← hs]
  cases a.is_positive
  · simp only [Bool.false_eq_true, if_false, Bool.false_and, Bool.not_false, Bool.true_and,
      Bool.false_or, decide_eq_true_eq]
    by_cases h1 : mag a < mag b
    · simp only [h1, iff_true]
      rw [if_neg (by omega), if_neg (by omega)]
    · simp only [h1, iff_false]
      by_cases h2 : mag a = mag b
      · rw [if_neg (by omega), if_pos (by omega)]; simp
      · rw [if_pos (by omega)]; simp
  · simp only [if_true, Bool.true_and, Bool.not_true, Bool.false_and, Bool.or_false,
      decide_eq_true_eq]
    by_cases h1 : mag a < mag b
    · simp only [h1, iff_true]
      rw [if_pos (by omega)]
    · simp only [h1, iff_false]
      by_cases h2 : mag a = mag b
      · rw [if_neg (by omega), if_pos (by omega)]; simp
      · rw [if_neg (by omega), if_neg (by omega)]; simp

/-- The same-sign part of `operator-=`: the difference of the magnitudes with the sign of
the receiver, or with the opposite sign when the receiver is the smaller operand. -/
theorem sub_same_spec (a b : big_integer) (ha : wf a) (hb : wf b)
    (hs : a.is_positive = b.is_positive) :
    wf (sub_same a b)
    ∧ (mag b ≤ mag a → mag (sub_same a b) = mag a - mag b
        ∧ (sub_same a b).is_positive = a.is_positive)
    ∧ (mag a < mag b → mag (sub_same a b) = mag b - mag a
        ∧ (sub_same a b).is_positive = !a.is_positive) := by
  have key : ∀ a b : big_integer, wf a → wf b → a.is_positive = b.is_positive →
      mag b ≤ mag a → sub_same a b = trim { a with number := sub_loop a.number b.number 0 } := by
    intro a b ha hb hs h
    rw [sub_same]
    have : ¬ sub_swaps a b = true := by
      rw [sub_swaps_iff a b ha hb hs]; omega
    rw [dif_neg this]
  by_cases h : mag b ≤ mag a
  · rw [key a b ha hb hs h]
    obtain ⟨i1, i2⟩ := sub_borrow_spec a b ha hb h
    exact ⟨i2, fun _ => ⟨i1, rfl⟩, fun h2 => absurd h2 (by omega)⟩
  · have hsw : sub_swaps a b = true := by
      rw [sub_swaps_iff a b ha hb hs]; omega
    rw [sub_same, dif_pos hsw, key b a hb ha hs.symm (by omega)]
    obtain ⟨i1, i2⟩ := sub_borrow_spec b a hb ha (by omega)
    refine ⟨⟨i2.1, i2.2⟩, fun h2 => absurd h2 h, fun _ => ⟨?_, ?_⟩⟩
    · exact i1
    · simp only [trim_is_positive, hs]

theorem val_of_pos (a : big_integer) (h : a.is_positive = true) : val a = mag a := by
  unfold val; rw [if_pos h]

theorem val_of_neg (a : big_integer) (h : a.is_positive = false) : val a = -(mag a : Int) := by
  unfold val; rw [h]; simp

theorem sub_same_val (a b : big_integer) (ha : wf a) (hb : wf b)
    (hs : a.is_positive = b.is_positive) :
    val (sub_same a b) = val a - val b ∧ wf (sub_same a b) := by
  obtain ⟨i1, i2, i3⟩ := sub_same_spec a b ha hb hs
  refine ⟨?_, i1⟩
  by_cases h : mag b ≤ mag a
  · obtain ⟨j1, j2⟩ := i2 h
    unfold val
    rw [j1, j2, ← hs]
    cases a.is_positive <;> simp <;> omega
  · obtain ⟨j1, j2⟩ := i3 (by omega)
    unfold val
    rw [j1, j2, ← hs]
    cases a.is_positive <;> simp <;> omega

theorem wf_set_sign (a : big_integer) (s : Bool) (h : wf a) :
    wf { a with is_positive := s } := h

theorem mag_set_sign (a : big_integer) (s : Bool) :
    mag { a with is_positive := s } = mag a := rfl

/-- Function `operator-=` computes the difference. -/
theorem sub_val (a b : big_integer) (ha : wf a) (hb : wf b) :
    val (sub a b) = val a - val b ∧ wf (sub a b) := by
  unfold sub
  cases hpa : a.is_positive <;> cases hpb : b.is_positive
  · simp only [Bool.false_and, Bool.not_false, Bool.and_false, Bool.false_eq_true, if_false]
    exact sub_same_val a b ha hb (by rw [hpa, hpb])
  · simp only [Bool.false_and, Bool.not_false, Bool.true_and, Bool.false_eq_true, if_false,
      if_true]
    obtain ⟨i1, i2, i3⟩ := add_same_spec a { b with is_positive := false } ha hb
    refine ⟨?_, i3⟩
    rw [val_of_neg _ (by rw [i2, hpa]), i1, val_of_neg a hpa, val_of_pos b hpb]
    have e : mag { b with is_positive := false } = mag b := rfl
    rw [e]
    push_cast; ring
  · simp only [Bool.not_false, Bool.and_true, if_true]
    obtain ⟨i1, i2, i3⟩ := add_same_spec a { b with is_positive := true } ha hb
    refine ⟨?_, i3⟩
    rw [val_of_pos _ (by rw [i2, hpa]), i1, val_of_pos a hpa, val_of_neg b hpb]
    have e : mag { b with is_positive := true } = mag b := rfl
    rw [e]
    push_cast; ring
  · simp only [Bool.not_true, Bool.and_false, Bool.false_and, Bool.false_eq_true, if_false]
    exact sub_same_val a b ha hb (by rw [hpa, hpb])

theorem le_iff (a b : big_integer) (ha : wf a) (hb : wf b) :
    le a b = true ↔ val a ≤ val b := by
  unfold le gt
  rw [compare_val a b ha hb]
  unfold cmp
  by_cases h1 : val a < val b
  · rw [if_pos h1]; simp; omega
  · rw [if_neg h1]
    by_cases h2 : val a = val b
    · rw [if_pos h2]; simp; omega
    · rw [if_neg h2]; simp; omega

/-- Function `operator+=` computes the sum. -/
theorem add_val (a b : big_integer) (ha : wf a) (hb : wf b) :
    val (add a b) = val a + val b ∧ wf (add a b) := by
  unfold add
  cases hpa : a.is_positive <;> cases hpb : b.is_positive
  · simp only [Bool.not_false, Bool.true_and, Bool.false_eq_true, if_false, Bool.false_and]
    obtain ⟨i1, i2, i3⟩ := add_same_spec a b ha hb
    refine ⟨?_, i3⟩
    rw [val_of_neg _ (by rw [i2, hpa]), i1, val_of_neg a hpa, val_of_neg b hpb]
    push_cast; ring
  · simp only [Bool.not_false, Bool.true_and, if_true]
    have ha1 : wf { a with is_positive := true } := ha
    have v1 : val { a with is_positive := true } = -val a := by
      rw [val_of_pos _ rfl, val_of_neg a hpa, mag_set_sign]; simp
    by_cases hle : le { a with is_positive := true } b = true
    · rw [if_pos hle]
      obtain ⟨j1, j2⟩ := sub_val b { a with is_positive := true } hb ha1
      exact ⟨by rw [j1, v1]; ring, j2⟩
    · rw [if_neg hle]
      obtain ⟨j1, j2⟩ := sub_val { a with is_positive := true } b ha1 hb
      refine ⟨?_, j2⟩
      rw [le_iff _ _ ha1 hb, v1] at hle
      have hnn : 0 ≤ val (sub { a with is_positive := true } b) := by rw [j1, v1]; omega
      have hm : (mag (sub { a with is_positive := true } b) : Int)
          = -val a - val b := by
        rw [← v1, ← j1]
        unfold val at hnn ⊢
        by_cases hp : (sub { a with is_positive := true } b).is_positive = true
        · rw [if_pos hp]
        · rw [if_neg hp] at hnn ⊢
          omega
      rw [val_of_neg _ rfl, mag_set_sign, hm]
      ring
  · simp only [Bool.not_true, Bool.false_and, Bool.false_eq_true, if_false, Bool.not_false,
      Bool.and_self, if_true]
    have hb1 : wf { b with is_positive := true } := hb
    have v1 : val { b with is_positive := true } = -val b := by
      rw [val_of_pos _ rfl, val_of_neg b hpb, mag_set_sign]; simp
    by_cases hle : le a { b with is_positive := true } = true
    · rw [if_pos hle]
      obtain ⟨j1, j2⟩ := sub_val { b with is_positive := true } a hb1 ha
      refine ⟨?_, j2⟩
      rw [le_iff _ _ ha hb1, v1] at hle
      have hnn : 0 ≤ val (sub { b with is_positive := true } a) := by rw [j1, v1]; omega
      have hm : (mag (sub { b with is_positive := true } a) : Int)
          = -val b - val a := by
        rw [← v1, ← j1]
        unfold val at hnn ⊢
        by_cases hp : (sub { b with is_positive := true } a).is_positive = true
        · rw [if_pos hp]
        · rw [if_neg hp] at hnn ⊢
          omega
      rw [val_of_neg _ rfl, mag_set_sign, hm]
      ring
    · rw [if_neg hle]
      obtain ⟨j1, j2⟩ := sub_val a { b with is_positive := true } ha hb1
      exact ⟨by rw [j1, v1]; ring, j2⟩
  · simp only [Bool.not_true, Bool.false_and, Bool.false_eq_true, if_false, Bool.and_false]
    obtain ⟨i1, i2, i3⟩ := add_same_spec a b ha hb
    refine ⟨?_, i3⟩
    rw [val_of_pos _ (by rw [i2, hpa]), i1, val_of_pos a hpa, val_of_pos b hpb]
    push_cast; ring


/-! ## Multiplication computes the product -/

theorem mag_nat_set (l : List Nat) (k v : Nat) (hk : k < l.length) :
    mag_nat (l.set k v) + l.getD k 0 * base ^ k = mag_nat l + v * base ^ k := by
  induction l generalizing k with
  | nil => simp at hk
  | cons d l ih =>
    cases k with
    | zero => simp [mag_nat]; omega
    | succ k =>
      have h := ih k (by simpa using hk)
      simp only [List.set_cons_succ, mag_nat, List.getD_cons_succ, pow_succ]
      have e1 : l.getD k 0 * (base ^ k * base) = base * (l.getD k 0 * base ^ k) := by ring
      have e2 : v * (base ^ k * base) = base * (v * base ^ k) := by ring
      rw [e1, e2]
      have h2 : base * (mag_nat (l.set k v) + l.getD k 0 * base ^ k)
          = base * (mag_nat l + v * base ^ k) := by rw [h]
      rw [Nat.mul_add, Nat.mul_add] at h2
      omega

theorem getD_set_ne (l : List Nat) (k k2 v : Nat) (h : k ≠ k2) :
    (l.set k v).getD k2 0 = l.getD k2 0 := by
  simp [List.getD_eq_getElem?_getD, List.getElem?_set_ne h]

theorem digits_ok_set (l : List Nat) (k v : Nat) (hl : digits_ok l) (hv : v < base) :
    digits_ok (l.set k v) := by
  intro d hd
  rcases List.mem_or_eq_of_mem_set hd with h | h
  · exact hl d h
  · rw [h]; exact hv

theorem getD_lt_base (l : List Nat) (k : Nat) (hl : digits_ok l) : l.getD k 0 < base := by
  rw [List.getD_eq_getElem?_getD]
  cases h : l[k]? with
  | none => exact base_pos
  | some d => exact hl d (List.getElem?_mem h)

theorem mul_inner_spec (y i : Nat) (hy : y < base) (xs : List Nat) (j : Nat)
    (res : List Nat) (carry : Nat) (hx : digits_ok xs) (hr : digits_ok res)
    (hc : carry < base) (hlen : i + j + xs.length ≤ res.length) :
    mag_nat (mul_inner y i xs j res carry).1
        + (mul_inner y i xs j res carry).2 * base ^ (i + j + xs.length)
      = mag_nat res + carry * base ^ (i + j) + base ^ (i + j) * y * mag_nat xs
    ∧ digits_ok (mul_inner y i xs j res carry).1
    ∧ (mul_inner y i xs j res carry).2 < base
    ∧ (mul_inner y i xs j res carry).1.length = res.length
    ∧ ∀ k, i + j + xs.length ≤ k →
        (mul_inner y i xs j res carry).1.getD k 0 = res.getD k 0 := by
  induction xs generalizing j res carry with
  | nil =>
    simp only [mul_inner, List.length_nil, Nat.add_zero, mag_nat, Nat.mul_zero]
    exact ⟨trivial, hr, hc, trivial, fun _ _ => trivial⟩
  | cons x xs ih =>
    have hx1 := (digits_ok_cons.1 hx).1
    have hx2 := (digits_ok_cons.1 hx).2
    have hg := getD_lt_base res (i + j) hr
    simp only [List.length_cons] at hlen
    have hxy : x * y ≤ 4294967295 * 4294967295 := by
      rw [base_val] at hx1 hy
      exact Nat.mul_le_mul (by omega) (by omega)
    have e0 : (x * y) % 2 ^ 64 = x * y := Nat.mod_eq_of_lt (by omega)
    have e1 : (res.getD (i + j) 0 + x * y + carry) % 2 ^ 64
        = res.getD (i + j) 0 + x * y + carry := by
      apply Nat.mod_eq_of_lt
      rw [base_val] at hg hc
      omega
    have e2 : ∀ n : Nat, (n &&& all_bits_one) % 2 ^ 32 = n % base := by
      intro n
      have : all_bits_one = 2 ^ 32 - 1 := by decide
      rw [this, Nat.and_pow_two_sub_one_eq_mod, Nat.mod_mod, base_val]
    have e3 : ∀ n : Nat, n >>> base_cnt_bits = n / base := by
      intro n
      rw [Nat.shiftRight_eq_div_pow]
      rfl
    simp only [mul_inner, e0, e1, e2, e3]
    generalize hcur : res.getD (i + j) 0 + x * y + carry = cur
    have hcur_lt : cur / base < base := by
      rw [base_val] at hg hc ⊢
      omega
    obtain ⟨i1, i2, i3, i4, i5⟩ := ih (j + 1) (res.set (i + j) (cur % base)) (cur / base) hx2
      (digits_ok_set _ _ _ hr (Nat.mod_lt _ base_pos)) hcur_lt
      (by rw [List.length_set]; omega)
    have hs := mag_nat_set res (i + j) (cur % base) (by omega)
    refine ⟨?_, i2, i3, by rw [i4, List.length_set], ?_⟩
    · have a1 : i + (j + 1) + xs.length = i + j + (xs.length + 1) := by ring
      rw [a1] at i1
      simp only [List.length_cons, mag_nat]
      have a2 : base ^ (i + (j + 1)) = base * base ^ (i + j) := by
        rw [← Nat.add_assoc, pow_succ]; ring
      rw [a2] at i1
      have hdm := Nat.div_add_mod cur base
      generalize base ^ (i + j) = P at *
      generalize mag_nat (mul_inner y i xs (j + 1) (res.set (i + j) (cur % base)) (cur / base)).1
        + (mul_inner y i xs (j + 1) (res.set (i + j) (cur % base)) (cur / base)).2
          * base ^ (i + j + (xs.length + 1)) = T at *
      have h1 : T + res.getD (i + j) 0 * P
          = mag_nat res + (cur % base + base * (cur / base)) * P
            + base * P * y * mag_nat xs := by
        rw [i1]
        have : mag_nat (res.set (i + j) (cur % base)) + cur / base * (base * P)
            + base * P * y * mag_nat xs + res.getD (i + j) 0 * P
            = (mag_nat (res.set (i + j) (cur % base)) + res.getD (i + j) 0 * P)
              + cur / base * (base * P) + base * P * y * mag_nat xs := by ring
        rw [this, hs]
        ring
      have h2 : cur % base + base * (cur / base) = cur := by omega
      rw [h2, ← hcur] at h1
      have h3 : (res.getD (i + j) 0 + x * y + carry) * P
          = res.getD (i + j) 0 * P + x * y * P + carry * P := by ring
      rw [h3] at h1
      have h4 : P * y * (x + base * mag_nat xs) = x * y * P + base * P * y * mag_nat xs := by
        ring
      rw [h4]
      omega
    · intro k hk
      simp only [List.length_cons] at hk
      rw [i5 k (by omega), getD_set_ne _ _ _ _ (by omega)]


theorem getD_set_self (l : List Nat) (k v : Nat) (hk : k < l.length) :
    (l.set k v).getD k 0 = v := by
  simp [List.getD_eq_getElem?_getD, hk]

theorem mul_outer_spec (number : List Nat) (hn : digits_ok number) (ys : List Nat) (i : Nat)
    (res : List Nat) (hy : digits_ok ys) (hr : digits_ok res)
    (hlen : i + ys.length + number.length ≤ res.length)
    (hz : ∀ k, i + number.length ≤ k → res.getD k 0 = 0) :
    mag_nat (mul_outer number ys i res) = mag_nat res + base ^ i * mag_nat number * mag_nat ys
    ∧ digits_ok (mul_outer number ys i res)
    ∧ (mul_outer number ys i res).length = res.length := by
  induction ys generalizing i res with
  | nil => simp [mul_outer, mag_nat, hr]
  | cons y ys ih =>
    have hy1 := (digits_ok_cons.1 hy).1
    have hy2 := (digits_ok_cons.1 hy).2
    simp only [List.length_cons] at hlen
    obtain ⟨i1, i2, i3, i4, i5⟩ := mul_inner_spec y i hy1 number 0 res 0 hn hr base_pos
      (by omega)
    simp only [Nat.add_zero, Nat.zero_mul] at i1 i5
    simp only [mul_outer]
    generalize mul_inner y i number 0 res 0 = r at *
    have e32 : r.2 % 2 ^ 32 = r.2 := by
      rw [base_val] at i3; omega
    rw [e32]
    have hz1 : r.1.getD (i + number.length) 0 = 0 := by
      rw [i5 _ (le_refl _), hz _ (le_refl _)]
    have hres1 : ∀ res1 : List Nat,
        res1 = (if r.2 ≠ 0 then r.1.set (i + number.length) r.2 else r.1) →
        mag_nat res1 = mag_nat r.1 + r.2 * base ^ (i + number.length)
        ∧ digits_ok res1 ∧ res1.length = res.length
        ∧ ∀ k, i + 1 + number.length ≤ k → res1.getD k 0 = 0 := by
      intro res1 he
      by_cases hc : r.2 ≠ 0
      · rw [if_pos hc] at he
        have hs := mag_nat_set r.1 (i + number.length) r.2 (by omega)
        rw [hz1] at hs
        rw [he]
        refine ⟨by omega, digits_ok_set _ _ _ i2 i3, by rw [List.length_set, i4], ?_⟩
        intro k hk
        rw [getD_set_ne _ _ _ _ (by omega), i5 k (by omega), hz k (by omega)]
      · rw [if_neg hc] at he
        have hc0 : r.2 = 0 := by omega
        rw [he, hc0]
        refine ⟨by omega, i2, i4, ?_⟩
        intro k hk
        rw [i5 k (by omega), hz k (by omega)]
    obtain ⟨j1, j2, j3, j4⟩ := hres1 _ rfl
    generalize (if r.2 ≠ 0 then r.1.set (i + number.length) r.2 else r.1) = res1 at *
    obtain ⟨k1, k2, k3⟩ := ih (i + 1) res1 hy2 j2 (by omega) j4
    refine ⟨?_, k2, by rw [k3, j3]⟩
    rw [k1, j1, pow_succ]
    simp only [mag_nat]
    have : mag_nat r.1 + r.2 * base ^ (i + number.length)
        = mag_nat res + base ^ i * y * mag_nat number := i1
    rw [this]
    ring

/-- Function `operator*=`: the magnitude is the product of the magnitudes and the sign flag is
positive exactly when the sign flags of the operands agree. -/
theorem mul_spec (a b : big_integer) (ha : digits_ok a.number) (hb : digits_ok b.number)
    (hne : a.number ≠ []) :
    mag (mul a b) = mag a * mag b
    ∧ (mul a b).is_positive = decide (a.is_positive = b.is_positive)
    ∧ wf (mul a b) := by
  have hrep : digits_ok (List.replicate (a.number.length + b.number.length) 0) :=
    digits_ok_replicate _ _ base_pos
  obtain ⟨i1, i2, i3⟩ := mul_outer_spec a.number ha b.number 0
    (List.replicate (a.number.length + b.number.length) 0) hb hrep
    (by simp; omega)
    (by
      intro k _
      rw [List.getD_eq_getElem?_getD]
      cases h : (List.replicate (a.number.length + b.number.length) 0)[k]? with
      | none => rfl
      | some d =>
        have := List.getElem?_mem h
        rw [List.mem_replicate] at this
        simp [this.2])
  rw [mag_nat_replicate_zero] at i1
  simp only [pow_zero, Nat.one_mul, Nat.zero_add, List.length_replicate] at i1 i3
  unfold mul
  simp only
  generalize mul_outer a.number b.number 0
    (List.replicate (a.number.length + b.number.length) 0) = R at i1 i2 i3 ⊢
  have hm := mag_trim ⟨R, true⟩
  have hw := trim_wf ⟨R, true⟩ i2 (by
    intro e
    simp only at e
    rw [e] at i3
    have : 1 ≤ a.number.length := by
      cases h : a.number with
      | nil => exact absurd h hne
      | cons x l => simp
    simp at i3
    omega)
  refine ⟨?_, by first | rfl | trivial, hw⟩
  unfold mag at hm ⊢
  simp only at hm ⊢
  rw [← i1]
  exact hm

theorem mul_val (a b : big_integer) (ha : wf a) (hb : wf b) :
    val (mul a b) = val a * val b ∧ wf (mul a b) := by
  obtain ⟨i1, i2, i3⟩ := mul_spec a b ha.1 hb.1 ha.2.1
  refine ⟨?_, i3⟩
  unfold val
  rw [i1, i2]
  cases a.is_positive <;> cases b.is_positive <;> simp


/-! ## Short division -/

theorem of_uint64_spec (a : Nat) (h : a < 2 ^ 64) :
    mag (of_uint64 a) = a ∧ (of_uint64 a).is_positive = true ∧ wf (of_uint64 a) := by
  unfold of_uint64
  have hd : digits_ok [(a % base) % 2 ^ 32, (a / base) % 2 ^ 32] := by
    intro d hd
    simp only [List.mem_cons, List.mem_singleton, List.not_mem_nil, or_false] at hd
    rw [base_val]
    rcases hd with h | h <;> omega
  refine ⟨?_, rfl, trim_wf _ hd (by simp)⟩
  rw [mag_trim]
  simp only [mag, mag_nat]
  rw [base_val]
  omega

theorem of_uint64_small (a : Nat) (h : a < base) : of_uint64 a = ⟨[a], true⟩ := by
  unfold of_uint64
  rw [base_val] at h
  have e1 : (a % base) % 2 ^ 32 = a := by rw [base_val]; omega
  have e2 : (a / base) % 2 ^ 32 = 0 := by rw [base_val]; omega
  rw [e1, e2]
  rfl

theorem short_division_loop_spec (d : Nat) (hd0 : 0 < d) (hd : d < base) (xs : List Nat)
    (carry : Nat) (hx : digits_ok xs) (hc : carry < d) :
    mag_nat (short_division_loop d xs carry).1.reverse * d + (short_division_loop d xs carry).2
      = mag_nat xs.reverse + carry * base ^ xs.length
    ∧ (short_division_loop d xs carry).2 < d
    ∧ digits_ok (short_division_loop d xs carry).1
    ∧ (short_division_loop d xs carry).1.length = xs.length := by
  induction xs generalizing carry with
  | nil => simp [short_division_loop, mag_nat, hc, digits_ok_nil]
  | cons x xs ih =>
    have hx1 := (digits_ok_cons.1 hx).1
    have hx2 := (digits_ok_cons.1 hx).2
    have hcb : carry * base ≤ 4294967295 * 4294967296 := by
      rw [base_val] at hd ⊢
      exact Nat.mul_le_mul (by omega) (le_refl _)
    have e0 : (carry * base) % 2 ^ 64 = carry * base := Nat.mod_eq_of_lt (by omega)
    have e1 : (x + carry * base) % 2 ^ 64 = x + carry * base := by
      apply Nat.mod_eq_of_lt
      rw [base_val] at hx1
      omega
    simp only [short_division_loop, e0, e1]
    have hq : (x + carry * base) / d < base := by
      rw [Nat.div_lt_iff_lt_mul hd0]
      have : (carry + 1) * base ≤ d * base := Nat.mul_le_mul_right _ hc
      rw [Nat.add_mul] at this
      rw [Nat.mul_comm base d]
      omega
    have hdm := Nat.div_add_mod (x + carry * base) d
    obtain ⟨i1, i2, i3, i4⟩ := ih ((x + carry * base) % d) hx2 (Nat.mod_lt _ hd0)
    generalize (x + carry * base) / d = qd at *
    generalize (x + carry * base) % d = rm at *
    have e2 : qd % 2 ^ 32 = qd := by
      rw [base_val] at hq; omega
    rw [e2]
    refine ⟨?_, i2, digits_ok_cons.2 ⟨hq, i3⟩, by simp [i4]⟩
    rw [mag_nat_reverse_cons, mag_nat_reverse_cons, i4, List.length_cons, pow_succ]
    generalize base ^ xs.length = P at *
    calc (mag_nat (short_division_loop d xs rm).1.reverse + P * qd) * d
          + (short_division_loop d xs rm).2
        = (mag_nat (short_division_loop d xs rm).1.reverse * d
            + (short_division_loop d xs rm).2) + P * (d * qd) := by ring
      _ = mag_nat xs.reverse + P * (d * qd + rm) := by rw [i1]; ring
      _ = mag_nat xs.reverse + P * (x + carry * base) := by rw [hdm]
      _ = _ := by ring

/-- Function `short_division` by a nonzero 32-bit divisor: quotient and remainder of the magnitude. -/
theorem short_division_spec (a : big_integer) (ha : digits_ok a.number) (hne : a.number ≠ [])
    (d : Nat) (s : Bool) (hd0 : 0 < d) (hd : d < base) :
    ∃ q r : big_integer, short_division a d s = .ok ⟨q, r⟩
      ∧ mag q * d + mag r = mag a ∧ mag r < d
      ∧ q.is_positive = decide (a.is_positive = s) ∧ r.is_positive = a.is_positive
      ∧ wf q ∧ wf r := by
  obtain ⟨i1, i2, i3, i4⟩ := short_division_loop_spec d hd0 hd a.number.reverse 0
    (digits_ok_reverse.2 ha) hd0
  unfold short_division
  rw [if_neg (by omega)]
  simp only
  generalize short_division_loop d a.number.reverse 0 = r at *
  have hr : r.2 < base := by omega
  rw [of_uint64_small r.2 hr]
  refine ⟨_, _, rfl, ?_, ?_, rfl, rfl, ?_, ?_⟩
  · rw [mag_trim]
    simp only [mag, mag_nat, Nat.mul_zero, Nat.add_zero]
    simpa using i1
  · simpa [mag, mag_nat] using i2
  · apply trim_wf _ (digits_ok_reverse.2 i3)
    intro e
    simp only [List.reverse_eq_nil_iff] at e
    rw [e] at i4
    simp only [List.length_nil, List.length_reverse] at i4
    cases h : a.number with
    | nil => exact hne h
    | cons x l => rw [h] at i4; simp at i4
  · refine ⟨?_, by simp, ?_⟩
    · intro x hx
      simp only [List.mem_singleton] at hx
      rw [hx]; exact hr
    · by_cases h0 : r.2 = 0
      · left; simp [h0]
      · right; simpa using h0


/-! ## Shifts of non-negative operands -/

theorem to_twos_complement_pos (a : big_integer) (h : a.is_positive = true) :
    to_twos_complement a = a := by
  unfold to_twos_complement
  rw [h]; rfl

theorem two_pow_split (rem : Nat) (h : rem ≤ 32) : 2 ^ (32 - rem) * 2 ^ rem = 2 ^ 32 := by
  rw [← pow_add]
  congr 1
  omega

theorem zero_eq : zero = ⟨[0], true⟩ := by decide

theorem shl_digit (x rem carry : Nat) (hx : x < 2 ^ 32) (h1 : rem ≤ 32)
    (hc : carry < 2 ^ rem) :
    ((x <<< rem) % 2 ^ 32 + carry) % 2 ^ 32 + 2 ^ 32 * (x >>> (32 - rem))
      = x * 2 ^ rem + carry
    ∧ ((x <<< rem) % 2 ^ 32 + carry) % 2 ^ 32 < 2 ^ 32
    ∧ x >>> (32 - rem) < 2 ^ rem := by
  have hs := two_pow_split rem h1
  rw [Nat.shiftLeft_eq, Nat.shiftRight_eq_div_pow]
  have e1 : x * 2 ^ rem % 2 ^ 32 = x % 2 ^ (32 - rem) * 2 ^ rem := by
    rw [← hs, Nat.mul_mod_mul_right]
  rw [e1]
  have hL : x % 2 ^ (32 - rem) < 2 ^ (32 - rem) := Nat.mod_lt _ (Nat.pow_pos (by omega))
  have hdm := Nat.div_add_mod x (2 ^ (32 - rem))
  have hq : x / 2 ^ (32 - rem) < 2 ^ rem := by
    rw [Nat.div_lt_iff_lt_mul (Nat.pow_pos (by omega)), Nat.mul_comm, hs]
    exact hx
  generalize x % 2 ^ (32 - rem) = L at *
  generalize x / 2 ^ (32 - rem) = Q at *
  generalize 2 ^ (32 - rem) = H at *
  generalize 2 ^ rem = R at *
  have h2 : (L + 1) * R ≤ H * R := Nat.mul_le_mul_right _ hL
  rw [Nat.add_mul, hs] at h2
  have e2 : (L * R + carry) % 2 ^ 32 = L * R + carry := Nat.mod_eq_of_lt (by omega)
  rw [e2]
  refine ⟨?_, by omega, hq⟩
  rw [← hdm, ← hs]
  ring

theorem shl_loop_spec (rem : Nat) (h0 : 0 < rem) (h1 : rem < 32) (xs : List Nat) (carry : Nat)
    (hx : digits_ok xs) (hc : carry < 2 ^ rem) :
    mag_nat (shl_loop rem 0 xs carry) = mag_nat xs * 2 ^ rem + carry
    ∧ digits_ok (shl_loop rem 0 xs carry)
    ∧ (shl_loop rem 0 xs carry).length = xs.length + 1 := by
  induction xs generalizing carry with
  | nil =>
    have : carry < 2 ^ 32 :=
      lt_of_lt_of_le hc (Nat.pow_le_pow_right (by omega) (by omega))
    have e : (carry + 0) % 2 ^ 32 = carry := by omega
    simp only [shl_loop, e, mag_nat]
    refine ⟨by omega, ?_, rfl⟩
    intro d hd
    simp only [List.mem_singleton] at hd
    rw [hd, base_val]; omega
  | cons x xs ih =>
    have hx1 := (digits_ok_cons.1 hx).1
    have hx2 := (digits_ok_cons.1 hx).2
    rw [base_val] at hx1
    obtain ⟨d1, d2, d3⟩ := shl_digit x rem carry (by omega) (by omega) hc
    have ebits : base_cnt_bits - rem = 32 - rem := rfl
    simp only [shl_loop, ebits]
    obtain ⟨i1, i2, i3⟩ := ih (x >>> (32 - rem)) hx2 d3
    refine ⟨?_, digits_ok_cons.2 ⟨by rw [base_val]; omega, i2⟩, by simp [i3]⟩
    simp only [mag_nat, i1]
    rw [base_val]
    generalize ((x <<< rem) % 2 ^ 32 + carry) % 2 ^ 32 = dg at *
    generalize x >>> (32 - rem) = cy at *
    have : (x + 4294967296 * mag_nat xs) * 2 ^ rem + carry
        = (x * 2 ^ rem + carry) + 4294967296 * (mag_nat xs * 2 ^ rem) := by ring
    rw [this, ← d1]
    ring

theorem pow_shift_split (k : Nat) : base ^ (k / base_cnt_bits) * 2 ^ (k % base_cnt_bits) = 2 ^ k := by
  have : base = 2 ^ 32 := by decide
  rw [this, ← pow_mul, ← pow_add]
  congr 1
  have : base_cnt_bits = 32 := rfl
  rw [this]
  omega

/-- Function `operator<<=` on a non-negative operand multiplies by `2 ^ rhs`. -/
theorem shl_spec_pos (a : big_integer) (k : Nat) (ha : wf a) (hp : a.is_positive = true) :
    mag (shl a k) = mag a * 2 ^ k ∧ (shl a k).is_positive = true ∧ wf (shl a k) := by
  have hrem : k % base_cnt_bits < 32 := Nat.mod_lt _ (by decide)
  have key : ∀ X : List Nat, digits_ok X → X ≠ [] →
      mag_nat X = mag_nat a.number * 2 ^ (k % base_cnt_bits) →
      mag (trim (to_twos_complement
          ⟨List.replicate (k / base_cnt_bits) 0 ++ X, a.is_positive⟩)) = mag a * 2 ^ k
      ∧ (trim (to_twos_complement
          ⟨List.replicate (k / base_cnt_bits) 0 ++ X, a.is_positive⟩)).is_positive = true
      ∧ wf (trim (to_twos_complement
          ⟨List.replicate (k / base_cnt_bits) 0 ++ X, a.is_positive⟩)) := by
    intro X hX hne hm
    rw [to_twos_complement_pos _ (by exact hp)]
    refine ⟨?_, hp, trim_wf _ ?_ ?_⟩
    · rw [mag_trim]
      simp only [mag]
      rw [mag_nat_append, mag_nat_replicate_zero, hm, List.length_replicate, Nat.zero_add,
        ← pow_shift_split k]
      ring
    · exact digits_ok_append.2 ⟨digits_ok_replicate _ _ base_pos, hX⟩
    · simp [hne]
  unfold shl
  rw [to_twos_complement_pos a hp]
  simp only [hp, Bool.not_true, Bool.false_eq_true, if_false]
  by_cases h0 : k % base_cnt_bits > 0
  · rw [if_pos h0]
    obtain ⟨i1, i2, i3⟩ := shl_loop_spec (k % base_cnt_bits) h0 hrem a.number 0 ha.1
      (Nat.pow_pos (by omega))
    have := key _ i2 (by intro e; rw [e] at i3; simp at i3) (by rw [i1]; rfl)
    rw [hp] at this
    exact this
  · rw [if_neg h0]
    have e0 : k % base_cnt_bits = 0 := by omega
    have := key a.number ha.1 ha.2.1 (by rw [e0]; simp)
    rw [hp] at this
    exact this

theorem mag_nat_drop (l : List Nat) (n : Nat) (hl : digits_ok l) :
    mag_nat (l.drop n) = mag_nat l / base ^ n := by
  induction n generalizing l with
  | zero => simp
  | succ n ih =>
    cases l with
    | nil => simp [mag_nat]
    | cons d l =>
      have h1 := (digits_ok_cons.1 hl).1
      rw [List.drop_succ_cons, ih l (digits_ok_cons.1 hl).2]
      simp only [mag_nat]
      rw [pow_succ, Nat.mul_comm (base ^ n) base, ← Nat.div_div_eq_div_mul]
      congr 1
      rw [Nat.add_mul_div_left _ _ base_pos, Nat.div_eq_of_lt h1, Nat.zero_add]

theorem digits_ok_drop (l : List Nat) (n : Nat) (hl : digits_ok l) : digits_ok (l.drop n) :=
  fun d hd => hl d (List.mem_of_mem_drop hd)

theorem shr_digit (x rem c : Nat) (hx : x < 2 ^ 32) (h1 : rem ≤ 32) (hc : c < 2 ^ rem) :
    ((x >>> rem) + c * 2 ^ (32 - rem)) % 2 ^ 32 = x / 2 ^ rem + c * 2 ^ (32 - rem)
    ∧ x / 2 ^ rem + c * 2 ^ (32 - rem) < 2 ^ 32
    ∧ (x <<< (32 - rem)) % 2 ^ 32 = (x % 2 ^ rem) * 2 ^ (32 - rem) := by
  have hs := two_pow_split rem h1
  rw [Nat.shiftLeft_eq, Nat.shiftRight_eq_div_pow]
  have e1 : x * 2 ^ (32 - rem) % 2 ^ 32 = x % 2 ^ rem * 2 ^ (32 - rem) := by
    rw [← hs, Nat.mul_comm (2 ^ (32 - rem)) (2 ^ rem), Nat.mul_mod_mul_right]
  have hq : x / 2 ^ rem < 2 ^ (32 - rem) := by
    rw [Nat.div_lt_iff_lt_mul (Nat.pow_pos (by omega)), hs]
    exact hx
  generalize x / 2 ^ rem = Q at *
  generalize 2 ^ (32 - rem) = H at *
  generalize 2 ^ rem = R at *
  have h2 : (c + 1) * H ≤ R * H := Nat.mul_le_mul_right _ hc
  rw [Nat.add_mul, Nat.mul_comm R H, hs] at h2
  have hlt : Q + c * H < 2 ^ 32 := by omega
  exact ⟨Nat.mod_eq_of_lt hlt, hlt, e1⟩

theorem shr_loop_spec (rem : Nat) (h1 : rem < 32) (xs : List Nat) (c : Nat)
    (hx : digits_ok xs) (hc : c < 2 ^ rem) :
    mag_nat (shr_loop rem xs (c * 2 ^ (32 - rem))).reverse
      = (mag_nat xs.reverse + c * base ^ xs.length) / 2 ^ rem
    ∧ digits_ok (shr_loop rem xs (c * 2 ^ (32 - rem)))
    ∧ (shr_loop rem xs (c * 2 ^ (32 - rem))).length = xs.length := by
  induction xs generalizing c with
  | nil =>
    simp only [shr_loop, List.reverse_nil, mag_nat, List.length_nil, pow_zero, Nat.mul_one,
      Nat.zero_add]
    exact ⟨(Nat.div_eq_of_lt hc).symm, digits_ok_nil, trivial⟩
  | cons x xs ih =>
    have hx1 := (digits_ok_cons.1 hx).1
    have hx2 := (digits_ok_cons.1 hx).2
    rw [base_val] at hx1
    obtain ⟨d1, d2, d3⟩ := shr_digit x rem c (by omega) (by omega) hc
    have ebits : base_cnt_bits - rem = 32 - rem := rfl
    simp only [shr_loop, ebits, d1, d3]
    have hR : 0 < 2 ^ rem := Nat.pow_pos (by omega)
    obtain ⟨i1, i2, i3⟩ := ih (x % 2 ^ rem) hx2 (Nat.mod_lt _ hR)
    refine ⟨?_, digits_ok_cons.2 ⟨by rw [base_val]; omega, i2⟩, by simp [i3]⟩
    rw [mag_nat_reverse_cons, mag_nat_reverse_cons, i1, i3, List.length_cons, pow_succ]
    have hs := two_pow_split rem (by omega)
    have hdm := Nat.div_add_mod x (2 ^ rem)
    have hb : base = 2 ^ (32 - rem) * 2 ^ rem := by rw [hs]; decide
    rw [hb]
    generalize (2 ^ (32 - rem) * 2 ^ rem) ^ xs.length = P
    generalize 2 ^ (32 - rem) = H at *
    generalize 2 ^ rem = R at *
    have e : mag_nat xs.reverse + P * x + c * (P * (H * R))
        = (mag_nat xs.reverse + x % R * P) + R * (P * (x / R + c * H)) := by
      have : P * x = P * (R * (x / R) + x % R) := by rw [hdm]
      rw [this]
      ring
    rw [e, Nat.add_mul_div_left _ _ hR]

/-- Function `operator>>=` on a non-negative operand divides by `2 ^ rhs`. -/
theorem shr_spec_pos (a : big_integer) (k : Nat) (ha : wf a) (hp : a.is_positive = true) :
    mag (shr a k) = mag a / 2 ^ k ∧ (shr a k).is_positive = true ∧ wf (shr a k) := by
  have hrem : k % base_cnt_bits < 32 := Nat.mod_lt _ (by decide)
  have hsplit := pow_shift_split k
  have hlt := mag_nat_lt a.number ha.1
  unfold shr
  rw [to_twos_complement_pos a hp]
  simp only [hp, Bool.not_true, Bool.false_eq_true, if_false]
  by_cases hbig : k / base_cnt_bits > 0 ∧ k / base_cnt_bits ≥ a.number.length
  · rw [if_pos hbig, zero_eq]
    refine ⟨?_, rfl, by decide⟩
    have h1 : base ^ a.number.length ≤ base ^ (k / base_cnt_bits) :=
      Nat.pow_le_pow_right base_pos hbig.2
    have h2 : base ^ (k / base_cnt_bits) ≤ 2 ^ k := by
      rw [← hsplit]
      exact Nat.le_mul_of_pos_right _ (Nat.pow_pos (by omega))
    have : mag a / 2 ^ k = 0 := Nat.div_eq_of_lt (by unfold mag; omega)
    rw [this]; rfl
  · rw [if_neg hbig]
    have hdl : (a.number.drop (k / base_cnt_bits)).length ≥ 1 := by
      rw [List.length_drop]
      have := length_pos_of_wf a ha
      omega
    have hdrop := mag_nat_drop a.number (k / base_cnt_bits) ha.1
    have hdo := digits_ok_drop a.number (k / base_cnt_bits) ha.1
    have key : ∀ X : List Nat, digits_ok X → X.length ≥ 1 →
        mag_nat X = mag_nat (a.number.drop (k / base_cnt_bits)) / 2 ^ (k % base_cnt_bits) →
        mag (trim (to_twos_complement ⟨X, true⟩)) = mag a / 2 ^ k
        ∧ (trim (to_twos_complement ⟨X, true⟩)).is_positive = true
        ∧ wf (trim (to_twos_complement ⟨X, true⟩)) := by
      intro X hX hne hm
      rw [to_twos_complement_pos _ rfl]
      refine ⟨?_, rfl, trim_wf _ hX ?_⟩
      · rw [mag_trim]
        simp only [mag]
        rw [hm, hdrop, Nat.div_div_eq_div_mul, hsplit]
      · intro e
        simp only at e
        rw [e] at hne
        simp at hne
    by_cases h0 : k % base_cnt_bits > 0
    · rw [if_pos h0]
      obtain ⟨i1, i2, i3⟩ := shr_loop_spec (k % base_cnt_bits) hrem
        (a.number.drop (k / base_cnt_bits)).reverse 0 (digits_ok_reverse.2 hdo)
        (Nat.pow_pos (by omega))
      simp only [Nat.zero_mul, Nat.add_zero, List.reverse_reverse, List.length_reverse]
        at i1 i2 i3
      exact key _ (digits_ok_reverse.2 i2) (by rw [List.length_reverse, i3]; exact hdl) i1
    · rw [if_neg h0]
      have e0 : k % base_cnt_bits = 0 := by omega
      exact key _ hdo hdl (by rw [e0]; simp)


/-! ## Long division: the estimate of a quotient digit -/

theorem getD_eq_div_mod (l : List Nat) (k : Nat) (hl : digits_ok l) :
    l.getD k 0 = mag_nat l / base ^ k % base := by
  induction l generalizing k with
  | nil => simp [mag_nat]
  | cons d l ih =>
    have h1 := (digits_ok_cons.1 hl).1
    cases k with
    | zero =>
      simp only [List.getD_cons_zero, mag_nat, pow_zero, Nat.div_one]
      rw [Nat.add_mul_mod_self_left, Nat.mod_eq_of_lt h1]
    | succ k =>
      simp only [List.getD_cons_succ, mag_nat]
      rw [ih k (digits_ok_cons.1 hl).2, pow_succ, Nat.mul_comm (base ^ k) base,
        ← Nat.div_div_eq_div_mul, Nat.add_mul_div_left _ _ base_pos, Nat.div_eq_of_lt h1,
        Nat.zero_add]

theorem top_digit_bounds (l : List Nat) (hl : digits_ok l) (hne : l ≠ []) :
    l.getLastD 0 * base ^ (l.length - 1) ≤ mag_nat l
    ∧ mag_nat l < (l.getLastD 0 + 1) * base ^ (l.length - 1)
    ∧ l.getLastD 0 < base := by
  obtain ⟨l', x, rfl⟩ : ∃ l' x, l = l' ++ [x] :=
    ⟨l.dropLast, l.getLast hne, (List.dropLast_append_getLast hne).symm⟩
  have h1 := mag_nat_lt l' (digits_ok_append.1 hl).1
  have hx : x < base := (digits_ok_append.1 hl).2 x (by simp)
  have e : (l' ++ [x]).getLastD 0 = x := by
    rw [List.getLastD_eq_getLast?]
    simp
  rw [e, mag_nat_append]
  simp only [List.length_append, List.length_singleton, Nat.add_sub_cancel, mag_nat,
    Nat.mul_zero, Nat.add_zero]
  refine ⟨?_, ?_, hx⟩
  · rw [Nat.mul_comm]; omega
  · rw [Nat.add_mul, Nat.mul_comm x]; omega

/-- The trial digit is never below the true quotient digit, and with a normalised
divisor it exceeds it by at most 2 (Knuth, Algorithm D). -/
theorem estimate_bounds (R S P pd : Nat) (hP : 0 < P) (hpd : 0 < pd)
    (hS1 : pd * P ≤ S) (hS2 : S < (pd + 1) * P) (hR : R < S * base) :
    R / S ≤ min (R / P / pd) (base - 1)
    ∧ (base ≤ 2 * pd → min (R / P / pd) (base - 1) ≤ R / S + 2) := by
  have hS0 : 0 < S := lt_of_lt_of_le (Nat.mul_pos hpd hP) hS1
  have hq : R / S < base := by
    rw [Nat.div_lt_iff_lt_mul hS0, Nat.mul_comm]
    exact hR
  have h1 : R / S ≤ R / P / pd := by
    rw [Nat.div_div_eq_div_mul, Nat.mul_comm P pd]
    exact Nat.div_le_div_left hS1 (Nat.mul_pos hpd hP)
  refine ⟨Nat.le_min.2 ⟨h1, by omega⟩, ?_⟩
  intro hn
  by_contra hcon
  have hcon : R / S + 3 ≤ min (R / P / pd) (base - 1) := by omega
  have h2 : R / S + 3 ≤ R / P / pd := le_trans hcon (Nat.min_le_left _ _)
  have h3 : R / S + 3 ≤ base - 1 := le_trans hcon (Nat.min_le_right _ _)
  have h4 : R / P / pd * pd ≤ R / P := Nat.div_mul_le_self _ _
  have h5 : R / P * P ≤ R := Nat.div_mul_le_self _ _
  have h6 : R < S * (R / S + 1) := Nat.lt_mul_div_succ R hS0
  generalize R / S = q at *
  have h7 : (q + 3) * pd * P ≤ R := by
    calc (q + 3) * pd * P ≤ R / P / pd * pd * P :=
          Nat.mul_le_mul_right _ (Nat.mul_le_mul_right _ h2)
      _ ≤ R / P * P := Nat.mul_le_mul_right _ h4
      _ ≤ R := h5
  have h8 : S * (q + 1) ≤ (pd + 1) * P * (q + 1) :=
    Nat.mul_le_mul_right _ (le_of_lt hS2)
  have h9 : (q + 3) * pd * P < (pd + 1) * P * (q + 1) := by omega
  have h10 : (q + 3) * pd * P = ((q + 3) * pd) * P := rfl
  have h11 : (pd + 1) * P * (q + 1) = ((pd + 1) * (q + 1)) * P := by ring
  rw [h11] at h9
  have h12 : (q + 3) * pd < (pd + 1) * (q + 1) := Nat.lt_of_mul_lt_mul_right h9
  have h13 : (q + 3) * pd = q * pd + 3 * pd := by ring
  have h14 : (pd + 1) * (q + 1) = q * pd + q + pd + 1 := by ring
  rw [h13, h14] at h12
  omega

/-! ## Long division: the signs met by the correction loop -/

theorem sub_pos_sign (a b : big_integer) (ha : wf a) (hb : wf b)
    (hpa : a.is_positive = true) (hpb : b.is_positive = true) :
    (sub a b).is_positive = true ↔ 0 ≤ val (sub a b) := by
  have hv := (sub_val a b ha hb).1
  rw [hv, val_of_pos a hpa, val_of_pos b hpb]
  have e : sub a b = sub_same a b := by
    unfold sub
    simp [hpa, hpb]
  obtain ⟨_, i2, i3⟩ := sub_same_spec a b ha hb (by rw [hpa, hpb])
  rw [e]
  by_cases h : mag b ≤ mag a
  · rw [(i2 h).2, hpa]
    simp; omega
  · rw [(i3 (by omega)).2, hpa]
    simp; omega

theorem add_neg_pos_sign (a b : big_integer) (ha : wf a) (hb : wf b)
    (hpa : a.is_positive = false) (hpb : b.is_positive = true) :
    (add a b).is_positive = true ↔ 0 ≤ val (add a b) := by
  have hv := (add_val a b ha hb).1
  constructor
  · intro h
    unfold val
    rw [if_pos h]
    omega
  · intro h
    rw [hv, val_of_neg a hpa, val_of_pos b hpb] at h
    have ha1 : wf { a with is_positive := true } := ha
    have hle : le { a with is_positive := true } b = true := by
      rw [le_iff _ _ ha1 hb, val_of_pos _ rfl, val_of_pos b hpb]
      have : mag { a with is_positive := true } = mag a := rfl
      rw [this]; omega
    unfold add
    simp only [hpa, hpb, Bool.not_false, Bool.true_and, if_true, hle]
    rw [sub_pos_sign b _ hb ha1 hpb rfl, (sub_val b _ hb ha1).1, val_of_pos b hpb,
      val_of_pos { a with is_positive := true } rfl]
    have : mag { a with is_positive := true } = mag a := rfl
    rw [this]; omega

/-- The correction loop of `division` re-adds the shifted divisor `t` times, where `t`
is the number of additions after which the running remainder is no longer negative. -/
theorem correction_loop_spec (sd : big_integer) (hsd : wf sd) (hps : sd.is_positive = true)
    (t : Nat) : ∀ (fuel : Nat) (dc : big_integer) (p : Nat), t ≤ fuel → t ≤ p → p < 2 ^ 64 →
      wf dc → (dc.is_positive = true ↔ 0 ≤ val dc) →
      0 ≤ val dc + t * (mag sd : Int) →
      (∀ s : Nat, s < t → val dc + s * (mag sd : Int) < 0) →
      ∃ dc2 : big_integer, correction_loop sd fuel dc p = .ok (dc2, p - t)
        ∧ wf dc2 ∧ dc2.is_positive = true ∧ val dc2 = val dc + t * (mag sd : Int) := by
  induction t with
  | zero =>
    intro fuel dc p _ _ _ hw hs h0 _
    have hp : dc.is_positive = true := hs.2 (by simpa using h0)
    refine ⟨dc, ?_, hw, hp, by simp⟩
    cases fuel <;> simp [correction_loop, hp]
  | succ t ih =>
    intro fuel dc p hf hp hp64 hw hs h0 hneg
    have hn := hneg 0 (by omega)
    simp only [Nat.cast_zero, zero_mul, add_zero] at hn
    have hp0 : dc.is_positive = false := by
      cases h : dc.is_positive
      · rfl
      · exact absurd (hs.1 h) (by omega)
    cases fuel with
    | zero => omega
    | succ fuel =>
      have e : (p + 2 ^ 64 - 1) % 2 ^ 64 = p - 1 := by omega
      rw [correction_loop]
      simp only [hp0, Bool.not_false, if_true]
      rw [e]
      obtain ⟨v1, w1⟩ := add_val dc sd hw hsd
      have s1 := add_neg_pos_sign dc sd hw hsd hp0 hps
      rw [val_of_pos sd hps] at v1
      obtain ⟨dc2, j1, j2, j3, j4⟩ := ih fuel (add dc sd) (p - 1) (by omega) (by omega)
        (by omega) w1 s1
        (by rw [v1]; push_cast at h0 ⊢; linarith)
        (by
          intro s hs2
          have := hneg (s + 1) (by omega)
          rw [v1]; push_cast at this ⊢; linarith)
      refine ⟨dc2, ?_, j2, j3, ?_⟩
      · have e2 : p - 1 - t = p - (t + 1) := by omega
        rw [j1, e2]
      · rw [j4, v1]; push_cast; ring


/-! ## Long division: normalisation and the quotient-digit loop -/

theorem normalize_loop_spec (r : Nat) : ∀ (fuel sp k : Nat), r < fuel →
    2 ^ 31 ≤ sp * 2 ^ r → sp < 2 ^ 32 → k + r < 2 ^ 32 →
    ∃ j, j ≤ r ∧ normalize_loop fuel sp k = .ok (k + j)
      ∧ 2 ^ 31 ≤ sp * 2 ^ j ∧ sp * 2 ^ j < 2 ^ 32 := by
  have hab : all_bits_one >>> 1 = 2147483647 := by decide
  induction r with
  | zero =>
    intro fuel sp k hf h1 h2 _
    cases fuel with
    | zero => omega
    | succ fuel =>
      refine ⟨0, le_refl _, ?_, by simpa using h1, by simpa using h2⟩
      rw [normalize_loop, hab, if_neg (by omega)]
      rfl
  | succ r ih =>
    intro fuel sp k hf h1 h2 hk
    cases fuel with
    | zero => omega
    | succ fuel =>
      rw [normalize_loop, hab]
      by_cases hs : sp ≤ 2147483647
      · rw [if_pos hs]
        have e1 : (sp <<< 1) % 2 ^ 32 = sp * 2 := by
          rw [Nat.shiftLeft_eq]; omega
        have e2 : (k + 1) % 2 ^ 32 = k + 1 := by omega
        rw [e1, e2]
        obtain ⟨j, j1, j2, j3, j4⟩ := ih fuel (sp * 2) (k + 1) (by omega)
          (by
            have e3 : sp * 2 ^ (r + 1) = sp * 2 * 2 ^ r := by ring
            rw [← e3]; exact h1)
          (by omega) (by omega)
        refine ⟨j + 1, by omega, ?_, ?_, ?_⟩
        · rw [j2]; congr 1; omega
        · have e3 : sp * 2 ^ (j + 1) = sp * 2 * 2 ^ j := by ring
          rw [e3]; exact j3
        · have e3 : sp * 2 ^ (j + 1) = sp * 2 * 2 ^ j := by ring
          rw [e3]; exact j4
      · rw [if_neg hs]
        exact ⟨0, by omega, rfl, by simp; omega, by simpa using h2⟩

theorem prediction_dividend_eq (l : List Nat) (hl : digits_ok l) (k : Nat)
    (h : mag_nat l < base ^ (k + 2)) :
    ((l.getD (k + 1) 0 * base) % 2 ^ 64 + l.getD k 0) % 2 ^ 64 = mag_nat l / base ^ k := by
  rw [getD_eq_div_mod l (k + 1) hl, getD_eq_div_mod l k hl]
  have hlt : mag_nat l / base ^ k < base * base := by
    rw [Nat.div_lt_iff_lt_mul (Nat.pow_pos base_pos)]
    have : base ^ (k + 2) = base * base * base ^ k := by ring
    rw [← this]; exact h
  have e1 : mag_nat l / base ^ (k + 1) = mag_nat l / base ^ k / base := by
    rw [pow_succ, Nat.div_div_eq_div_mul]
  rw [e1]
  generalize mag_nat l / base ^ k = u at *
  rw [base_val] at hlt ⊢
  omega

/-- One quotient digit of `division` (lines 222-235): the trial digit is corrected to the
true digit and the running remainder is reduced below the shifted divisor. -/
theorem division_step (fuel : Nat) (hf : 2 ≤ fuel) (m pd D j : Nat) (hm : 1 ≤ m)
    (hD1 : pd * base ^ (m - 1) ≤ D) (hD2 : D < (pd + 1) * base ^ (m - 1))
    (hpd1 : 2 ^ 31 ≤ pd) (hpd2 : pd < base)
    (dc sd : big_integer) (hdc : wf dc) (hpdc : dc.is_positive = true)
    (hsd : wf sd) (hpsd : sd.is_positive = true) (hS : mag sd = D * base ^ j)
    (hR : mag dc < D * base ^ (j + 1)) :
    ∃ dc2 : big_integer,
      correction_loop sd fuel
        (sub dc (mul sd (of_uint64 (min
          ((((dc.number.getD (m + (j + 1) - 1) 0 * base) % 2 ^ 64
            + dc.number.getD (m + (j + 1) - 2) 0) % 2 ^ 64) / pd) (base - 1)))))
        (min ((((dc.number.getD (m + (j + 1) - 1) 0 * base) % 2 ^ 64
            + dc.number.getD (m + (j + 1) - 2) 0) % 2 ^ 64) / pd) (base - 1))
        = .ok (dc2, mag dc / mag sd)
      ∧ wf dc2 ∧ dc2.is_positive = true
      ∧ mag dc2 + mag dc / mag sd * mag sd = mag dc
      ∧ mag dc2 < mag sd ∧ mag dc / mag sd < base := by
  have hP : 0 < base ^ (m - 1 + j) := Nat.pow_pos base_pos
  have hpd0 : 0 < pd := lt_of_lt_of_le (by decide) hpd1
  have hS1 : pd * base ^ (m - 1 + j) ≤ mag sd := by
    rw [hS, pow_add, ← Nat.mul_assoc]
    exact Nat.mul_le_mul_right _ hD1
  have hS2 : mag sd < (pd + 1) * base ^ (m - 1 + j) := by
    rw [hS, pow_add, ← Nat.mul_assoc]
    exact Nat.mul_lt_mul_of_pos_right hD2 (Nat.pow_pos base_pos)
  have hRS : mag dc < mag sd * base := by
    rw [hS, Nat.mul_assoc, ← pow_succ]; exact hR
  have hS0 : 0 < mag sd := lt_of_lt_of_le (Nat.mul_pos hpd0 hP) hS1
  have hRb : mag_nat dc.number < base ^ (m - 1 + j + 2) := by
    have h1 : mag sd * base < (pd + 1) * base ^ (m - 1 + j) * base :=
      Nat.mul_lt_mul_of_pos_right hS2 base_pos
    have h2 : (pd + 1) * base ^ (m - 1 + j) * base ≤ base * base ^ (m - 1 + j) * base :=
      Nat.mul_le_mul_right _ (Nat.mul_le_mul_right _ (by omega))
    have h3 : base * base ^ (m - 1 + j) * base = base ^ (m - 1 + j + 2) := by ring
    rw [h3] at h2
    exact lt_of_lt_of_le (lt_trans hRS h1) h2
  have i1 : m + (j + 1) - 1 = m - 1 + j + 1 := by omega
  have i2 : m + (j + 1) - 2 = m - 1 + j := by omega
  rw [i1, i2, prediction_dividend_eq dc.number hdc.1 (m - 1 + j) hRb]
  obtain ⟨e1, e2⟩ := estimate_bounds (mag dc) (mag sd) (base ^ (m - 1 + j)) pd hP hpd0 hS1 hS2 hRS
  have e2 := e2 (by rw [base_val]; omega)
  have emag : mag_nat dc.number = mag dc := rfl
  rw [emag]
  generalize hqh : min (mag dc / base ^ (m - 1 + j) / pd) (base - 1) = qhat at *
  have hqb : qhat ≤ base - 1 := by rw [← hqh]; exact Nat.min_le_right _ _
  have hq64 : qhat < 2 ^ 64 := by rw [base_val] at hqb; omega
  obtain ⟨u1, u2, u3⟩ := of_uint64_spec qhat hq64
  obtain ⟨m1, m2, m3⟩ := mul_spec sd (of_uint64 qhat) hsd.1 u3.1 hsd.2.1
  have m2 : (mul sd (of_uint64 qhat)).is_positive = true := by
    rw [m2, hpsd, u2]; rfl
  rw [u1] at m1
  obtain ⟨v1, v2⟩ := sub_val dc (mul sd (of_uint64 qhat)) hdc m3
  have s1 := sub_pos_sign dc (mul sd (of_uint64 qhat)) hdc m3 hpdc m2
  rw [val_of_pos dc hpdc, val_of_pos _ m2, m1] at v1
  have hq1 : mag dc / mag sd * mag sd ≤ mag dc := Nat.div_mul_le_self _ _
  have hq2 : mag dc < mag sd * (mag dc / mag sd + 1) := Nat.lt_mul_div_succ _ hS0
  have hqlt : mag dc / mag sd < base := by
    rw [Nat.div_lt_iff_lt_mul hS0, Nat.mul_comm]; exact hRS
  generalize mag dc / mag sd = q at *
  generalize mag dc = R at *
  generalize hSe : mag sd = S at *
  obtain ⟨dc2, c1, c2, c3, c4⟩ := correction_loop_spec sd hsd hpsd (qhat - q) fuel
    (sub dc (mul sd (of_uint64 qhat))) qhat (by omega) (by omega) hq64 v2 s1
    (by
      rw [v1]
      obtain ⟨w, hw⟩ : ∃ w, qhat = q + w := ⟨qhat - q, by omega⟩
      subst hw
      have : q + w - q = w := by omega
      rw [this, hSe]
      push_cast
      have h1 : ((q * S : Nat) : Int) ≤ (R : Int) := by exact_mod_cast hq1
      push_cast at h1
      have e : (R : Int) - (S : Int) * ((q : Int) + (w : Int)) + (w : Int) * (S : Int)
          = (R : Int) - (q : Int) * (S : Int) := by ring
      rw [e]
      linarith)
    (by
      intro s hs
      rw [v1]
      obtain ⟨w, hw⟩ : ∃ w, qhat = s + (q + 1) + w := ⟨qhat - s - (q + 1), by omega⟩
      subst hw
      rw [hSe]
      push_cast
      have h1 : ((R : Nat) : Int) < ((S * (q + 1) : Nat) : Int) := by exact_mod_cast hq2
      push_cast at h1
      have h2 : (0 : Int) ≤ (S : Int) * (w : Int) := by positivity
      have e : (R : Int) - (S : Int) * ((s : Int) + ((q : Int) + 1) + (w : Int))
            + (s : Int) * (S : Int)
          = (R : Int) - (S : Int) * ((q : Int) + 1) - (S : Int) * (w : Int) := by ring
      rw [e]
      linarith)
  have e3 : qhat - (qhat - q) = q := by omega
  rw [e3] at c1
  rw [v1] at c4
  have c5 : (mag dc2 : Int) = (R : Int) - (q : Int) * (S : Int) := by
    rw [← val_of_pos dc2 c3, c4]
    obtain ⟨w, hw⟩ : ∃ w, qhat = q + w := ⟨qhat - q, by omega⟩
    subst hw
    have : q + w - q = w := by omega
    rw [this, hSe]
    push_cast
    ring
  have c6 : mag dc2 + q * S = R := by
    have : ((mag dc2 + q * S : Nat) : Int) = (R : Int) := by
      push_cast; rw [c5]; ring
    exact_mod_cast this
  refine ⟨dc2, c1, c2, c3, c6, ?_, hqlt⟩
  rw [Nat.mul_add, Nat.mul_comm S q] at hq2
  omega


theorem lt_iff (a b : big_integer) (ha : wf a) (hb : wf b) :
    lt a b = true ↔ val a < val b := by
  unfold lt
  rw [compare_val a b ha hb]
  unfold cmp
  by_cases h1 : val a < val b
  · rw [if_pos h1]; simp; omega
  · rw [if_neg h1]
    by_cases h2 : val a = val b
    · rw [if_pos h2]; simp; omega
    · rw [if_neg h2]; simp; omega

theorem ge_iff (a b : big_integer) (ha : wf a) (hb : wf b) :
    ge a b = true ↔ val b ≤ val a := by
  unfold ge
  have := lt_iff a b ha hb
  cases h : lt a b
  · simp only [Bool.not_false, true_iff]
    rw [h] at this
    simp only [Bool.false_eq_true, false_iff, not_lt] at this
    exact this
  · simp only [Bool.not_true, Bool.false_eq_true, false_iff, not_le]
    exact this.1 h

theorem getD_replicate_zero (n k : Nat) : (List.replicate n 0).getD k 0 = 0 := by
  rw [List.getD_eq_getElem?_getD]
  cases h : (List.replicate n 0)[k]? with
  | none => rfl
  | some d =>
    have := List.getElem?_mem h
    rw [List.mem_replicate] at this
    simp [this.2]

theorem division_loop_spec (fuel : Nat) (hf : 2 ≤ fuel) (m pd D : Nat) (hm : 1 ≤ m)
    (hD1 : pd * base ^ (m - 1) ≤ D) (hD2 : D < (pd + 1) * base ^ (m - 1))
    (hpd1 : 2 ^ 31 ≤ pd) (hpd2 : pd < base) :
    ∀ (j : Nat) (dc sd : big_integer) (q : List Nat), wf dc → dc.is_positive = true →
      wf sd → sd.is_positive = true → (1 ≤ j → mag sd = D * base ^ (j - 1)) →
      mag dc < D * base ^ j → digits_ok q → j ≤ q.length → (∀ i, i < j → q.getD i 0 = 0) →
      ∃ (dc2 : big_integer) (q2 : List Nat),
        division_loop fuel m pd j dc sd q = .ok (dc2, q2)
        ∧ wf dc2 ∧ dc2.is_positive = true ∧ mag dc2 < D
        ∧ mag_nat q2 * D + mag dc2 = mag_nat q * D + mag dc
        ∧ digits_ok q2 ∧ q2.length = q.length := by
  intro j
  induction j with
  | zero =>
    intro dc sd q hdc hpdc _ _ _ hR hq _ _
    exact ⟨dc, q, rfl, hdc, hpdc, by simpa using hR, rfl, hq, rfl⟩
  | succ j ih =>
    intro dc sd q hdc hpdc hsd hpsd hS hR hq hjl hz
    have hS : mag sd = D * base ^ j := by
      have := hS (by omega)
      simpa using this
    obtain ⟨dc2, c1, c2, c3, c4, c5, c6⟩ := division_step fuel hf m pd D j hm hD1 hD2 hpd1 hpd2
      dc sd hdc hpdc hsd hpsd hS hR
    rw [division_loop]
    simp only [c1]
    obtain ⟨r1, r2, r3⟩ := shr_spec_pos sd base_cnt_bits hsd hpsd
    generalize mag dc / mag sd = qd at *
    have eq32 : qd % 2 ^ 32 = qd := by
      rw [base_val] at c6; omega
    rw [eq32]
    have hset := mag_nat_set q j qd (by omega)
    rw [hz j (by omega), Nat.zero_mul, Nat.add_zero] at hset
    obtain ⟨dc3, q3, k1, k2, k3, k4, k5, k6, k7⟩ := ih dc2 (shr sd base_cnt_bits)
      (q.set j qd) c2 c3 r3 r2
      (by
        intro hj
        rw [r1, hS]
        obtain ⟨j', rfl⟩ : ∃ j', j = j' + 1 := ⟨j - 1, by omega⟩
        simp only [Nat.add_sub_cancel]
        have : base_cnt_bits = 32 := rfl
        rw [this, pow_succ, ← Nat.mul_assoc]
        have : (2 : Nat) ^ 32 = base := by decide
        rw [this, Nat.mul_div_cancel _ base_pos])
      (by rw [← hS]; exact c5)
      (digits_ok_set _ _ _ hq c6)
      (by rw [List.length_set]; omega)
      (by
        intro i hi
        rw [getD_set_ne _ _ _ _ (by omega)]
        exact hz i (by omega))
    refine ⟨dc3, q3, k1, k2, k3, k4, ?_, k6, by rw [k7, List.length_set]⟩
    rw [k5, hset, ← c4, hS]
    ring


/-! ## Long division: the whole algorithm -/

theorem base_pow_eq (x : Nat) : 2 ^ (base_cnt_bits * x) = base ^ x := by
  rw [pow_mul]
  rfl

theorem one_lt_base : 1 < base := by decide

theorem normalized_divisor (b dv : big_integer) (hb : wf b) (hdv : wf dv)
    (k : Nat) (hk : k ≤ 31)
    (h1 : 2 ^ 31 ≤ b.number.getLastD 0 * 2 ^ k) (h2 : b.number.getLastD 0 * 2 ^ k < 2 ^ 32)
    (hD : mag dv = mag b * 2 ^ k) :
    1 ≤ dv.number.length
    ∧ dv.number.getLastD 0 * base ^ (dv.number.length - 1) ≤ mag dv
    ∧ mag dv < (dv.number.getLastD 0 + 1) * base ^ (dv.number.length - 1)
    ∧ 2 ^ 31 ≤ dv.number.getLastD 0 ∧ dv.number.getLastD 0 < base
    ∧ base ^ dv.number.length ≤ 2 * mag dv := by
  obtain ⟨t1, t2, t3⟩ := top_digit_bounds b.number hb.1 hb.2.1
  obtain ⟨p1, p2, p3⟩ := top_digit_bounds dv.number hdv.1 hdv.2.1
  have hlb := length_pos_of_wf b hb
  have hm := length_pos_of_wf dv hdv
  have emb : mag_nat b.number = mag b := rfl
  have emd : mag_nat dv.number = mag dv := rfl
  rw [emb] at t1 t2
  rw [emd] at p1 p2
  generalize b.number.getLastD 0 = t at *
  generalize dv.number.getLastD 0 = pd at *
  generalize hlbe : b.number.length = lb at *
  generalize hme : dv.number.length = m at *
  have hdlt := mag_nat_lt dv.number hdv.1
  rw [emd, hme] at hdlt
  -- bounds on the normalised divisor
  have hlo : 2 ^ 31 * base ^ (lb - 1) ≤ mag dv := by
    rw [hD]
    calc 2 ^ 31 * base ^ (lb - 1) ≤ t * 2 ^ k * base ^ (lb - 1) := Nat.mul_le_mul_right _ h1
      _ = t * base ^ (lb - 1) * 2 ^ k := by ring
      _ ≤ mag b * 2 ^ k := Nat.mul_le_mul_right _ t1
  have ht1 : (t + 1) * 2 ^ k ≤ 2 ^ 32 := by
    have hs := two_pow_split k (by omega)
    rw [← hs] at h2 ⊢
    have : t < 2 ^ (32 - k) := Nat.lt_of_mul_lt_mul_right h2
    exact Nat.mul_le_mul_right _ this
  have hhi : mag dv < base ^ lb := by
    rw [hD]
    have e : base ^ lb = 2 ^ 32 * base ^ (lb - 1) := by
      obtain ⟨l', rfl⟩ : ∃ l', lb = l' + 1 := ⟨lb - 1, by omega⟩
      rw [Nat.add_sub_cancel, pow_succ, Nat.mul_comm]
      rfl
    rw [e]
    calc mag b * 2 ^ k < (t + 1) * base ^ (lb - 1) * 2 ^ k :=
          Nat.mul_lt_mul_of_pos_right t2 (Nat.pow_pos (by omega))
      _ = (t + 1) * 2 ^ k * base ^ (lb - 1) := by ring
      _ ≤ 2 ^ 32 * base ^ (lb - 1) := Nat.mul_le_mul_right _ ht1
  have hdpos : 0 < mag dv :=
    lt_of_lt_of_le (Nat.mul_pos (by omega) (Nat.pow_pos base_pos)) hlo
  have hdz : dv.number ≠ [0] := by
    intro e
    have := (canonical_mag_zero _ hdv.2).2 e
    rw [emd] at this
    omega
  have hge := canonical_mag_ge dv.number hdv.2 hdz
  rw [emd, hme] at hge
  have hml : m = lb := by
    have a1 : m - 1 < lb :=
      (Nat.pow_lt_pow_iff_right one_lt_base).1 (lt_of_le_of_lt hge hhi)
    have a2 : base ^ (lb - 1) ≤ mag dv :=
      le_trans (Nat.le_mul_of_pos_left _ (by omega)) hlo
    have a3 : lb - 1 < m :=
      (Nat.pow_lt_pow_iff_right one_lt_base).1 (lt_of_le_of_lt a2 hdlt)
    omega
  rw [← hml] at hlo
  have hpd : 2 ^ 31 < pd + 1 := Nat.lt_of_mul_lt_mul_right (lt_of_le_of_lt hlo p2)
  refine ⟨hm, p1, p2, by omega, p3, ?_⟩
  have e : base ^ m = 2 * (2 ^ 31 * base ^ (m - 1)) := by
    obtain ⟨l', rfl⟩ : ∃ l', m = l' + 1 := ⟨m - 1, by omega⟩
    rw [Nat.add_sub_cancel, pow_succ, ← Nat.mul_assoc, Nat.mul_comm]
    rfl
  rw [e]
  omega


/-- The first quotient digit of `division` (lines 213-218): the state before the
quotient-digit loop. -/
theorem division_first (dc0 sd0 : big_integer) (x D : Nat) (hdc : wf dc0) (hsd : wf sd0)
    (hpdc : dc0.is_positive = true) (hpsd : sd0.is_positive = true)
    (hS : mag sd0 = D * base ^ x) (hA : mag dc0 < 2 * (D * base ^ x)) :
    wf (if ge dc0 sd0 then sub dc0 sd0 else dc0)
    ∧ (if ge dc0 sd0 then sub dc0 sd0 else dc0).is_positive = true
    ∧ mag (if ge dc0 sd0 then sub dc0 sd0 else dc0) < D * base ^ x
    ∧ digits_ok ((if ge dc0 sd0 then (List.replicate (x + 1) 0).set x 1
        else List.replicate (x + 1) 0))
    ∧ (if ge dc0 sd0 then (List.replicate (x + 1) 0).set x 1
        else List.replicate (x + 1) 0).length = x + 1
    ∧ (∀ i, i < x → (if ge dc0 sd0 then (List.replicate (x + 1) 0).set x 1
        else List.replicate (x + 1) 0).getD i 0 = 0)
    ∧ mag_nat (if ge dc0 sd0 then (List.replicate (x + 1) 0).set x 1
        else List.replicate (x + 1) 0) * D
        + mag (if ge dc0 sd0 then sub dc0 sd0 else dc0) = mag dc0 := by
  have hge := ge_iff dc0 sd0 hdc hsd
  rw [val_of_pos dc0 hpdc, val_of_pos sd0 hpsd] at hge
  have hrep := digits_ok_replicate (x + 1) 0 base_pos
  by_cases h : ge dc0 sd0 = true
  · simp only [h, if_true]
    have hle : mag sd0 ≤ mag dc0 := by
      have := hge.1 h
      exact_mod_cast this
    obtain ⟨v1, v2⟩ := sub_val dc0 sd0 hdc hsd
    have s1 := sub_pos_sign dc0 sd0 hdc hsd hpdc hpsd
    rw [val_of_pos dc0 hpdc, val_of_pos sd0 hpsd] at v1
    have hp : (sub dc0 sd0).is_positive = true := by
      rw [s1, v1]; omega
    have hm : mag (sub dc0 sd0) = mag dc0 - mag sd0 := by
      have := val_of_pos _ hp
      rw [v1] at this
      omega
    have hset := mag_nat_set (List.replicate (x + 1) 0) x 1 (by simp)
    rw [getD_replicate_zero, mag_nat_replicate_zero] at hset
    simp only [Nat.zero_mul, Nat.add_zero, Nat.zero_add, Nat.one_mul] at hset
    refine ⟨v2, hp, by omega, digits_ok_set _ _ _ hrep (by decide), by simp, ?_, ?_⟩
    · intro i hi
      rw [getD_set_ne _ _ _ _ (by omega), getD_replicate_zero]
    · rw [hset, hm, Nat.mul_comm, ← hS]
      omega
  · have h2 : ge dc0 sd0 = false := by
      cases hh : ge dc0 sd0
      · rfl
      · exact absurd hh h
    simp only [h2, Bool.false_eq_true, if_false]
    have hlt : mag dc0 < mag sd0 := by
      by_contra hc
      apply h
      rw [hge]
      have : mag sd0 ≤ mag dc0 := by omega
      exact_mod_cast this
    refine ⟨hdc, hpdc, by omega, hrep, by simp, ?_, ?_⟩
    · intro i _
      exact getD_replicate_zero _ _
    · rw [mag_nat_replicate_zero]; omega

/-- The multi-digit path of `division`: the magnitudes of quotient and remainder are the
quotient and remainder of the magnitudes, and the remainder carries the sign of the
dividend. -/
theorem division_long_spec (fuel : Nat) (hf : 32 ≤ fuel) (a b : big_integer) (ha : wf a)
    (hb : wf b) (hl : b.number.length ≠ 1) :
    ∃ q r : big_integer, division fuel a b = .ok ⟨q, r⟩
      ∧ mag q * mag b + mag r = mag a ∧ mag r < mag b
      ∧ (mag q ≠ 0 → q.is_positive = decide (a.is_positive = b.is_positive))
      ∧ r.is_positive = a.is_positive ∧ wf q ∧ wf r := by
  have ha1 : wf { a with is_positive := true } := ha
  have hb1 : wf { b with is_positive := true } := hb
  have ema : mag { a with is_positive := true } = mag a := rfl
  have emb : mag { b with is_positive := true } = mag b := rfl
  have hlt := lt_iff _ _ ha1 hb1
  rw [val_of_pos _ rfl, val_of_pos _ rfl, ema, emb] at hlt
  have hlb := length_pos_of_wf b hb
  have hbz : b.number ≠ [0] := number_ne_zero_of_length b (by omega)
  have hbpos : 0 < mag b := by
    have := canonical_mag_ge b.number hb.2 hbz
    have hp : 0 < base ^ (b.number.length - 1) := Nat.pow_pos base_pos
    unfold mag; omega
  unfold division
  rw [if_neg hl]
  simp only
  by_cases hc : lt { a with is_positive := true } { b with is_positive := true } = true
  · rw [if_pos hc]
    have h1 : mag a < mag b := by exact_mod_cast hlt.1 hc
    refine ⟨zero, a, rfl, ?_, h1, ?_, rfl, by decide, ha⟩
    · rw [zero_eq]; simp [mag, mag_nat]
    · intro h; exact absurd (by rw [zero_eq]; rfl) h
  · rw [if_neg hc]
    have hAB : mag b ≤ mag a := by
      by_contra h
      apply hc
      rw [hlt]
      have : mag a < mag b := by omega
      exact_mod_cast this
    -- normalisation
    obtain ⟨t1, t2, t3⟩ := top_digit_bounds b.number hb.1 hb.2.1
    have ht0 : 0 < b.number.getLastD 0 := by
      by_contra h
      have : b.number.getLastD 0 = 0 := by omega
      rw [this] at t2
      have := canonical_mag_ge b.number hb.2 hbz
      omega
    obtain ⟨k, hk1, hk2, hk3, hk4⟩ := normalize_loop_spec 31 fuel (b.number.getLastD 0) 0
      (by omega) (Nat.le_mul_of_pos_left _ ht0) (by rw [base_val] at t3; omega) (by omega)
    rw [Nat.zero_add] at hk2
    rw [hk2]
    simp only
    obtain ⟨sa1, sa2, sa3⟩ := shl_spec_pos { a with is_positive := true } k ha1 rfl
    obtain ⟨sb1, sb2, sb3⟩ := shl_spec_pos { b with is_positive := true } k hb1 rfl
    rw [ema] at sa1
    rw [emb] at sb1
    generalize shl { a with is_positive := true } k = dc0 at *
    generalize shl { b with is_positive := true } k = dv at *
    obtain ⟨hm, p1, p2, p3, p4, p5⟩ := normalized_divisor b dv hb sb3 k hk1 hk3 hk4 sb1
    have hDA : mag dv ≤ mag dc0 := by
      rw [sa1, sb1]; exact Nat.mul_le_mul_right _ hAB
    have hnm := length_le_of_mag_le dc0 dv sa3 sb3 hDA
    have hAn := mag_nat_lt dc0.number sa3.1
    obtain ⟨ss1, ss2, ss3⟩ := shl_spec_pos dv
      (base_cnt_bits * (dc0.number.length - dv.number.length)) sb3 sb2
    rw [base_pow_eq] at ss1
    generalize hx : dc0.number.length - dv.number.length = x at *
    generalize shl dv (base_cnt_bits * x) = sd0 at *
    have hA2 : mag dc0 < 2 * (mag dv * base ^ x) := by
      have e : base ^ dc0.number.length = base ^ dv.number.length * base ^ x := by
        rw [← pow_add]; congr 1; omega
      have : base ^ dv.number.length * base ^ x ≤ 2 * mag dv * base ^ x :=
        Nat.mul_le_mul_right _ p5
      have emd : mag_nat dc0.number = mag dc0 := rfl
      rw [Nat.mul_assoc] at this
      omega
    obtain ⟨f1, f2, f3, f4, f5, f6, f7⟩ := division_first dc0 sd0 x (mag dv) sa3 ss3 sa2 ss2
      ss1 hA2
    obtain ⟨r1, r2, r3⟩ := shr_spec_pos sd0 base_cnt_bits ss3 ss2
    obtain ⟨dc2, q2, l1, l2, l3, l4, l5, l6, l7⟩ := division_loop_spec fuel (by omega)
      dv.number.length (dv.number.getLastD 0) (mag dv) hm p1 p2 p3 p4 x
      (if ge dc0 sd0 then sub dc0 sd0 else dc0) (shr sd0 base_cnt_bits)
      (if ge dc0 sd0 then (List.replicate (x + 1) 0).set x 1 else List.replicate (x + 1) 0)
      f1 f2 r3 r2
      (by
        intro hx1
        rw [r1, ss1]
        obtain ⟨x', rfl⟩ : ∃ x', x = x' + 1 := ⟨x - 1, by omega⟩
        simp only [Nat.add_sub_cancel]
        have : base_cnt_bits = 32 := rfl
        rw [this, pow_succ, ← Nat.mul_assoc]
        have : (2 : Nat) ^ 32 = base := by decide
        rw [this, Nat.mul_div_cancel _ base_pos])
      f3 f4 (by rw [f5]; omega) f6
    rw [l1]
    simp only
    obtain ⟨u1, u2, u3⟩ := shr_spec_pos dc2 k l2 l3
    rw [f7, sa1, sb1] at l5
    rw [sb1] at l4
    have h2k : 0 < 2 ^ k := Nat.pow_pos (by omega)
    have hQ : mag_nat q2 * mag b ≤ mag a := by
      have : mag_nat q2 * mag b * 2 ^ k ≤ mag a * 2 ^ k := by
        rw [← l5, Nat.mul_assoc]; omega
      exact Nat.le_of_mul_le_mul_right this h2k
    have hR : mag dc2 = (mag a - mag_nat q2 * mag b) * 2 ^ k := by
      rw [Nat.sub_mul, ← l5, Nat.mul_assoc]; omega
    have hr : mag (shr dc2 k) = mag a - mag_nat q2 * mag b := by
      rw [u1, hR, Nat.mul_div_cancel _ h2k]
    refine ⟨_, _, rfl, ?_, ?_, fun _ => rfl, rfl, ?_, ?_⟩
    · rw [mag_trim, mag_trim]
      have e1 : mag ⟨q2, decide (a.is_positive = b.is_positive)⟩ = mag_nat q2 := rfl
      have e2 : mag { shr dc2 k with is_positive := a.is_positive } = mag (shr dc2 k) := rfl
      rw [e1, e2, hr]
      omega
    · rw [mag_trim]
      have e2 : mag { shr dc2 k with is_positive := a.is_positive } = mag (shr dc2 k) := rfl
      rw [e2, hr]
      have : (mag a - mag_nat q2 * mag b) * 2 ^ k < mag b * 2 ^ k := by
        rw [← hR]; exact l4
      exact Nat.lt_of_mul_lt_mul_right this
    · apply trim_wf _ l6
      intro e
      simp only at e
      rw [e] at l7
      rw [f5] at l7
      simp at l7
    · exact trim_wf _ u3.1 u3.2.1


/-! ## The constructor from a decimal string -/

theorem char_test (c : Char) :
    (c < Char.ofNat 48 ∨ c > Char.ofNat 57) ↔ ¬ is_digit c := by
  unfold is_digit
  have h1 : c < Char.ofNat 48 ↔ c.toNat < 48 := by
    rw [Char.lt_def, UInt32.lt_def]
    exact Iff.rfl
  have h2 : c > Char.ofNat 57 ↔ 57 < c.toNat := by
    rw [gt_iff_lt, Char.lt_def, UInt32.lt_def]
    exact Iff.rfl
  rw [h1, h2]
  omega

theorem dec_foldl (s : List Char) (n : Nat) :
    s.foldl (fun n c => 10 * n + (c.toNat - 48)) n = n * 10 ^ s.length + dec_val s := by
  unfold dec_val
  induction s generalizing n with
  | nil => simp
  | cons c s ih =>
    simp only [List.foldl_cons, List.length_cons]
    rw [ih (10 * n + (c.toNat - 48)), ih (10 * 0 + (c.toNat - 48)), pow_succ]
    ring

theorem dec_val_append (x y : List Char) :
    dec_val (x ++ y) = dec_val x * 10 ^ y.length + dec_val y := by
  have : dec_val (x ++ y) = y.foldl (fun n c => 10 * n + (c.toNat - 48)) (dec_val x) := by
    unfold dec_val
    rw [List.foldl_append]
  rw [this, dec_foldl]

theorem dec_val_singleton (c : Char) : dec_val [c] = c.toNat - 48 := by
  simp [dec_val]

theorem dec_val_lt (s : List Char) (h : ∀ c ∈ s, is_digit c) : dec_val s < 10 ^ s.length := by
  induction s using List.reverseRecOn with
  | nil => simp [dec_val]
  | append_singleton s c ih =>
    have h1 := ih (fun d hd => h d (by simp [hd]))
    have h2 : is_digit c := h c (by simp)
    unfold is_digit at h2
    rw [dec_val_append, dec_val_singleton]
    simp only [List.length_singleton, pow_one, List.length_append, pow_succ]
    omega

theorem take_succ_drop (str : List Char) (i j : Nat) (h : i + j < str.length) (d : Char) :
    (str.drop i).take (j + 1) = (str.drop i).take j ++ [str.getD (i + j) d] := by
  rw [List.take_succ, List.getElem?_drop, List.getD_eq_getElem?_getD]
  rw [List.getElem?_eq_getElem h]
  rfl

theorem chunk_loop_spec (str : List Char) (i : Nat) : ∀ (j e coef : Nat), e + j ≤ 9 →
    coef < 10 ^ e → i + j ≤ str.length →
    ((∀ c ∈ (str.drop i).take j, is_digit c) →
      chunk_loop str i j coef (10 ^ e) = .ok (coef + 10 ^ e * dec_val ((str.drop i).take j)))
    ∧ (¬ (∀ c ∈ (str.drop i).take j, is_digit c) →
      chunk_loop str i j coef (10 ^ e) = .error .invalid_argument) := by
  intro j
  induction j with
  | zero =>
    intro e coef _ _ _
    simp [chunk_loop, dec_val]
  | succ j ih =>
    intro e coef he hc hl
    have hts := take_succ_drop str i j (by omega) (Char.ofNat 0)
    have hidx : i + (j + 1) - 1 = i + j := by omega
    rw [hts, chunk_loop, hidx]
    generalize str.getD (i + j) (Char.ofNat 0) = c at *
    have hpe : 10 ^ e ≤ 10 ^ 8 := Nat.pow_le_pow_right (by omega) (by omega)
    by_cases hd : is_digit c
    · have ht : ¬ (c < Char.ofNat 48 ∨ c > Char.ofNat 57) := by
        rw [char_test]; exact not_not.2 hd
      rw [if_neg ht]
      have hdv : c.toNat - 48 ≤ 9 := by unfold is_digit at hd; omega
      have hprod : (c.toNat - 48) * 10 ^ e ≤ 9 * 10 ^ e := Nat.mul_le_mul_right _ hdv
      have e1 : (c.toNat - 48) * 10 ^ e % 2 ^ 32 = (c.toNat - 48) * 10 ^ e := by
        apply Nat.mod_eq_of_lt; omega
      have e2 : (coef + (c.toNat - 48) * 10 ^ e) % 2 ^ 32 = coef + (c.toNat - 48) * 10 ^ e := by
        apply Nat.mod_eq_of_lt; omega
      have e3 : 10 ^ e * 10 % 2 ^ 32 = 10 ^ (e + 1) := by
        rw [pow_succ]
        apply Nat.mod_eq_of_lt; omega
      rw [e1, e2, e3]
      obtain ⟨i1, i2⟩ := ih (e + 1) (coef + (c.toNat - 48) * 10 ^ e) (by omega)
        (by rw [pow_succ]; omega) (by omega)
      constructor
      · intro hall
        rw [i1 (fun x hx => hall x (by simp [hx])), dec_val_append, dec_val_singleton]
        congr 1
        rw [pow_succ]
        simp only [List.length_singleton, pow_one]
        ring
      · intro hall
        apply i2
        intro h2
        apply hall
        intro x hx
        rw [List.mem_append] at hx
        rcases hx with hx | hx
        · exact h2 x hx
        · simp only [List.mem_singleton] at hx
          rw [hx]; exact hd
    · have ht : c < Char.ofNat 48 ∨ c > Char.ofNat 57 := by
        rw [char_test]; exact hd
      rw [if_pos ht]
      constructor
      · intro hall
        exact absurd (hall c (by simp)) hd
      · intro _; rfl

theorem add_pos_pos (a b : big_integer) (ha : a.is_positive = true)
    (hb : b.is_positive = true) : add a b = add_same a b := by
  unfold add
  simp [ha, hb]

/-- One multiply-accumulate step of the string constructor (lines 55-56). -/
theorem accumulate_spec (acc : big_integer) (hw : wf acc) (hp : acc.is_positive = true)
    (coef : Nat) (hc : coef < 10 ^ 9) :
    wf (add (mul acc (of_uint64 buffer_base)) (of_uint64 coef))
    ∧ (add (mul acc (of_uint64 buffer_base)) (of_uint64 coef)).is_positive = true
    ∧ mag (add (mul acc (of_uint64 buffer_base)) (of_uint64 coef)) = mag acc * 10 ^ 9 + coef := by
  obtain ⟨u1, u2, u3⟩ := of_uint64_spec buffer_base (by decide)
  obtain ⟨c1, c2, c3⟩ := of_uint64_spec coef (by omega)
  obtain ⟨m1, m2, m3⟩ := mul_spec acc (of_uint64 buffer_base) hw.1 u3.1 hw.2.1
  have m2 : (mul acc (of_uint64 buffer_base)).is_positive = true := by
    rw [m2, hp, u2]; rfl
  rw [add_pos_pos _ _ m2 c2]
  obtain ⟨a1, a2, a3⟩ := add_same_spec _ _ m3 c3
  refine ⟨a3, by rw [a2, m2], ?_⟩
  rw [a1, m1, u1, c1]
  rfl

/-- The chunk loop of the string constructor once `step_size` is 9. -/
theorem parse_loop_spec (str : List Char) (first : Nat) : ∀ (c fuel i : Nat)
    (acc : big_integer), c ≤ fuel → str.length = i + 9 * c → wf acc →
    acc.is_positive = true →
    ((∀ ch ∈ str.drop i, is_digit ch) →
      ∃ r, parse_loop str first fuel i 9 acc = .ok r ∧ wf r ∧ r.is_positive = true
        ∧ mag r = mag acc * 10 ^ (9 * c) + dec_val (str.drop i))
    ∧ (¬ (∀ ch ∈ str.drop i, is_digit ch) →
      parse_loop str first fuel i 9 acc = .error .invalid_argument) := by
  intro c
  induction c with
  | zero =>
    intro fuel i acc _ hl hw hp
    have hnot : ¬ i < str.length := by omega
    have hdrop : str.drop i = [] := List.drop_eq_nil_of_le (by omega)
    rw [hdrop]
    constructor
    · intro _
      refine ⟨acc, ?_, hw, hp, by simp [dec_val]⟩
      cases fuel <;> simp [parse_loop, hnot]
    · intro h
      exact absurd (fun ch hch => by cases hch) h
  | succ c ih =>
    intro fuel i acc hf hl hw hp
    cases fuel with
    | zero => omega
    | succ fuel =>
      have hlt : i < str.length := by omega
      rw [parse_loop, if_pos hlt]
      obtain ⟨k1, k2⟩ := chunk_loop_spec str i 9 0 0 (by omega) (by simp) (by omega)
      simp only [pow_zero, Nat.zero_add, Nat.one_mul] at k1 k2
      have hsplit : str.drop i = (str.drop i).take 9 ++ str.drop (i + 9) := by
        rw [← List.drop_drop, List.take_append_drop]
      have hlen9 : ((str.drop i).take 9).length = 9 := by
        rw [List.length_take, List.length_drop]; omega
      have hlenr : (str.drop (i + 9)).length = 9 * c := by
        rw [List.length_drop]; omega
      have hstep : (if 9 = first then buffer_base_cnt_bits else 9) = 9 := by
        split <;> rfl
      have hsub1 : ∀ ch, ch ∈ (str.drop i).take 9 → ch ∈ str.drop i :=
        fun ch hch => List.mem_of_mem_take hch
      have hsub2 : ∀ ch, ch ∈ str.drop (i + 9) → ch ∈ str.drop i := by
        intro ch hch
        rw [← List.drop_drop] at hch
        exact List.mem_of_mem_drop hch
      by_cases hall : ∀ ch ∈ (str.drop i).take 9, is_digit ch
      · rw [k1 hall]
        simp only [hstep]
        have hcoef := dec_val_lt _ hall
        rw [hlen9] at hcoef
        obtain ⟨a1, a2, a3⟩ := accumulate_spec acc hw hp _ hcoef
        obtain ⟨j1, j2⟩ := ih fuel (i + 9)
          (add (mul acc (of_uint64 buffer_base)) (of_uint64 (dec_val ((str.drop i).take 9))))
          (by omega) (by omega) a1 a2
        constructor
        · intro h
          obtain ⟨r, r1, r2, r3, r4⟩ := j1 (fun ch hch => h ch (hsub2 ch hch))
          refine ⟨r, r1, r2, r3, ?_⟩
          rw [r4, a3]
          conv_rhs => rw [hsplit, dec_val_append, hlenr]
          have : 9 * (c + 1) = 9 + 9 * c := by ring
          rw [this, pow_add]
          ring
        · intro h
          apply j2
          intro h2
          apply h
          intro ch hch
          rw [hsplit, List.mem_append] at hch
          rcases hch with hch | hch
          · exact hall ch hch
          · exact h2 ch hch
      · rw [k2 hall]
        constructor
        · intro h
          exact absurd (fun ch hch => h ch (hsub1 ch hch)) hall
        · intro _; rfl


theorem digits_part_eq_drop (s : List Char) :
    digits_part s = s.drop (if s.head? = some (Char.ofNat 45) ∨ s.head? = some (Char.ofNat 43)
      then 1 else 0) := by
  unfold digits_part
  split
  · cases s <;> rfl
  · rfl

theorem lone_sign_iff (s : List Char) :
    (s = [Char.ofNat 45] ∨ s = [Char.ofNat 43] ∨ s = []) ↔ digits_part s = [] := by
  unfold digits_part
  cases s with
  | nil => simp
  | cons c t =>
    simp only [List.head?_cons, Option.some.injEq, List.cons.injEq, List.tail_cons]
    by_cases h : c = Char.ofNat 45 ∨ c = Char.ofNat 43
    · rw [if_pos h]
      constructor
      · rintro (⟨_, h2⟩ | ⟨_, h2⟩ | h2)
        · exact h2
        · exact h2
        · cases h2
      · intro ht
        rcases h with h | h
        · exact Or.inl ⟨h, ht⟩
        · exact Or.inr (Or.inl ⟨h, ht⟩)
    · rw [if_neg h]
      constructor
      · rintro (⟨h1, _⟩ | ⟨h1, _⟩ | h2)
        · exact absurd (Or.inl h1) h
        · exact absurd (Or.inr h1) h
        · cases h2
      · intro ht; cases ht

/-- The string constructor: a valid string gives the number written by its digits, with
the flag `is_positive` cleared exactly by a leading `'-'`; any other string is rejected. -/
theorem of_string_spec (fuel : Nat) (s : List Char) (hf : s.length ≤ fuel) :
    (valid_decimal s → ∃ r, of_string fuel s = .ok r ∧ wf r
        ∧ r.is_positive = !decide (s.head? = some (Char.ofNat 45))
        ∧ mag r = dec_val (digits_part s))
    ∧ (¬ valid_decimal s → of_string fuel s = .error .invalid_argument) := by
  unfold valid_decimal of_string
  by_cases hlone : s = [Char.ofNat 45] ∨ s = [Char.ofNat 43] ∨ s = []
  · rw [if_pos hlone]
    have := (lone_sign_iff s).1 hlone
    constructor
    · intro h; exact absurd this h.1
    · intro _; rfl
  · rw [if_neg hlone]
    have hne : digits_part s ≠ [] := fun h => hlone ((lone_sign_iff s).2 h)
    rw [digits_part_eq_drop] at hne ⊢
    simp only
    generalize hldi : (if s.head? = some (Char.ofNat 45) ∨ s.head? = some (Char.ofNat 43)
      then 1 else 0) = ldi at *
    have hL : ldi < s.length := by
      by_contra h
      exact hne (List.drop_eq_nil_of_le (by omega))
    obtain ⟨fuel, rfl⟩ : ∃ f, fuel = f + 1 := ⟨fuel - 1, by omega⟩
    rw [parse_loop, if_pos hL]
    have hfirst : (s.length - ldi) % buffer_base_cnt_bits < 9 := Nat.mod_lt _ (by decide)
    have hdm := Nat.div_add_mod (s.length - ldi) buffer_base_cnt_bits
    have e9 : buffer_base_cnt_bits = 9 := rfl
    rw [e9] at hdm hfirst
    generalize hfs : (s.length - ldi) % buffer_base_cnt_bits = first at *
    rw [e9] at hfs
    rw [hfs] at hdm hfirst
    obtain ⟨k1, k2⟩ := chunk_loop_spec s ldi first 0 0 (by omega) (by simp) (by omega)
    simp only [pow_zero, Nat.zero_add, Nat.one_mul] at k1 k2
    have hsplit : s.drop ldi = (s.drop ldi).take first ++ s.drop (ldi + first) := by
      rw [← List.drop_drop, List.take_append_drop]
    have hlen1 : ((s.drop ldi).take first).length = first := by
      rw [List.length_take, List.length_drop]; omega
    have hsub1 : ∀ ch, ch ∈ (s.drop ldi).take first → ch ∈ s.drop ldi :=
      fun ch hch => List.mem_of_mem_take hch
    have hsub2 : ∀ ch, ch ∈ s.drop (ldi + first) → ch ∈ s.drop ldi := by
      intro ch hch
      rw [← List.drop_drop] at hch
      exact List.mem_of_mem_drop hch
    by_cases hall : ∀ ch ∈ (s.drop ldi).take first, is_digit ch
    · rw [k1 hall]
      simp only [if_true]
      rw [e9]
      have hcoef := dec_val_lt _ hall
      rw [hlen1] at hcoef
      have hcoef9 : dec_val ((s.drop ldi).take first) < 10 ^ 9 :=
        lt_of_lt_of_le hcoef (Nat.pow_le_pow_right (by omega) (by omega))
      obtain ⟨a1, a2, a3⟩ := accumulate_spec zero (by decide) (by decide) _ hcoef9
      have hz : mag zero = 0 := by decide
      rw [hz, Nat.zero_mul, Nat.zero_add] at a3
      obtain ⟨j1, j2⟩ := parse_loop_spec s first ((s.length - ldi) / 9) fuel (ldi + first)
        (add (mul zero (of_uint64 buffer_base))
          (of_uint64 (dec_val ((s.drop ldi).take first))))
        (by omega) (by omega) a1 a2
      have hlenr : (s.drop (ldi + first)).length = 9 * ((s.length - ldi) / 9) := by
        rw [List.length_drop]; omega
      constructor
      · rintro ⟨_, h⟩
        obtain ⟨r, r1, r2, r3, r4⟩ := j1 (fun ch hch => h ch (hsub2 ch hch))
        rw [r1]
        simp only
        have hval : mag r = dec_val (s.drop ldi) := by
          rw [r4, a3]
          conv_rhs => rw [hsplit, dec_val_append, hlenr]
        by_cases hm : s.head? = some (Char.ofNat 45)
        · rw [if_pos hm]
          exact ⟨_, rfl, r2, by simp [hm], hval⟩
        · rw [if_neg hm]
          exact ⟨_, rfl, r2, by simp [hm, r3], hval⟩
      · intro h
        have : ¬ ∀ ch ∈ s.drop (ldi + first), is_digit ch := by
          intro h2
          apply h
          refine ⟨hne, ?_⟩
          intro ch hch
          rw [hsplit, List.mem_append] at hch
          rcases hch with hch | hch
          · exact hall ch hch
          · exact h2 ch hch
        rw [j2 this]
    · rw [k2 hall]
      constructor
      · rintro ⟨_, h⟩
        exact absurd (fun ch hch => h ch (hsub1 ch hch)) hall
      · intro _; rfl


/-! ## Rendering -/

theorem digit_char (d : Nat) (h : d < 10) :
    (Char.ofNat (48 + d)).toNat = 48 + d
    ∧ (Char.ofNat (48 + d) = Char.ofNat 48 ↔ d = 0) := by
  interval_cases d <;> decide

theorem std_to_string_loop_spec : ∀ (fuel n : Nat), n < 10 ^ fuel → 1 ≤ fuel →
    ∃ D : List Char, (∀ acc, std_to_string_loop fuel n acc = D ++ acc)
      ∧ canonical_decimal D n ∧ D.length ≤ fuel := by
  intro fuel
  induction fuel with
  | zero => intro n _ h; omega
  | succ fuel ih =>
    intro n hn _
    by_cases h10 : n < 10
    · obtain ⟨c1, c2⟩ := digit_char n h10
      refine ⟨[Char.ofNat (48 + n)], ?_, ⟨by simp, ?_, ?_, ?_⟩, by simp⟩
      · intro acc
        simp [std_to_string_loop, h10]
      · intro c hc
        simp only [List.mem_singleton] at hc
        rw [hc]
        unfold is_digit
        omega
      · rw [dec_val_singleton, c1]; omega
      · by_cases h0 : n = 0
        · left; rw [h0]
        · right
          simp only [List.head?_cons, ne_eq, Option.some.injEq]
          rw [c2]; exact h0
    · have hf : 1 ≤ fuel := by
        by_contra h
        have : fuel = 0 := by omega
        subst this
        simp at hn
        omega
      obtain ⟨D, d1, ⟨d2, d3, d4, d5⟩, d6⟩ := ih (n / 10)
        (by rw [pow_succ] at hn; omega) hf
      obtain ⟨c1, c2⟩ := digit_char (n % 10) (Nat.mod_lt _ (by omega))
      refine ⟨D ++ [Char.ofNat (48 + n % 10)], ?_, ⟨by simp, ?_, ?_, ?_⟩, by simp; omega⟩
      · intro acc
        simp only [std_to_string_loop, h10, if_false]
        rw [d1]
        simp
      · intro c hc
        rw [List.mem_append] at hc
        rcases hc with hc | hc
        · exact d3 c hc
        · simp only [List.mem_singleton] at hc
          rw [hc]
          unfold is_digit
          omega
      · rw [dec_val_append, dec_val_singleton, d4, c1]
        simp only [List.length_singleton, pow_one]
        omega
      · right
        have hD : D.head? ≠ some (Char.ofNat 48) := by
          rcases d5 with h | h
          · exfalso
            rw [h] at d4
            have : dec_val [Char.ofNat 48] = 0 := by decide
            omega
          · exact h
        cases D with
        | nil => exact absurd rfl d2
        | cons x D => simpa using hD

theorem dec_val_cons (c : Char) (t : List Char) :
    dec_val (c :: t) = (c.toNat - 48) * 10 ^ t.length + dec_val t := by
  have := dec_val_append [c] t
  rw [dec_val_singleton] at this
  exact this

/-- A canonical representation other than `"0"` denotes at least `10 ^ (length - 1)`. -/
theorem canonical_decimal_ge (D : List Char) (n : Nat) (h : canonical_decimal D n)
    (hz : D ≠ [Char.ofNat 48]) : 10 ^ (D.length - 1) ≤ n := by
  obtain ⟨h1, h2, h3, h4⟩ := h
  rcases h4 with h4 | h4
  · exact absurd h4 hz
  · cases D with
    | nil => exact absurd rfl h1
    | cons c t =>
      have hc : is_digit c := h2 c (by simp)
      have hc0 : c ≠ Char.ofNat 48 := by simpa using h4
      have hc1 : 1 ≤ c.toNat - 48 := by
        unfold is_digit at hc
        by_contra hlt
        have h48 : c.toNat = 48 := by omega
        apply hc0
        apply Char.ext
        apply UInt32.ext
        exact h48
      rw [dec_val_cons] at h3
      simp only [List.length_cons, Nat.add_sub_cancel]
      have : 1 * 10 ^ t.length ≤ (c.toNat - 48) * 10 ^ t.length := Nat.mul_le_mul_right _ hc1
      omega

theorem canonical_decimal_length (D : List Char) (n k : Nat) (h : canonical_decimal D n)
    (hn : n < 10 ^ k) (hk : 1 ≤ k) : D.length ≤ k := by
  by_cases hz : D = [Char.ofNat 48]
  · rw [hz]; simpa using hk
  · have h1 := canonical_decimal_ge D n h hz
    have h2 : D.length - 1 < k :=
      (Nat.pow_lt_pow_iff_right (by omega : 1 < 10)).1 (lt_of_le_of_lt h1 hn)
    omega

/-- Function `std::to_string` of a chunk below `10 ^ 9`. -/
theorem std_to_string_spec (n : Nat) (h : n < 10 ^ 9) :
    canonical_decimal (std_to_string n) n ∧ (std_to_string n).length ≤ 9 := by
  obtain ⟨D, d1, d2, _⟩ := std_to_string_loop_spec 10 n
    (lt_trans h (by decide)) (by omega)
  have e : std_to_string n = D := by
    unfold std_to_string
    rw [d1 []]
    simp
  rw [e]
  exact ⟨d2, canonical_decimal_length D n 9 d2 h (by omega)⟩


theorem take_succ_getD (vs : List (List Char)) (v : Nat) (h : v < vs.length) :
    vs.take (v + 1) = vs.take v ++ [vs.getD v []] := by
  rw [List.take_succ, List.getD_eq_getElem?_getD, List.getElem?_eq_getElem h]
  rfl

theorem take_length_sub_one (vs : List (List Char)) (h : vs ≠ []) :
    vs = vs.take (vs.length - 1) ++ [vs.getD (vs.length - 1) []] := by
  have hl : 1 ≤ vs.length := by
    cases vs with
    | nil => exact absurd rfl h
    | cons x l => simp
  have := take_succ_getD vs (vs.length - 1) (by omega)
  rw [← this, List.take_of_length_le (by omega)]

theorem assemble_loop_spec (vs : List (List Char)) (hne : ∀ c ∈ vs, c ≠ []) :
    ∀ (count v j : Nat), v < vs.length → j ≤ (vs.getD v []).length →
      count = ((vs.getD v []).length - j) + ((vs.take v).map List.length).sum →
      assemble_loop vs count v j = (vs.getD v []).drop j ++ (vs.take v).reverse.flatten := by
  intro count
  induction count with
  | zero =>
    intro v j hv hj hc
    have h1 : (vs.getD v []).drop j = [] := List.drop_eq_nil_of_le (by omega)
    have h2 : vs.take v = [] := by
      cases ht : vs.take v with
      | nil => rfl
      | cons c t =>
        exfalso
        have hc1 : c ∈ vs := List.mem_of_mem_take (by rw [ht]; simp)
        have hc2 := hne c hc1
        rw [ht] at hc
        simp only [List.map_cons, List.sum_cons] at hc
        have : 1 ≤ c.length := by
          cases c with
          | nil => exact absurd rfl hc2
          | cons x l => simp
        omega
    rw [h1, h2]
    rfl
  | succ count ih =>
    intro v j hv hj hc
    rw [assemble_loop]
    by_cases hjl : j = (vs.getD v []).length
    · simp only [hjl, if_true]
      have hv0 : 1 ≤ v := by
        by_contra h
        have : v = 0 := by omega
        subst this
        rw [List.take_zero] at hc
        simp only [List.map_nil, List.sum_nil] at hc
        omega
      obtain ⟨w, rfl⟩ : ∃ w, v = w + 1 := ⟨v - 1, by omega⟩
      simp only [Nat.add_sub_cancel]
      have hts := take_succ_getD vs w (by omega)
      have hmem : vs.getD w [] ∈ vs := by
        rw [List.getD_eq_getElem?_getD, List.getElem?_eq_getElem (by omega : w < vs.length)]
        exact List.getElem_mem _
      have hcne := hne _ hmem
      rw [hts] at hc ⊢
      simp only [List.map_append, List.map_cons, List.map_nil, List.sum_append, List.sum_cons,
        List.sum_nil, Nat.add_zero] at hc
      have hlen : 1 ≤ (vs.getD w []).length := by
        cases h : vs.getD w [] with
        | nil => exact absurd h hcne
        | cons x l => simp
      rw [ih w 1 (by omega) hlen (by omega)]
      simp only [List.reverse_append, List.reverse_cons, List.reverse_nil, List.nil_append,
        List.singleton_append, List.flatten_cons, List.drop_length, List.nil_append]
      cases h : vs.getD w [] with
      | nil => exact absurd h hcne
      | cons x l => simp
    · simp only [hjl, if_false]
      have hj2 : j < (vs.getD v []).length := by omega
      rw [ih v (j + 1) hv (by omega) (by omega)]
      rw [List.getD_eq_getElem?_getD, List.getElem?_eq_getElem hj2]
      simp only [Option.getD_some]
      rw [← List.cons_append, ← List.drop_eq_getElem_cons hj2]

theorem assemble_all (vs : List (List Char)) (hne : ∀ c ∈ vs, c ≠ []) (h : vs ≠ []) :
    assemble_loop vs (vs.map List.length).sum (vs.length - 1) 0 = vs.reverse.flatten := by
  have hl : 1 ≤ vs.length := by
    cases vs with
    | nil => exact absurd rfl h
    | cons x l => simp
  have hsplit := take_length_sub_one vs h
  have hsum : (vs.map List.length).sum = ((vs.getD (vs.length - 1) []).length - 0)
      + ((vs.take (vs.length - 1)).map List.length).sum := by
    conv_lhs => rw [hsplit]
    simp only [List.map_append, List.map_cons, List.map_nil, List.sum_append, List.sum_cons,
      List.sum_nil]
    omega
  rw [assemble_loop_spec vs hne _ (vs.length - 1) 0 (by omega) (by omega) hsum]
  conv_rhs => rw [hsplit]
  simp


theorem eq_zero_iff (a : big_integer) (ha : wf a) : eq a zero = true ↔ mag a = 0 := by
  unfold eq
  rw [compare_val a zero ha (by decide)]
  have hz : val zero = 0 := by decide
  rw [hz]
  unfold cmp val
  cases a.is_positive
  · simp only [Bool.false_eq_true, if_false, decide_eq_true_eq]
    by_cases h : mag a = 0
    · simp [h]
    · simp only [h, iff_false]
      rw [if_pos (by omega)]
      simp
  · simp only [if_true, decide_eq_true_eq]
    by_cases h : mag a = 0
    · simp [h]
    · simp only [h, iff_false]
      rw [if_neg (by omega), if_neg (by omega)]
      simp

theorem ne_zero_iff (a : big_integer) (ha : wf a) : ne a zero = true ↔ mag a ≠ 0 := by
  unfold ne
  have := eq_zero_iff a ha
  cases h : eq a zero
  · simp only [Bool.not_false, true_iff]
    rw [h] at this
    simp only [Bool.false_eq_true, false_iff] at this
    exact this
  · simp only [Bool.not_true, Bool.false_eq_true, false_iff, not_not]
    exact this.1 h

theorem single_digit_number (r : big_integer) (hr : wf r) (h : mag r < base) :
    r.number = [mag r] := by
  have hl := length_pos_of_wf r hr
  have hl2 : r.number.length ≤ 1 := by
    by_contra hc
    have := canonical_mag_ge r.number hr.2 (number_ne_zero_of_length r (by omega))
    have h2 : base ^ 1 ≤ base ^ (r.number.length - 1) :=
      Nat.pow_le_pow_right base_pos (by omega)
    unfold mag at h
    rw [pow_one] at h2
    omega
  match hn : r.number, hl, hl2 with
  | [x], _, _ =>
    unfold mag
    rw [hn]
    simp [mag_nat]

theorem dec_val_zeros (k : Nat) : dec_val (List.replicate k (Char.ofNat 48)) = 0 := by
  induction k with
  | zero => rfl
  | succ k ih =>
    rw [List.replicate_succ, dec_val_cons, ih]
    have : (Char.ofNat 48).toNat - 48 = 0 := by decide
    rw [this]
    simp

theorem is_digit_zero : is_digit (Char.ofNat 48) := by decide

/-- The loop `while (copy != 0)` of `to_string`: the chunks, read from the last one,
spell the magnitude in canonical decimal form, and every chunk but the last one has 9
characters. -/
theorem to_string_loop_spec : ∀ (fuel : Nat) (copy : big_integer), wf copy →
    copy.is_positive = true → mag copy < (10 ^ 9) ^ fuel →
    ∃ vs : List (List Char), to_string_loop fuel copy = .ok (vs, (vs.map List.length).sum)
      ∧ (∀ c ∈ vs, c ≠ [])
      ∧ (∀ c ∈ vs.dropLast, c.length = 9 ∧ ∃ n, c = List.replicate
          (buffer_base_cnt_bits - (std_to_string n).length) (Char.ofNat 48) ++ std_to_string n)
      ∧ (mag copy = 0 → vs = [])
      ∧ (mag copy ≠ 0 → canonical_decimal vs.reverse.flatten (mag copy)) := by
  intro fuel
  induction fuel with
  | zero =>
    intro copy hw _ hm
    have h0 : mag copy = 0 := by simpa using hm
    have hne : ne copy zero = false := by
      cases h : ne copy zero
      · rfl
      · exact absurd h0 ((ne_zero_iff copy hw).1 h)
    refine ⟨[], ?_, by simp, by simp, fun _ => rfl, fun h => absurd h0 h⟩
    simp [to_string_loop, hne]
  | succ fuel ih =>
    intro copy hw hp hm
    by_cases h0 : mag copy = 0
    · have hne : ne copy zero = false := by
        cases h : ne copy zero
        · rfl
        · exact absurd h0 ((ne_zero_iff copy hw).1 h)
      refine ⟨[], ?_, by simp, by simp, fun _ => rfl, fun h => absurd h0 h⟩
      simp [to_string_loop, hne]
    · have hne : ne copy zero = true := (ne_zero_iff copy hw).2 h0
      obtain ⟨q, r, d1, d2, d3, d4, _, d6, d7⟩ := short_division_spec copy hw.1 hw.2.1
        buffer_base true (by decide) (by decide)
      have ebb : buffer_base = 10 ^ 9 := by decide
      rw [ebb] at d2 d3
      rw [to_string_loop, if_pos hne, d1]
      simp only
      have hrn : r.number.headD 0 = mag r := by
        rw [single_digit_number r d7 (lt_trans d3 (by decide))]
        rfl
      rw [hrn]
      have hq : q.is_positive = true := by rw [d4, hp]; rfl
      have hqm : mag q < (10 ^ 9) ^ fuel := by
        rw [pow_succ] at hm
        by_contra hc
        have : (10 ^ 9) ^ fuel * 10 ^ 9 ≤ mag q * 10 ^ 9 :=
          Nat.mul_le_mul_right _ (by omega)
        omega
      obtain ⟨vs, v1, v2, v3, v4, v5⟩ := ih q d6 hq hqm
      obtain ⟨⟨s1, s2, s3, s4⟩, s5⟩ := std_to_string_spec (mag r) d3
      rw [v1]
      simp only
      by_cases hq0 : mag q = 0
      · have heq : eq q zero = true := (eq_zero_iff q d6).2 hq0
        rw [heq, v4 hq0]
        simp only [if_true]
        refine ⟨[std_to_string (mag r)], by simp, ?_, by simp, fun h => absurd h h0,
          fun _ => ?_⟩
        · intro c hc
          simp only [List.mem_singleton] at hc
          rw [hc]; exact s1
        · simp only [List.reverse_cons, List.reverse_nil, List.nil_append,
            List.flatten_cons, List.flatten_nil, List.append_nil]
          have : mag copy = mag r := by rw [← d2, hq0]; simp
          rw [this]
          exact ⟨s1, s2, s3, s4⟩
      · have heq : eq q zero = false := by
          cases h : eq q zero
          · rfl
          · exact absurd ((eq_zero_iff q d6).1 h) hq0
        rw [heq]
        simp only [Bool.false_eq_true, if_false]
        obtain ⟨w1, w2, w3, w4⟩ := v5 hq0
        have e9 : buffer_base_cnt_bits = 9 := rfl
        have hclen : (List.replicate (buffer_base_cnt_bits - (std_to_string (mag r)).length)
            (Char.ofNat 48) ++ std_to_string (mag r)).length = 9 := by
          rw [List.length_append, List.length_replicate, e9]; omega
        have hvne : vs ≠ [] := by
          intro e
          rw [e] at w1
          exact w1 rfl
        refine ⟨(List.replicate (buffer_base_cnt_bits - (std_to_string (mag r)).length)
            (Char.ofNat 48) ++ std_to_string (mag r)) :: vs, ?_, ?_, ?_,
          fun h => absurd h h0, fun _ => ⟨?_, ?_, ?_, ?_⟩⟩
        · rw [List.map_cons, List.sum_cons, hclen]
          rfl
        · intro c hc
          rw [List.mem_cons] at hc
          rcases hc with hc | hc
          · rw [hc]
            intro e
            rw [e] at hclen
            simp at hclen
          · exact v2 c hc
        · intro c hc
          rw [List.dropLast_cons_of_ne_nil hvne, List.mem_cons] at hc
          rcases hc with hc | hc
          · rw [hc]; exact ⟨hclen, mag r, rfl⟩
          · exact v3 c hc
        · simp [w1]
        · intro c hc
          simp only [List.reverse_cons, List.flatten_append, List.flatten_cons,
            List.flatten_nil, List.append_nil, List.mem_append, List.mem_replicate] at hc
          rcases hc with hc | hc | hc
          · exact w2 c hc
          · rw [hc.2]; exact is_digit_zero
          · exact s2 c hc
        · simp only [List.reverse_cons, List.flatten_append, List.flatten_cons,
            List.flatten_nil, List.append_nil]
          rw [dec_val_append, hclen, dec_val_append, dec_val_zeros, w3, s3, ← d2]
          simp
        · right
          have hh : vs.reverse.flatten.head? ≠ some (Char.ofNat 48) := by
            rcases w4 with h | h
            · exfalso
              rw [h] at w3
              have : dec_val [Char.ofNat 48] = 0 := by decide
              omega
            · exact h
          simp only [List.reverse_cons, List.flatten_append]
          cases hF : vs.reverse.flatten with
          | nil => exact absurd hF w1
          | cons x l =>
            rw [hF] at hh
            simpa using hh


theorem fuel_of_length (a : big_integer) (ha : wf a) (fuel : Nat)
    (hf : 2 * a.number.length ≤ fuel) : mag a < (10 ^ 9) ^ fuel := by
  have h1 := mag_nat_lt a.number ha.1
  have h2 : base ^ a.number.length ≤ ((10 ^ 9) ^ 2) ^ a.number.length :=
    Nat.pow_le_pow_left (by decide) _
  rw [← pow_mul] at h2
  have h3 : (10 ^ 9) ^ (2 * a.number.length) ≤ (10 ^ 9) ^ fuel :=
    Nat.pow_le_pow_right (by decide) hf
  unfold mag
  omega

/-- Function `to_string`: `"0"` for a zero of either sign, and otherwise the chunks of the
magnitude behind a `'-'` when `is_positive` is false. -/
theorem to_string_spec (fuel : Nat) (a : big_integer) (ha : wf a)
    (hm : mag a < (10 ^ 9) ^ fuel) :
    ∃ body : List Char,
      to_string fuel a = .ok (if val a < 0 then Char.ofNat 45 :: body else body)
      ∧ canonical_decimal body (mag a)
      ∧ (mag a = 0 → body = [Char.ofNat 48])
      ∧ (mag a ≠ 0 → ∃ vs, to_string_loop fuel { a with is_positive := true }
            = .ok (vs, (vs.map List.length).sum)
          ∧ body = vs.reverse.flatten
          ∧ ∀ c ∈ vs.dropLast, c.length = 9 ∧ ∃ n, c = List.replicate
              (buffer_base_cnt_bits - (std_to_string n).length) (Char.ofNat 48)
              ++ std_to_string n) := by
  unfold to_string
  by_cases h0 : mag a = 0
  · have hv : val a = 0 := by
      unfold val; rw [h0]; simp
    rw [(eq_zero_iff a ha).2 h0, if_pos rfl, hv]
    refine ⟨[Char.ofNat 48], by simp, ?_, fun _ => rfl, fun h => absurd h0 h⟩
    rw [h0]
    exact ⟨by simp, by intro c hc; simp only [List.mem_singleton] at hc; rw [hc]; decide,
      by decide, Or.inl rfl⟩
  · have heq : eq a zero = false := by
      cases h : eq a zero
      · rfl
      · exact absurd ((eq_zero_iff a ha).1 h) h0
    rw [heq]
    simp only [Bool.false_eq_true, if_false]
    obtain ⟨vs, v1, v2, v3, _, v5⟩ := to_string_loop_spec fuel { a with is_positive := true }
      ha rfl hm
    have v5 := v5 h0
    have ema : mag { a with is_positive := true } = mag a := rfl
    rw [ema] at v5
    have hvne : vs ≠ [] := by
      intro e
      rw [e] at v5
      exact v5.1 rfl
    rw [v1]
    simp only
    rw [assemble_all vs v2 hvne]
    refine ⟨vs.reverse.flatten, ?_, v5, fun h => absurd h h0, fun _ => ⟨vs, rfl, rfl, v3⟩⟩
    unfold val
    cases a.is_positive
    · simp only [Bool.false_eq_true, if_false]
      rw [if_pos (by omega)]
    · simp only [if_true]
      rw [if_neg (by omega)]

theorem char_eq_of_toNat (c d : Char) (h : c.toNat = d.toNat) : c = d := by
  apply Char.ext
  apply UInt32.ext
  exact h

/-- A number has one canonical decimal representation. -/
theorem canonical_decimal_unique (s : List Char) : ∀ (t : List Char) (n : Nat),
    canonical_decimal s n → canonical_decimal t n → s = t := by
  induction s using List.reverseRecOn with
  | nil => intro t n h _; exact absurd rfl h.1
  | append_singleton s c ih =>
    intro t n hs ht
    obtain ⟨t, d, rfl⟩ : ∃ t' d, t = t' ++ [d] :=
      ⟨t.dropLast, t.getLast ht.1, (List.dropLast_append_getLast ht.1).symm⟩
    have hc : is_digit c := hs.2.1 c (by simp)
    have hd : is_digit d := ht.2.1 d (by simp)
    have e1 := hs.2.2.1
    have e2 := ht.2.2.1
    rw [dec_val_append, dec_val_singleton] at e1 e2
    simp only [List.length_singleton, pow_one] at e1 e2
    unfold is_digit at hc hd
    have hcd : c = d := char_eq_of_toNat c d (by omega)
    have hval : dec_val s = dec_val t := by omega
    have pre : ∀ (u : List Char) (x : Char) (m : Nat), canonical_decimal (u ++ [x]) m →
        u ≠ [] → canonical_decimal u (dec_val u) ∧ 1 ≤ dec_val u := by
      intro u x m hu hne
      have hh : u.head? ≠ some (Char.ofNat 48) := by
        rcases hu.2.2.2 with h | h
        · exfalso
          have := congrArg List.length h
          cases u with
          | nil => exact hne rfl
          | cons y l => simp at this
        · cases u with
          | nil => exact absurd rfl hne
          | cons y l => simpa using h
      have hcan : canonical_decimal u (dec_val u) :=
        ⟨hne, fun y hy => hu.2.1 y (by simp [hy]), rfl, Or.inr hh⟩
      refine ⟨hcan, ?_⟩
      have hz : u ≠ [Char.ofNat 48] := by
        intro e
        rw [e] at hh
        exact hh rfl
      have := canonical_decimal_ge u _ hcan hz
      exact le_trans (Nat.one_le_two_pow.trans (by
        exact Nat.pow_le_pow_left (by omega) _)) this
    by_cases hse : s = []
    · by_cases hte : t = []
      · rw [hse, hte, hcd]
      · exfalso
        have := (pre t d n ht hte).2
        rw [hse] at hval
        have : dec_val ([] : List Char) = 0 := rfl
        omega
    · have ps := pre s c n hs hse
      have hte : t ≠ [] := by
        intro e
        rw [e] at hval
        have : dec_val ([] : List Char) = 0 := rfl
        omega
      have pt := pre t d n ht hte
      rw [← hval] at pt
      rw [ih t (dec_val s) ps.1 pt.1, hcd]


/-! ## Division on both paths -/

theorem eq_iff (a b : big_integer) (ha : wf a) (hb : wf b) :
    eq a b = true ↔ val a = val b := by
  unfold eq
  rw [compare_val a b ha hb]
  unfold cmp
  by_cases h1 : val a < val b
  · rw [if_pos h1]; simp; omega
  · rw [if_neg h1]
    by_cases h2 : val a = val b
    · rw [if_pos h2]; simp [h2]
    · rw [if_neg h2]; simp [h2]

theorem gt_iff (a b : big_integer) (ha : wf a) (hb : wf b) :
    gt a b = true ↔ val b < val a := by
  unfold gt
  rw [compare_val a b ha hb]
  unfold cmp
  by_cases h1 : val a < val b
  · rw [if_pos h1]; simp; omega
  · rw [if_neg h1]
    by_cases h2 : val a = val b
    · rw [if_pos h2]; simp [h2]
    · rw [if_neg h2]; simp; omega

theorem abs_val (a : big_integer) : |val a| = (mag a : Int) := by
  unfold val
  cases a.is_positive
  · simp
  · simp

theorem val_eq_zero_iff (a : big_integer) : val a = 0 ↔ mag a = 0 := by
  unfold val
  cases a.is_positive <;> simp

/-- Function `division` on a well-formed dividend and a nonzero well-formed divisor, on
either path. -/
theorem division_spec (fuel : Nat) (hf : 32 ≤ fuel) (a b : big_integer) (ha : wf a)
    (hb : wf b) (hb0 : mag b ≠ 0) :
    ∃ q r : big_integer, division fuel a b = .ok ⟨q, r⟩
      ∧ mag q * mag b + mag r = mag a ∧ mag r < mag b
      ∧ (mag q ≠ 0 → q.is_positive = decide (a.is_positive = b.is_positive))
      ∧ r.is_positive = a.is_positive ∧ wf q ∧ wf r := by
  by_cases hl : b.number.length = 1
  · have hd := single_digit_number b hb (by
      have := mag_nat_lt b.number hb.1
      rw [hl, pow_one] at this
      exact this)
    obtain ⟨q, r, d1, d2, d3, d4, d5, d6, d7⟩ := short_division_spec a ha.1 ha.2.1 (mag b)
      b.is_positive (by omega) (by
        have := mag_nat_lt b.number hb.1
        rw [hl, pow_one] at this
        exact this)
    refine ⟨q, r, ?_, d2, d3, fun _ => d4, d5, d6, d7⟩
    unfold division
    rw [if_pos hl, hd]
    exact d1
  · exact division_long_spec fuel hf a b ha hb hl

theorem division_by_zero (fuel : Nat) (a b : big_integer) (hb : wf b) (hb0 : mag b = 0) :
    division fuel a b = .error .division_by_zero := by
  have hn : b.number = [0] := (canonical_mag_zero _ hb.2).1 hb0
  unfold division
  rw [hn]
  rfl

/-- The value-level reading of the result of `division`. -/
theorem division_val (a b q r : big_integer)
    (h1 : mag q * mag b + mag r = mag a) (h2 : mag r < mag b)
    (h3 : mag q ≠ 0 → q.is_positive = decide (a.is_positive = b.is_positive))
    (h4 : r.is_positive = a.is_positive) :
    val q * val b + val r = val a ∧ |val r| < |val b|
    ∧ (val r = 0 ∨ Int.sign (val r) = Int.sign (val a)) := by
  refine ⟨?_, ?_, ?_⟩
  · have h1i : (mag q : Int) * (mag b : Int) + (mag r : Int) = (mag a : Int) := by
      exact_mod_cast h1
    by_cases hq0 : mag q = 0
    · have hvq : val q = 0 := (val_eq_zero_iff q).2 hq0
      rw [hvq, zero_mul, zero_add]
      rw [hq0] at h1
      simp only [Nat.zero_mul, Nat.zero_add] at h1
      unfold val
      rw [h4, h1]
    · have h3 := h3 hq0
      unfold val
      rw [h3, h4]
      cases a.is_positive <;> cases b.is_positive <;> simp <;> linarith
  · rw [abs_val, abs_val]
    exact_mod_cast h2
  · by_cases hr0 : mag r = 0
    · left; exact (val_eq_zero_iff r).2 hr0
    · right
      have hra : 0 < mag r := by omega
      have haa : 0 < mag a := by
        have : mag r ≤ mag a := by rw [← h1]; omega
        omega
      unfold val
      rw [h4]
      cases a.is_positive
      · simp only [Bool.false_eq_true, if_false]
        rw [Int.sign_eq_neg_one_of_neg (by omega), Int.sign_eq_neg_one_of_neg (by omega)]
      · simp only [if_true]
        rw [Int.sign_eq_one_of_pos (by omega), Int.sign_eq_one_of_pos (by omega)]

/-- C1: for well-formed `a` and `b` with `b ≠ 0`, `a / b` and `a % b` return a quotient
`q` and a remainder `r` with `q * b + r == a`, `|r| < |b|` and `r` zero or of the sign
of `a` (truncation toward zero).  The divisor ranges over one-digit and multi-digit
values, so the `short_division` path and the long-division path are both covered. -/
theorem division_truncates (fuel : Nat) (a b : big_integer) (hf : 32 ≤ fuel) (ha : wf a)
    (hb : wf b) (hb0 : val b ≠ 0) :
    ∃ q r : big_integer, div fuel a b = .ok q ∧ mod fuel a b = .ok r
      ∧ val q * val b + val r = val a
      ∧ eq (add (mul q b) r) a = true
      ∧ |val r| < |val b|
      ∧ (val r = 0 ∨ Int.sign (val r) = Int.sign (val a)) := by
  have hm : mag b ≠ 0 := fun h => hb0 ((val_eq_zero_iff b).2 h)
  obtain ⟨q, r, d1, d2, d3, d4, d5, d6, d7⟩ := division_spec fuel hf a b ha hb hm
  obtain ⟨v1, v2, v3⟩ := division_val a b q r d2 d3 d4 d5
  obtain ⟨m1, m2⟩ := mul_val q b d6 hb
  obtain ⟨s1, s2⟩ := add_val (mul q b) r m2 d7
  refine ⟨q, r, ?_, ?_, v1, ?_, v2, v3⟩
  · unfold div; rw [d1]; rfl
  · unfold mod; rw [d1]; rfl
  · rw [eq_iff _ _ s2 ha, s1, m1, v1]

/-- Witness of C1 on the long-division path: `-(7 * 2^32 + 5)` divided by `2^32 + 3`. -/
theorem division_truncates_witness :
    32 ≤ 32 ∧ wf ⟨[5, 7], false⟩ ∧ wf ⟨[3, 1], true⟩ ∧ val ⟨[3, 1], true⟩ ≠ 0
    ∧ ∃ q r : big_integer, div 32 ⟨[5, 7], false⟩ ⟨[3, 1], true⟩ = .ok q
      ∧ mod 32 ⟨[5, 7], false⟩ ⟨[3, 1], true⟩ = .ok r
      ∧ val q * val ⟨[3, 1], true⟩ + val r = val ⟨[5, 7], false⟩
      ∧ eq (add (mul q ⟨[3, 1], true⟩) r) ⟨[5, 7], false⟩ = true
      ∧ |val r| < |val ⟨[3, 1], true⟩|
      ∧ (val r = 0 ∨ Int.sign (val r) = Int.sign (val ⟨[5, 7], false⟩)) :=
  ⟨by decide, by decide, by decide, by decide,
    division_truncates 32 ⟨[5, 7], false⟩ ⟨[3, 1], true⟩ (by decide) (by decide) (by decide)
      (by decide)⟩

/-- C7: `a / b` and `a % b` raise the division-by-zero error exactly when the magnitude
of `b` is zero, whatever its stored sign, and return normally for every other divisor,
one-digit or multi-digit. -/
theorem division_by_zero_iff (fuel : Nat) (a b : big_integer) (hf : 32 ≤ fuel) (ha : wf a)
    (hb : wf b) :
    (div fuel a b = .error .division_by_zero ↔ mag b = 0)
    ∧ (mod fuel a b = .error .division_by_zero ↔ mag b = 0)
    ∧ (mag b ≠ 0 → ∃ q r : big_integer, div fuel a b = .ok q ∧ mod fuel a b = .ok r) := by
  have hz : mag b = 0 → division fuel a b = .error .division_by_zero :=
    fun h => division_by_zero fuel a b hb h
  have hnz : mag b ≠ 0 → ∃ q r : big_integer, division fuel a b = .ok ⟨q, r⟩ := by
    intro h
    obtain ⟨q, r, d1, _⟩ := division_spec fuel hf a b ha hb h
    exact ⟨q, r, d1⟩
  refine ⟨⟨?_, ?_⟩, ⟨?_, ?_⟩, ?_⟩
  · intro h
    by_contra h0
    obtain ⟨q, r, d1⟩ := hnz h0
    unfold div at h
    rw [d1] at h
    cases h
  · intro h
    unfold div
    rw [hz h]; rfl
  · intro h
    by_contra h0
    obtain ⟨q, r, d1⟩ := hnz h0
    unfold mod at h
    rw [d1] at h
    cases h
  · intro h
    unfold mod
    rw [hz h]; rfl
  · intro h
    obtain ⟨q, r, d1⟩ := hnz h
    refine ⟨q, r, ?_, ?_⟩
    · unfold div; rw [d1]; rfl
    · unfold mod; rw [d1]; rfl

/-- Witness of C7 at the divisor `-0`: a zero magnitude stored with the negative sign. -/
theorem division_by_zero_iff_witness :
    32 ≤ 32 ∧ wf ⟨[5, 7], true⟩ ∧ wf ⟨[0], false⟩
    ∧ (div 32 ⟨[5, 7], true⟩ ⟨[0], false⟩ = .error .division_by_zero
        ↔ mag ⟨[0], false⟩ = 0)
    ∧ (mod 32 ⟨[5, 7], true⟩ ⟨[0], false⟩ = .error .division_by_zero
        ↔ mag ⟨[0], false⟩ = 0)
    ∧ (mag ⟨[0], false⟩ ≠ 0 → ∃ q r : big_integer,
        div 32 ⟨[5, 7], true⟩ ⟨[0], false⟩ = .ok q
        ∧ mod 32 ⟨[5, 7], true⟩ ⟨[0], false⟩ = .ok r) :=
  ⟨by decide, by decide, by decide,
    division_by_zero_iff 32 ⟨[5, 7], true⟩ ⟨[0], false⟩ (by decide) (by decide) (by decide)⟩


/-! ## Arithmetic and order -/

/-- C2: for well-formed `a` and `b`, whatever their signs and also when their
magnitudes are equal, the value of `a + b` is `value(a) + value(b)` and the value of
`a - b` is `value(a) - value(b)`, where the value is
`(is_positive ? 1 : -1) * Σ number[i] * 2^(32*i)`; both results are well formed. -/
theorem add_sub_value (a b : big_integer) (ha : wf a) (hb : wf b) :
    val (add a b) = val a + val b ∧ val (sub a b) = val a - val b
    ∧ wf (add a b) ∧ wf (sub a b) :=
  ⟨(add_val a b ha hb).1, (sub_val a b ha hb).1, (add_val a b ha hb).2, (sub_val a b ha hb).2⟩

/-- Witness of C2 at operands of equal magnitude and opposite signs. -/
theorem add_sub_value_witness :
    wf ⟨[7, 3], true⟩ ∧ wf ⟨[7, 3], false⟩
    ∧ val (add ⟨[7, 3], true⟩ ⟨[7, 3], false⟩) = val ⟨[7, 3], true⟩ + val ⟨[7, 3], false⟩
    ∧ val (sub ⟨[7, 3], true⟩ ⟨[7, 3], false⟩) = val ⟨[7, 3], true⟩ - val ⟨[7, 3], false⟩
    ∧ wf (add ⟨[7, 3], true⟩ ⟨[7, 3], false⟩) ∧ wf (sub ⟨[7, 3], true⟩ ⟨[7, 3], false⟩) :=
  ⟨by decide, by decide, add_sub_value ⟨[7, 3], true⟩ ⟨[7, 3], false⟩ (by decide) (by decide)⟩

/-- C3: for well-formed `a` and `b` the value of `a * b` is `value(a) * value(b)`, the
sign flag of the result is positive exactly when the sign flags of the operands agree,
and no intermediate `result[i + j] + number[j] * rhs[i] + carry` of the schoolbook loop
exceeds 64 bits. -/
theorem mul_value (a b : big_integer) (ha : wf a) (hb : wf b) :
    val (mul a b) = val a * val b
    ∧ ((mul a b).is_positive = true ↔ a.is_positive = b.is_positive)
    ∧ wf (mul a b)
    ∧ (∀ r x y c : Nat, r < base → x < base → y < base → c < base →
        r + x * y + c < 2 ^ 64) := by
  obtain ⟨i1, i2, i3⟩ := mul_spec a b ha.1 hb.1 ha.2.1
  refine ⟨(mul_val a b ha hb).1, by rw [i2]; simp, i3, ?_⟩
  intro r x y c hr hx hy hc
  rw [base_val] at hr hx hy hc
  have : x * y ≤ 4294967295 * 4294967295 := Nat.mul_le_mul (by omega) (by omega)
  omega

/-- Witness of C3 at two-digit operands of opposite signs. -/
theorem mul_value_witness :
    wf ⟨[4294967295, 4294967295], false⟩ ∧ wf ⟨[4294967295, 4294967295], true⟩
    ∧ val (mul ⟨[4294967295, 4294967295], false⟩ ⟨[4294967295, 4294967295], true⟩)
        = val ⟨[4294967295, 4294967295], false⟩ * val ⟨[4294967295, 4294967295], true⟩
    ∧ ((mul ⟨[4294967295, 4294967295], false⟩
          ⟨[4294967295, 4294967295], true⟩).is_positive = true
        ↔ (⟨[4294967295, 4294967295], false⟩ : big_integer).is_positive
            = (⟨[4294967295, 4294967295], true⟩ : big_integer).is_positive)
    ∧ wf (mul ⟨[4294967295, 4294967295], false⟩ ⟨[4294967295, 4294967295], true⟩)
    ∧ (∀ r x y c : Nat, r < base → x < base → y < base → c < base →
        r + x * y + c < 2 ^ 64) :=
  ⟨by decide, by decide,
    mul_value ⟨[4294967295, 4294967295], false⟩ ⟨[4294967295, 4294967295], true⟩
      (by decide) (by decide)⟩

/-- C8: on well-formed operands comparison is a strict total order that agrees with the
values: exactly one of `a < b`, `a == b`, `a > b` holds, `<` is transitive, `a < b`
holds exactly when `a - b < 0` and exactly when `value(a) < value(b)`, `a == b` holds
exactly when the values are equal, and the two zeros compare equal. -/
theorem compare_total_order (a b c : big_integer) (ha : wf a) (hb : wf b) (hc : wf c) :
    ((lt a b = true ∧ eq a b = false ∧ gt a b = false)
      ∨ (lt a b = false ∧ eq a b = true ∧ gt a b = false)
      ∨ (lt a b = false ∧ eq a b = false ∧ gt a b = true))
    ∧ (lt a b = true → lt b c = true → lt a c = true)
    ∧ (lt a b = true ↔ lt (sub a b) zero = true)
    ∧ (lt a b = true ↔ val a < val b)
    ∧ (eq a b = true ↔ val a = val b)
    ∧ eq ⟨[0], true⟩ ⟨[0], false⟩ = true ∧ eq ⟨[0], false⟩ ⟨[0], true⟩ = true := by
  have hlt := lt_iff a b ha hb
  have heq := eq_iff a b ha hb
  have hgt := gt_iff a b ha hb
  obtain ⟨s1, s2⟩ := sub_val a b ha hb
  have hz : val zero = 0 := by decide
  refine ⟨?_, ?_, ?_, hlt, heq, by decide, by decide⟩
  · rcases lt_trichotomy (val a) (val b) with h | h | h
    · left
      refine ⟨hlt.2 h, ?_, ?_⟩
      · cases e : eq a b
        · rfl
        · have := heq.1 e; omega
      · cases e : gt a b
        · rfl
        · have := hgt.1 e; omega
    · right; left
      refine ⟨?_, heq.2 h, ?_⟩
      · cases e : lt a b
        · rfl
        · have := hlt.1 e; omega
      · cases e : gt a b
        · rfl
        · have := hgt.1 e; omega
    · right; right
      refine ⟨?_, ?_, hgt.2 h⟩
      · cases e : lt a b
        · rfl
        · have := hlt.1 e; omega
      · cases e : eq a b
        · rfl
        · have := heq.1 e; omega
  · intro h1 h2
    rw [lt_iff a c ha hc]
    have := hlt.1 h1
    have := (lt_iff b c hb hc).1 h2
    omega
  · rw [hlt, lt_iff _ _ s2 (by decide), s1, hz]
    omega

/-- Witness of C8 at `-0`, `-(2^32)` and `5`. -/
theorem compare_total_order_witness :
    wf ⟨[0], false⟩ ∧ wf ⟨[0, 1], false⟩ ∧ wf ⟨[5], true⟩
    ∧ ((lt ⟨[0], false⟩ ⟨[0, 1], false⟩ = true ∧ eq ⟨[0], false⟩ ⟨[0, 1], false⟩ = false
          ∧ gt ⟨[0], false⟩ ⟨[0, 1], false⟩ = false)
        ∨ (lt ⟨[0], false⟩ ⟨[0, 1], false⟩ = false ∧ eq ⟨[0], false⟩ ⟨[0, 1], false⟩ = true
          ∧ gt ⟨[0], false⟩ ⟨[0, 1], false⟩ = false)
        ∨ (lt ⟨[0], false⟩ ⟨[0, 1], false⟩ = false ∧ eq ⟨[0], false⟩ ⟨[0, 1], false⟩ = false
          ∧ gt ⟨[0], false⟩ ⟨[0, 1], false⟩ = true))
    ∧ (lt ⟨[0], false⟩ ⟨[0, 1], false⟩ = true → lt ⟨[0, 1], false⟩ ⟨[5], true⟩ = true
        → lt ⟨[0], false⟩ ⟨[5], true⟩ = true)
    ∧ (lt ⟨[0], false⟩ ⟨[0, 1], false⟩ = true
        ↔ lt (sub ⟨[0], false⟩ ⟨[0, 1], false⟩) zero = true)
    ∧ (lt ⟨[0], false⟩ ⟨[0, 1], false⟩ = true ↔ val ⟨[0], false⟩ < val ⟨[0, 1], false⟩)
    ∧ (eq ⟨[0], false⟩ ⟨[0, 1], false⟩ = true ↔ val ⟨[0], false⟩ = val ⟨[0, 1], false⟩)
    ∧ eq ⟨[0], true⟩ ⟨[0], false⟩ = true ∧ eq ⟨[0], false⟩ ⟨[0], true⟩ = true :=
  ⟨by decide, by decide, by decide,
    compare_total_order ⟨[0], false⟩ ⟨[0, 1], false⟩ ⟨[5], true⟩ (by decide) (by decide)
      (by decide)⟩


/-! ## Decimal strings -/

theorem not_valid_iff (s : List Char) :
    ¬ valid_decimal s ↔ (s = [] ∨ s = [Char.ofNat 43] ∨ s = [Char.ofNat 45]
      ∨ ∃ c ∈ digits_part s, ¬ is_digit c) := by
  unfold valid_decimal
  have hl := lone_sign_iff s
  constructor
  · intro h
    by_cases he : digits_part s = []
    · rcases hl.2 he with h1 | h1 | h1
      · exact Or.inr (Or.inr (Or.inl h1))
      · exact Or.inr (Or.inl h1)
      · exact Or.inl h1
    · right; right; right
      by_contra hc
      apply h
      refine ⟨he, ?_⟩
      intro c hcm
      by_contra hd
      exact hc ⟨c, hcm, hd⟩
  · rintro (h | h | h | ⟨c, hc, hd⟩)
    · intro hv; exact hv.1 (hl.1 (Or.inr (Or.inr h)))
    · intro hv; exact hv.1 (hl.1 (Or.inr (Or.inl h)))
    · intro hv; exact hv.1 (hl.1 (Or.inl h))
    · intro hv; exact hd (hv.2 c hc)

/-- C6: the constructor from a decimal string fails with the invalid-argument error
exactly when the string is empty, is a lone `"+"` or `"-"`, or has a character other
than `'0'..'9'` after one optional leading sign; every other string is accepted and
gives the number written by its digits, negated by a leading `'-'`. -/
theorem of_string_accepts (fuel : Nat) (s : List Char) (hf : s.length ≤ fuel) :
    (of_string fuel s = .error .invalid_argument
      ↔ (s = [] ∨ s = [Char.ofNat 43] ∨ s = [Char.ofNat 45]
          ∨ ∃ c ∈ digits_part s, ¬ is_digit c))
    ∧ (¬ (s = [] ∨ s = [Char.ofNat 43] ∨ s = [Char.ofNat 45]
          ∨ ∃ c ∈ digits_part s, ¬ is_digit c) →
        ∃ r : big_integer, of_string fuel s = .ok r ∧ wf r
          ∧ val r = (if s.head? = some (Char.ofNat 45) then -(dec_val (digits_part s) : Int)
              else (dec_val (digits_part s) : Int))) := by
  obtain ⟨p1, p2⟩ := of_string_spec fuel s hf
  rw [← not_valid_iff]
  have hok : valid_decimal s → ∃ r : big_integer, of_string fuel s = .ok r ∧ wf r
      ∧ val r = (if s.head? = some (Char.ofNat 45) then -(dec_val (digits_part s) : Int)
          else (dec_val (digits_part s) : Int)) := by
    intro hv
    obtain ⟨r, r1, r2, r3, r4⟩ := p1 hv
    refine ⟨r, r1, r2, ?_⟩
    unfold val
    rw [r3, r4]
    by_cases hm : s.head? = some (Char.ofNat 45)
    · simp [hm]
    · simp [hm]
  refine ⟨⟨?_, p2⟩, fun h => hok (not_not.1 h)⟩
  intro h hv
  obtain ⟨r, r1, _⟩ := hok hv
  rw [r1] at h
  cases h

/-- Witness of C6 at the string `"-12"`. -/
theorem of_string_accepts_witness :
    [Char.ofNat 45, Char.ofNat 49, Char.ofNat 50].length ≤ 3
    ∧ (of_string 3 [Char.ofNat 45, Char.ofNat 49, Char.ofNat 50] = .error .invalid_argument
      ↔ ([Char.ofNat 45, Char.ofNat 49, Char.ofNat 50] = []
          ∨ [Char.ofNat 45, Char.ofNat 49, Char.ofNat 50] = [Char.ofNat 43]
          ∨ [Char.ofNat 45, Char.ofNat 49, Char.ofNat 50] = [Char.ofNat 45]
          ∨ ∃ c ∈ digits_part [Char.ofNat 45, Char.ofNat 49, Char.ofNat 50], ¬ is_digit c))
    ∧ (¬ ([Char.ofNat 45, Char.ofNat 49, Char.ofNat 50] = []
          ∨ [Char.ofNat 45, Char.ofNat 49, Char.ofNat 50] = [Char.ofNat 43]
          ∨ [Char.ofNat 45, Char.ofNat 49, Char.ofNat 50] = [Char.ofNat 45]
          ∨ ∃ c ∈ digits_part [Char.ofNat 45, Char.ofNat 49, Char.ofNat 50], ¬ is_digit c) →
        ∃ r : big_integer, of_string 3 [Char.ofNat 45, Char.ofNat 49, Char.ofNat 50] = .ok r
          ∧ wf r
          ∧ val r = (if [Char.ofNat 45, Char.ofNat 49, Char.ofNat 50].head?
                = some (Char.ofNat 45)
              then -(dec_val (digits_part [Char.ofNat 45, Char.ofNat 49, Char.ofNat 50]) : Int)
              else (dec_val (digits_part [Char.ofNat 45, Char.ofNat 49, Char.ofNat 50])
                : Int))) :=
  ⟨by decide, of_string_accepts 3 [Char.ofNat 45, Char.ofNat 49, Char.ofNat 50] (by decide)⟩

/-- C5: for a well-formed `a`, `to_string(a)` is the canonical decimal representation
of its value: `"0"` for a zero of either stored sign, and otherwise the decimal digits
of the magnitude without leading zero, behind a `'-'` exactly when the value is
negative; the text is the concatenation of the chunks of the loop, of which all but the
most significant one are padded with `'0'` to 9 characters. -/
theorem to_string_canonical (fuel : Nat) (a : big_integer) (ha : wf a)
    (hf : 2 * a.number.length ≤ fuel) :
    ∃ body : List Char,
      to_string fuel a = .ok (if val a < 0 then Char.ofNat 45 :: body else body)
      ∧ canonical_decimal body (val a).natAbs
      ∧ (val a = 0 → to_string fuel a = .ok [Char.ofNat 48])
      ∧ (val a ≠ 0 → ∃ vs, to_string_loop fuel { a with is_positive := true }
            = .ok (vs, (vs.map List.length).sum)
          ∧ body = vs.reverse.flatten
          ∧ ∀ c ∈ vs.dropLast, c.length = 9 ∧ ∃ n, c = List.replicate
              (buffer_base_cnt_bits - (std_to_string n).length) (Char.ofNat 48)
              ++ std_to_string n) := by
  obtain ⟨body, b1, b2, b3, b4⟩ := to_string_spec fuel a ha (fuel_of_length a ha fuel hf)
  have hna : (val a).natAbs = mag a := by
    unfold val
    cases a.is_positive <;> simp
  refine ⟨body, b1, by rw [hna]; exact b2, ?_, ?_⟩
  · intro h0
    rw [b1, h0, b3 ((val_eq_zero_iff a).1 h0)]
    simp
  · intro h0
    exact b4 (fun h => h0 ((val_eq_zero_iff a).2 h))

/-- Witness of C5 at `-(2^32 + 705032704)`, whose text has two chunks. -/
theorem to_string_canonical_witness :
    wf ⟨[705032704, 1], false⟩
    ∧ 2 * (⟨[705032704, 1], false⟩ : big_integer).number.length ≤ 4
    ∧ ∃ body : List Char,
      to_string 4 ⟨[705032704, 1], false⟩
        = .ok (if val ⟨[705032704, 1], false⟩ < 0 then Char.ofNat 45 :: body else body)
      ∧ canonical_decimal body (val ⟨[705032704, 1], false⟩).natAbs
      ∧ (val ⟨[705032704, 1], false⟩ = 0
          → to_string 4 ⟨[705032704, 1], false⟩ = .ok [Char.ofNat 48])
      ∧ (val ⟨[705032704, 1], false⟩ ≠ 0 →
          ∃ vs, to_string_loop 4 { (⟨[705032704, 1], false⟩ : big_integer) with
              is_positive := true } = .ok (vs, (vs.map List.length).sum)
            ∧ body = vs.reverse.flatten
            ∧ ∀ c ∈ vs.dropLast, c.length = 9 ∧ ∃ n, c = List.replicate
                (buffer_base_cnt_bits - (std_to_string n).length) (Char.ofNat 48)
                ++ std_to_string n) :=
  ⟨by decide, by decide, to_string_canonical 4 ⟨[705032704, 1], false⟩ (by decide) (by decide)⟩

/-- The round trip through the constructor and `to_string` on a string whose digits are
in canonical form: the digits come back, behind a `'-'` when the string has one and its
digits are not `"0"`. -/
theorem roundtrip_spec (fuel : Nat) (s : List Char) (hf : s.length ≤ fuel)
    (hc : canonical_decimal (digits_part s) (dec_val (digits_part s))) :
    roundtrip fuel s = .ok (if s.head? = some (Char.ofNat 45) ∧ digits_part s ≠ [Char.ofNat 48]
      then Char.ofNat 45 :: digits_part s else digits_part s) := by
  have hv : valid_decimal s := ⟨hc.1, hc.2.1⟩
  obtain ⟨r, r1, r2, r3, r4⟩ := (of_string_spec fuel s hf).1 hv
  have hlen : (digits_part s).length ≤ s.length := by
    rw [digits_part_eq_drop, List.length_drop]; omega
  have hmr : mag r < (10 ^ 9) ^ fuel := by
    rw [r4]
    have h1 := dec_val_lt _ hc.2.1
    have h2 : 10 ^ (digits_part s).length ≤ 10 ^ fuel :=
      Nat.pow_le_pow_right (by omega) (by omega)
    have h3 : 10 ^ fuel ≤ (10 ^ 9) ^ fuel := Nat.pow_le_pow_left (by omega) _
    omega
  obtain ⟨body, b1, b2, _, _⟩ := to_string_spec fuel r r2 hmr
  rw [r4] at b2
  have hb : body = digits_part s := canonical_decimal_unique body _ _ b2 hc
  unfold roundtrip
  rw [r1]
  simp only
  rw [b1, hb]
  have hz : dec_val (digits_part s) = 0 ↔ digits_part s = [Char.ofNat 48] := by
    constructor
    · intro h0
      by_contra hne
      have := canonical_decimal_ge _ _ hc hne
      have hp : 0 < 10 ^ ((digits_part s).length - 1) := Nat.pow_pos (by omega)
      omega
    · intro h; rw [h]; decide
  have hneg : val r < 0 ↔ (s.head? = some (Char.ofNat 45)
      ∧ digits_part s ≠ [Char.ofNat 48]) := by
    have hz2 : digits_part s ≠ [Char.ofNat 48] ↔ dec_val (digits_part s) ≠ 0 :=
      not_congr hz.symm
    unfold val
    rw [r3, r4, hz2]
    by_cases hm : s.head? = some (Char.ofNat 45)
    · simp only [hm, decide_True, Bool.not_true, Bool.false_eq_true, if_false, true_and]
      omega
    · simp only [hm, decide_False, Bool.not_false, if_true, false_and, iff_false]
      omega
  by_cases h : val r < 0
  · rw [if_pos h, if_pos (hneg.1 h)]
  · rw [if_neg h, if_neg (fun h2 => h (hneg.2 h2))]

/-- C4, amended: for every decimal string `s` whose digits have no leading zero beyond
`"0"` itself, `to_string(big_integer(s))` is the digit part of `s` behind a `'-'` when
`s` has one and is not `"-0"`; so it is `s` itself whenever `s` has no `'+'` sign and is
not `"-0"`. -/
theorem roundtrip_canonical (fuel : Nat) (s : List Char) (hf : s.length ≤ fuel)
    (hc : canonical_decimal (digits_part s) (dec_val (digits_part s))) :
    roundtrip fuel s = .ok (if s.head? = some (Char.ofNat 45) ∧ digits_part s ≠ [Char.ofNat 48]
      then Char.ofNat 45 :: digits_part s else digits_part s)
    ∧ (s.head? ≠ some (Char.ofNat 43) → s ≠ [Char.ofNat 45, Char.ofNat 48] →
        roundtrip fuel s = .ok s) := by
  have h := roundtrip_spec fuel s hf hc
  refine ⟨h, ?_⟩
  intro hplus hm0
  rw [h]
  congr 1
  by_cases hm : s.head? = some (Char.ofNat 45)
  · cases s with
    | nil => simp at hm
    | cons c t =>
      have hct : c = Char.ofNat 45 := by simpa using hm
      subst hct
      have hd : digits_part (Char.ofNat 45 :: t) = t := by
        unfold digits_part
        simp
      rw [hd]
      have : t ≠ [Char.ofNat 48] := by
        intro e
        rw [e] at hm0
        exact hm0 rfl
      rw [if_pos ⟨hm, this⟩]
  · have hd : digits_part s = s := by
      unfold digits_part
      rw [if_neg (fun h => h.elim hm hplus)]
    rw [if_neg (fun h => hm h.1), hd]

/-- Witness of the amended C4 at the string `"-42"`. -/
theorem roundtrip_canonical_witness :
    [Char.ofNat 45, Char.ofNat 52, Char.ofNat 50].length ≤ 3
    ∧ canonical_decimal (digits_part [Char.ofNat 45, Char.ofNat 52, Char.ofNat 50])
        (dec_val (digits_part [Char.ofNat 45, Char.ofNat 52, Char.ofNat 50]))
    ∧ roundtrip 3 [Char.ofNat 45, Char.ofNat 52, Char.ofNat 50]
        = .ok (if [Char.ofNat 45, Char.ofNat 52, Char.ofNat 50].head? = some (Char.ofNat 45)
              ∧ digits_part [Char.ofNat 45, Char.ofNat 52, Char.ofNat 50] ≠ [Char.ofNat 48]
            then Char.ofNat 45 :: digits_part [Char.ofNat 45, Char.ofNat 52, Char.ofNat 50]
            else digits_part [Char.ofNat 45, Char.ofNat 52, Char.ofNat 50])
    ∧ ([Char.ofNat 45, Char.ofNat 52, Char.ofNat 50].head? ≠ some (Char.ofNat 43) →
        [Char.ofNat 45, Char.ofNat 52, Char.ofNat 50] ≠ [Char.ofNat 45, Char.ofNat 48] →
        roundtrip 3 [Char.ofNat 45, Char.ofNat 52, Char.ofNat 50]
          = .ok [Char.ofNat 45, Char.ofNat 52, Char.ofNat 50]) :=
  ⟨by decide, by decide,
    roundtrip_canonical 3 [Char.ofNat 45, Char.ofNat 52, Char.ofNat 50] (by decide)
      (by decide)⟩

/-- C4 as stated fails: `"+5"` and `"-0"` are valid decimal strings, optionally signed
and without leading zero, and they come back as `"5"` and `"0"`. -/
theorem roundtrip_drops_sign :
    valid_decimal [Char.ofNat 43, Char.ofNat 53]
    ∧ canonical_decimal (digits_part [Char.ofNat 43, Char.ofNat 53]) 5
    ∧ roundtrip 2 [Char.ofNat 43, Char.ofNat 53] = .ok [Char.ofNat 53]
    ∧ roundtrip 2 [Char.ofNat 43, Char.ofNat 53] ≠ .ok [Char.ofNat 43, Char.ofNat 53]
    ∧ valid_decimal [Char.ofNat 45, Char.ofNat 48]
    ∧ canonical_decimal (digits_part [Char.ofNat 45, Char.ofNat 48]) 0
    ∧ roundtrip 2 [Char.ofNat 45, Char.ofNat 48] = .ok [Char.ofNat 48]
    ∧ roundtrip 2 [Char.ofNat 45, Char.ofNat 48] ≠ .ok [Char.ofNat 45, Char.ofNat 48] :=
  ⟨by decide, by decide, rfl, (by intro h; cases h), by decide, by decide, rfl,
    (by intro h; cases h)⟩


/-! ## Bitwise operators -/

/-- C9 fails on the code: `(-5) & 3 = 3` and `(-5) | 3 = -5` as the specification says,
but `(-2^32) & (-1)` evaluates to a zero, whereas the two's-complement conjunction of
`-2^32` and `-1` is `-2^32`.  The carry out of a single all-ones digit is dropped by
`operator++`, which `to_twos_complement` calls. -/
theorem band_loses_carry :
    band ⟨[5], false⟩ ⟨[3], true⟩ = ⟨[3], true⟩
    ∧ bor ⟨[5], false⟩ ⟨[3], true⟩ = ⟨[5], false⟩
    ∧ wf ⟨[0, 1], false⟩ ∧ wf ⟨[1], false⟩
    ∧ val ⟨[0, 1], false⟩ = -4294967296 ∧ val ⟨[1], false⟩ = -1
    ∧ band ⟨[0, 1], false⟩ ⟨[1], false⟩ = ⟨[0], false⟩
    ∧ val (band ⟨[0, 1], false⟩ ⟨[1], false⟩) = 0
    ∧ Int.land (-4294967296) (-1) = -4294967296
    ∧ inc ⟨[4294967295], true⟩ = ⟨[0], true⟩ := by
  decide

/-- C10 fails on the code: `~(-1)` evaluates to `-2^64` whereas `-(-1) - 1` is `0`,
because `operator~` never sets `is_positive` back to true for a negative operand; and
`~(2^32 - 1)` evaluates to a zero whereas `-(2^32 - 1) - 1` is `-2^32`, because of the
carry dropped by `operator++`. -/
theorem bnot_wrong_on_negative :
    wf ⟨[1], false⟩
    ∧ bnot ⟨[1], false⟩ = ⟨[0, 0, 1], false⟩
    ∧ val (bnot ⟨[1], false⟩) = -18446744073709551616
    ∧ val (sub (neg ⟨[1], false⟩) ⟨[1], true⟩) = 0
    ∧ eq (bnot ⟨[1], false⟩) (sub (neg ⟨[1], false⟩) ⟨[1], true⟩) = false
    ∧ bnot ⟨[4294967295], true⟩ = ⟨[0], false⟩
    ∧ val (sub (neg ⟨[4294967295], true⟩) ⟨[1], true⟩) = -4294967296
    ∧ eq (bnot ⟨[4294967295], true⟩) (sub (neg ⟨[4294967295], true⟩) ⟨[1], true⟩)
        = false := by
  have w1 : wf (neg ⟨[1], false⟩) := by decide
  have w2 : wf (⟨[1], true⟩ : big_integer) := by decide
  have w3 : wf (neg ⟨[4294967295], true⟩) := by decide
  obtain ⟨s1, s2⟩ := sub_val (neg ⟨[1], false⟩) ⟨[1], true⟩ w1 w2
  obtain ⟨t1, t2⟩ := sub_val (neg ⟨[4294967295], true⟩) ⟨[1], true⟩ w3 w2
  have v1 : val (neg ⟨[1], false⟩) = 1 := by decide
  have v2 : val (⟨[1], true⟩ : big_integer) = 1 := by decide
  have v3 : val (neg ⟨[4294967295], true⟩) = -4294967295 := by decide
  have b1 : bnot ⟨[1], false⟩ = ⟨[0, 0, 1], false⟩ := by decide
  have b2 : bnot ⟨[4294967295], true⟩ = ⟨[0], false⟩ := by decide
  rw [v1, v2] at s1
  rw [v3, v2] at t1
  refine ⟨by decide, b1, by rw [b1]; decide, by rw [s1]; rfl, ?_, b2, by rw [t1]; rfl, ?_⟩
  · cases h : eq (bnot ⟨[1], false⟩) (sub (neg ⟨[1], false⟩) ⟨[1], true⟩)
    · rfl
    · rw [eq_iff _ _ (by rw [b1]; decide) s2, s1, b1] at h
      revert h
      decide
  · cases h : eq (bnot ⟨[4294967295], true⟩) (sub (neg ⟨[4294967295], true⟩) ⟨[1], true⟩)
    · rfl
    · rw [eq_iff _ _ (by rw [b2]; decide) t2, t1, b2] at h
      revert h
      decide


/-! ## Increment, decrement and the two's-complement adapter return well-formed objects -/

theorem length_inc_loop (l : List Nat) : (inc_loop l).length = l.length := by
  induction l with
  | nil => rfl
  | cons x xs ih =>
    unfold inc_loop
    split
    · simp [ih]
    · simp

theorem digits_ok_inc_loop (l : List Nat) (h : digits_ok l) : digits_ok (inc_loop l) := by
  induction l with
  | nil => exact h
  | cons x xs ih =>
    obtain ⟨hx, hxs⟩ := digits_ok_cons.1 h
    unfold inc_loop
    split
    · exact digits_ok_cons.2 ⟨base_pos, ih hxs⟩
    · refine digits_ok_cons.2 ⟨?_, hxs⟩
      rw [base_val]
      omega

/-- The digit loop of `operator++` adds one, and leaves only zeros when every digit is
all ones: the carry out of the top digit is not stored by the loop. -/
theorem inc_loop_mag (l : List Nat) (h : digits_ok l) :
    (mag_nat l + 1 < base ^ l.length → mag_nat (inc_loop l) = mag_nat l + 1)
    ∧ (mag_nat l + 1 = base ^ l.length → inc_loop l = List.replicate l.length 0) := by
  induction l with
  | nil =>
    constructor
    · intro h1; simp [mag_nat] at h1
    · intro _; rfl
  | cons x xs ih =>
    obtain ⟨hx, hxs⟩ := digits_ok_cons.1 h
    obtain ⟨i1, i2⟩ := ih hxs
    have hlt := mag_nat_lt xs hxs
    have e1 : mag_nat (x :: xs) = x + 4294967296 * mag_nat xs := by
      rw [mag_nat, base_val]
    have e2 : base ^ (x :: xs).length = 4294967296 * base ^ xs.length := by
      rw [List.length_cons, pow_succ, base_val]; ring
    rw [e1, e2]
    rw [base_val] at hx
    unfold inc_loop
    by_cases hF : x = all_bits_one
    · rw [if_pos hF]
      rw [all_bits_one_val] at hF
      constructor
      · intro h1
        have h2 : mag_nat (inc_loop xs) = mag_nat xs + 1 := i1 (by omega)
        rw [mag_nat, base_val, h2]
        omega
      · intro h1
        rw [i2 (by omega), List.length_cons, List.replicate_succ]
    · rw [if_neg hF]
      rw [all_bits_one_val] at hF
      have e : (x + 1) % 2 ^ 32 = x + 1 := by omega
      constructor
      · intro _
        rw [mag_nat, base_val, e]
        omega
      · intro h1
        omega

/-- The path of `operator++` for a positive receiver: the result is well formed; it is
the successor unless the magnitude is `2^32 - 1`, where the result is a zero. -/
theorem inc_pos_spec (a : big_integer) (hd : digits_ok a.number) (hne : a.number ≠ []) :
    wf (inc_pos a) ∧ (inc_pos a).is_positive = a.is_positive
    ∧ (mag a ≠ base - 1 → mag (inc_pos a) = mag a + 1)
    ∧ (mag a = base - 1 → (inc_pos a).number = [0]) := by
  have hw := trim_wf a hd hne
  have hm := mag_trim a
  have hs := trim_is_positive a
  unfold inc_pos
  simp only
  generalize trim a = t at *
  rw [← hm]
  obtain ⟨hdt, hct⟩ := hw
  obtain ⟨i1, i2⟩ := inc_loop_mag t.number hdt
  have hlen := length_inc_loop t.number
  have hdi := digits_ok_inc_loop t.number hdt
  have hlt := mag_nat_lt t.number hdt
  have hpos : 1 ≤ t.number.length := by
    rcases ht : t.number with _ | ⟨x, xs⟩
    · exact absurd ht hct.1
    · simp
  have hB : base ≤ base ^ t.number.length ∨ t.number.length = 1 := by
    by_cases h1 : t.number.length = 1
    · exact Or.inr h1
    · left
      calc base = base ^ 1 := (pow_one _).symm
        _ ≤ base ^ t.number.length := Nat.pow_le_pow_right base_pos hpos
  by_cases hcase : mag_nat t.number + 1 < base ^ t.number.length
  · have hmag := i1 hcase
    have hcan : canonical (inc_loop t.number) := by
      apply canonical_of_mag _ hdi
      · intro h0
        rw [h0] at hlen
        simp at hlen
        omega
      · right
        rw [hlen, hmag]
        by_cases hz : t.number = [0]
        · rw [hz]; decide
        · have := canonical_mag_ge t.number hct hz
          omega
    have hno : ¬ ((inc_loop t.number).length > 1 ∧ (inc_loop t.number).getLast? = some 0) := by
      rintro ⟨h1, h2⟩
      rcases hcan.2 with h3 | h3
      · rw [h3] at h1; simp at h1
      · exact h3 h2
    rw [if_neg hno]
    refine ⟨⟨hdi, hcan⟩, hs, fun _ => hmag, ?_⟩
    intro hb
    exfalso
    unfold mag at hb
    by_cases hz : t.number = [0]
    · rw [hz] at hb
      revert hb
      decide
    · have h1 := canonical_mag_ge t.number hct hz
      have h2 : t.number.length ≠ 1 := by
        intro h2
        rw [h2, pow_one] at hcase
        have := base_val
        omega
      have h3 : base ^ 1 ≤ base ^ (t.number.length - 1) :=
        Nat.pow_le_pow_right base_pos (by omega)
      rw [pow_one] at h3
      have := base_pos
      omega
  · have heq : mag_nat t.number + 1 = base ^ t.number.length := by omega
    have hrep := i2 heq
    rw [hrep]
    by_cases hl1 : t.number.length = 1
    · rw [hl1]
      simp only [List.replicate_one, List.length_singleton, gt_iff_lt, lt_self_iff_false,
        false_and, if_false]
      have hz0 : digits_ok [0] ∧ canonical [0] := by decide
      refine ⟨hz0, hs, ?_, ?_⟩
      · intro hb
        exfalso
        apply hb
        unfold mag
        rw [hl1, pow_one] at heq
        omega
      · intro _
        trivial
    · have hl2 : 1 < t.number.length := by omega
      have hlast : (List.replicate t.number.length 0).getLast? = some 0 := by
        obtain ⟨n, hn⟩ : ∃ n, t.number.length = n + 1 := ⟨t.number.length - 1, by omega⟩
        rw [hn, List.replicate_succ']
        simp
      rw [if_pos ⟨by simpa using hl2, hlast⟩]
      refine ⟨⟨?_, ?_⟩, hs, ?_, ?_⟩
      · apply digits_ok_append.2
        refine ⟨digits_ok_replicate _ _ base_pos, ?_⟩
        intro d hd1
        simp at hd1
        rw [hd1]
        exact one_lt_base
      · refine ⟨by simp, Or.inr ?_⟩
        simp
      · intro _
        unfold mag
        simp only
        rw [mag_nat_append, mag_nat_replicate_zero, List.length_replicate, heq]
        simp [mag_nat]
      · intro hb
        exfalso
        unfold mag at hb
        have h3 : base ^ 2 ≤ base ^ t.number.length :=
          Nat.pow_le_pow_right base_pos (by omega)
        rw [base_val] at *
        omega


theorem length_inverse (a : big_integer) : (inverse a).number.length = a.number.length := by
  simp [inverse]

theorem digits_ok_inverse (a : big_integer) : digits_ok (inverse a).number := by
  intro d hd
  simp only [inverse, List.mem_map] at hd
  obtain ⟨x, _, rfl⟩ := hd
  rw [base_val, all_bits_one_val]
  omega

theorem length_dec_loop (l : List Nat) : (dec_loop l).length = l.length := by
  induction l with
  | nil => rfl
  | cons x xs ih =>
    unfold dec_loop
    split
    · simp [ih]
    · simp

theorem digits_ok_dec_loop (l : List Nat) (h : digits_ok l) : digits_ok (dec_loop l) := by
  induction l with
  | nil => exact h
  | cons x xs ih =>
    obtain ⟨hx, hxs⟩ := digits_ok_cons.1 h
    unfold dec_loop
    split
    · exact digits_ok_cons.2 ⟨by decide, ih hxs⟩
    · refine digits_ok_cons.2 ⟨?_, hxs⟩
      rw [base_val]
      omega

theorem ne_nil_of_length {l : List Nat} (h : 1 ≤ l.length) : l ≠ [] := by
  intro h0
  rw [h0] at h
  simp at h

theorem length_pos_of_ne_nil {l : List Nat} (h : l ≠ []) : 1 ≤ l.length := by
  cases l with
  | nil => exact absurd rfl h
  | cons x xs => simp

/-- Prefix `operator--` returns a well-formed object. -/
theorem dec_wf (a : big_integer) (hd : digits_ok a.number) (hne : a.number ≠ []) :
    wf (dec a) := by
  unfold dec
  split
  · exact (inc_pos_spec { a with is_positive := true } hd hne).1
  · apply trim_wf
    · exact digits_ok_dec_loop _ hd
    · apply ne_nil_of_length
      simp only [length_dec_loop]
      exact length_pos_of_ne_nil hne

/-- Prefix `operator++` returns a well-formed object. -/
theorem inc_wf (a : big_integer) (hd : digits_ok a.number) (hne : a.number ≠ []) :
    wf (inc a) := by
  unfold inc
  split
  · exact dec_wf { a with is_positive := true } hd hne
  · exact (inc_pos_spec a hd hne).1

/-- The two's-complement view has 32-bit digits, at least one of them, and the sign flag
of the operand. -/
theorem to_twos_complement_ok (a : big_integer) (hd : digits_ok a.number)
    (hne : a.number ≠ []) :
    digits_ok (to_twos_complement a).number ∧ (to_twos_complement a).number ≠ []
    ∧ (to_twos_complement a).is_positive = a.is_positive := by
  unfold to_twos_complement
  cases hp : a.is_positive
  · simp only [Bool.not_false, if_true]
    have hne2 : (inverse a).number ≠ [] := by
      apply ne_nil_of_length
      rw [length_inverse]
      exact length_pos_of_ne_nil hne
    have hw := dec_wf (inverse a) (digits_ok_inverse a) hne2
    refine ⟨hw.1, hw.2.1, ?_⟩
    unfold dec
    have : (inverse a).is_positive = false := hp
    simp [this]
  · simp only [Bool.not_true, Bool.false_eq_true, if_false]
    exact ⟨hd, hne, hp⟩

/-- The objects returned by `operator&=`, `operator|=` and `operator^=` are well formed. -/
theorem bitwise_operation_wf (operation : Nat → Nat → Nat) (a b : big_integer)
    (ha : digits_ok a.number) (hna : a.number ≠ []) (hb : digits_ok b.number)
    (hnb : b.number ≠ []) : wf (bitwise_operation operation a b) := by
  obtain ⟨a1, a2, _⟩ := to_twos_complement_ok a ha hna
  obtain ⟨b1, b2, _⟩ := to_twos_complement_ok b hb hnb
  unfold bitwise_operation
  simp only
  generalize to_twos_complement a = x at *
  generalize to_twos_complement b = y at *
  have hx := length_pos_of_ne_nil a2
  have hy := length_pos_of_ne_nil b2
  generalize hn1 : (if x.number.length < y.number.length then
      resize x.number y.number.length (if x.is_positive then 0 else all_bits_one)
    else x.number) = n1
  have hl1 : 1 ≤ n1.length := by
    rw [← hn1]
    split
    · rw [length_resize]; omega
    · exact hx
  generalize hn2 : (if y.number.length < n1.length then
      resize y.number n1.length (if y.is_positive then 0 else all_bits_one)
    else y.number) = n2
  have hl2 : 1 ≤ n2.length := by
    rw [← hn2]
    split
    · rw [length_resize]; omega
    · exact hy
  generalize hs : decide (operation (if x.is_positive then 0 else 1)
      (if y.is_positive then 0 else 1) % 2 ^ 32 = 0) = s
  have hz : digits_ok (List.zipWith (fun x y => operation x y % 2 ^ 32) n1 n2) := by
    intro d hd
    obtain ⟨i, hi, rfl⟩ := List.getElem_of_mem hd
    rw [List.getElem_zipWith, base_val]
    omega
  have hzn : List.zipWith (fun x y => operation x y % 2 ^ 32) n1 n2 ≠ [] := by
    apply ne_nil_of_length
    rw [List.length_zipWith]
    omega
  obtain ⟨r1, r2, _⟩ := to_twos_complement_ok
    ⟨List.zipWith (fun x y => operation x y % 2 ^ 32) n1 n2, s⟩ hz hzn
  exact trim_wf _ r1 r2


theorem digits_ok_shl_loop (rem preserve_neg : Nat) (l : List Nat) (carry : Nat) :
    digits_ok (shl_loop rem preserve_neg l carry) ∧ shl_loop rem preserve_neg l carry ≠ [] := by
  induction l generalizing carry with
  | nil =>
    unfold shl_loop
    refine ⟨?_, by simp⟩
    intro d hd
    simp only [List.mem_singleton] at hd
    rw [hd, base_val]
    omega
  | cons x xs ih =>
    unfold shl_loop
    refine ⟨digits_ok_cons.2 ⟨?_, (ih _).1⟩, by simp⟩
    rw [base_val]
    omega

theorem digits_ok_shr_loop (rem : Nat) (l : List Nat) (carry : Nat) :
    digits_ok (shr_loop rem l carry) ∧ (shr_loop rem l carry).length = l.length := by
  induction l generalizing carry with
  | nil =>
    unfold shr_loop
    exact ⟨digits_ok_nil, rfl⟩
  | cons x xs ih =>
    unfold shr_loop
    refine ⟨digits_ok_cons.2 ⟨?_, (ih _).1⟩, by simp [(ih _).2]⟩
    rw [base_val]
    omega

/-- The object returned by `operator<<=` is well formed, whatever the sign. -/
theorem shl_wf (a : big_integer) (k : Nat) (hd : digits_ok a.number) (hne : a.number ≠ []) :
    wf (shl a k) := by
  obtain ⟨a1, a2, _⟩ := to_twos_complement_ok a hd hne
  unfold shl
  simp only
  generalize to_twos_complement a = x at *
  have hz := digits_ok_replicate (k / base_cnt_bits) 0 base_pos
  split
  · obtain ⟨s1, s2⟩ := digits_ok_shl_loop (k % base_cnt_bits)
      (if (!x.is_positive) = true then (all_bits_one <<< (k % base_cnt_bits)) % 2 ^ 32 else 0)
      x.number 0
    obtain ⟨r1, r2, _⟩ := to_twos_complement_ok
      ⟨List.replicate (k / base_cnt_bits) 0 ++ shl_loop (k % base_cnt_bits)
        (if (!x.is_positive) = true then (all_bits_one <<< (k % base_cnt_bits)) % 2 ^ 32 else 0)
        x.number 0, x.is_positive⟩
      (digits_ok_append.2 ⟨hz, s1⟩) (fun h => s2 (List.append_eq_nil.1 h).2)
    exact trim_wf _ r1 r2
  · obtain ⟨r1, r2, _⟩ := to_twos_complement_ok
      { x with number := List.replicate (k / base_cnt_bits) 0 ++ x.number }
      (digits_ok_append.2 ⟨hz, a1⟩) (fun h => a2 (List.append_eq_nil.1 h).2)
    exact trim_wf _ r1 r2

/-- The object returned by `operator>>=` is well formed, whatever the sign. -/
theorem shr_wf (a : big_integer) (k : Nat) (hd : digits_ok a.number) (hne : a.number ≠ []) :
    wf (shr a k) := by
  obtain ⟨a1, a2, _⟩ := to_twos_complement_ok a hd hne
  unfold shr
  simp only
  generalize to_twos_complement a = x at *
  split
  · decide
  · rename_i hg
    have hlen : 1 ≤ (x.number.drop (k / base_cnt_bits)).length := by
      have := length_pos_of_ne_nil a2
      rw [List.length_drop]
      by_cases h0 : k / base_cnt_bits > 0
      · have : ¬ k / base_cnt_bits ≥ x.number.length := fun h => hg ⟨h0, h⟩
        omega
      · omega
    have hdd := digits_ok_drop x.number (k / base_cnt_bits) a1
    split
    · obtain ⟨s1, s2⟩ := digits_ok_shr_loop (k % base_cnt_bits)
        (x.number.drop (k / base_cnt_bits)).reverse
        (if (!x.is_positive) = true then
          (all_bits_one <<< (base_cnt_bits - k % base_cnt_bits)) % 2 ^ 32 else 0)
      obtain ⟨r1, r2, _⟩ := to_twos_complement_ok
        ⟨(shr_loop (k % base_cnt_bits)
          (x.number.drop (k / base_cnt_bits)).reverse
          (if (!x.is_positive) = true then
            (all_bits_one <<< (base_cnt_bits - k % base_cnt_bits)) % 2 ^ 32 else 0)).reverse,
          x.is_positive⟩
        (digits_ok_reverse.2 s1)
        (by apply ne_nil_of_length; simp only [List.length_reverse, s2]; exact hlen)
      exact trim_wf _ r1 r2
    · obtain ⟨r1, r2, _⟩ := to_twos_complement_ok
        { x with number := x.number.drop (k / base_cnt_bits) } hdd (ne_nil_of_length hlen)
      exact trim_wf _ r1 r2

/-- The object returned by `operator~` is well formed. -/
theorem bnot_wf (a : big_integer) (hd : digits_ok a.number) : wf (bnot a) := by
  have h0 : digits_ok (a.number ++ [0]) := by
    apply digits_ok_append.2
    refine ⟨hd, ?_⟩
    intro d hd1
    simp at hd1
    rw [hd1]
    exact base_pos
  obtain ⟨_, a2, _⟩ := to_twos_complement_ok { a with number := a.number ++ [0] } h0 (by simp)
  unfold bnot
  simp only
  generalize to_twos_complement { a with number := a.number ++ [0] } = x at *
  have i1 := digits_ok_inverse x
  have i2 : (inverse x).number ≠ [] := by
    apply ne_nil_of_length
    rw [length_inverse]
    exact length_pos_of_ne_nil a2
  split
  · obtain ⟨r1, r2, _⟩ := to_twos_complement_ok { inverse x with is_positive := false } i1 i2
    exact trim_wf _ r1 r2
  · obtain ⟨r1, r2, _⟩ := to_twos_complement_ok (inverse x) i1 i2
    exact trim_wf _ r1 r2


/-! ## Exclusive or with itself, negation, zero -/

theorem trim_rev_replicate_zero (n : Nat) : trim_rev (List.replicate (n + 1) 0) = [0] := by
  induction n with
  | zero => rfl
  | succ n ih =>
    rw [List.replicate_succ, List.replicate_succ, trim_rev, if_pos rfl, ← List.replicate_succ]
    exact ih

theorem trim_replicate_zero (n : Nat) (s : Bool) (hn : 1 ≤ n) :
    trim ⟨List.replicate n 0, s⟩ = ⟨[0], s⟩ := by
  obtain ⟨m, rfl⟩ : ∃ m, n = m + 1 := ⟨n - 1, by omega⟩
  unfold trim
  simp only [List.reverse_replicate, trim_rev_replicate_zero, List.reverse_cons,
    List.reverse_nil, List.nil_append]

theorem zipWith_xor_self (l : List Nat) :
    List.zipWith (fun x y => (x ^^^ y) % 2 ^ 32) l l = List.replicate l.length 0 := by
  induction l with
  | nil => rfl
  | cons x xs ih =>
    rw [List.zipWith_cons_cons, ih, List.length_cons, List.replicate_succ, Nat.xor_self]
    rfl

/-- The exclusive or of an operand with itself is the zero `[0]` with positive flag:
both copies go through the same conversion, so every digit is `x ^ x`. -/
theorem bxor_self (a : big_integer) (hd : digits_ok a.number) (hne : a.number ≠ []) :
    bxor a a = ⟨[0], true⟩ := by
  obtain ⟨_, a2, _⟩ := to_twos_complement_ok a hd hne
  unfold bxor bitwise_operation
  simp only
  generalize to_twos_complement a = x at *
  simp only [lt_self_iff_false, if_false, zipWith_xor_self, Nat.xor_self]
  have hs : decide (0 % 2 ^ 32 = 0) = true := by decide
  rw [hs, to_twos_complement_pos _ rfl]
  exact trim_replicate_zero _ _ (length_pos_of_ne_nil a2)

theorem val_neg (a : big_integer) : val (neg a) = - val a := by
  unfold val neg mag
  cases a.is_positive <;> simp

theorem wf_neg (a : big_integer) (h : wf a) : wf (neg a) := h

theorem to_string_of_zero (fuel : Nat) (a : big_integer) (h : eq a zero = true) :
    to_string fuel a = .ok [Char.ofNat 48] := by
  unfold to_string
  rw [if_pos h]

theorem val_zero : val zero = 0 := by decide

theorem wf_zero : wf zero := by decide


/-! ## Shifts of the zero with negative flag -/

theorem inc_loop_ones (n : Nat) :
    inc_loop (List.replicate n all_bits_one) = List.replicate n 0 := by
  induction n with
  | zero => rfl
  | succ n ih => rw [List.replicate_succ, inc_loop, if_pos rfl, ih, List.replicate_succ]

theorem inc_loop_ones_append (n x : Nat) (xs : List Nat) (hx : x ≠ all_bits_one) :
    inc_loop (List.replicate n all_bits_one ++ x :: xs)
      = List.replicate n 0 ++ ((x + 1) % 2 ^ 32) :: xs := by
  induction n with
  | zero => simp [inc_loop, hx]
  | succ n ih =>
    rw [List.replicate_succ, List.cons_append, inc_loop, if_pos rfl, ih, List.replicate_succ,
      List.cons_append]

theorem trim_append_nonzero (l : List Nat) (x : Nat) (s : Bool) (hx : x ≠ 0) :
    trim ⟨l ++ [x], s⟩ = ⟨l ++ [x], s⟩ := by
  apply trim_of_canonical
  refine ⟨by simp, Or.inr ?_⟩
  simp [hx]

theorem to_twos_complement_neg (l : List Nat) :
    to_twos_complement ⟨l, false⟩
      = ⟨(inc_pos ⟨l.map (fun d => all_bits_one - d % 2 ^ 32), true⟩).number, false⟩ := by
  simp [to_twos_complement, dec, inverse]

theorem inc_pos_ones_append (n x : Nat) (s : Bool) (hx0 : x ≠ 0) (hxF : x ≠ all_bits_one)
    (hx1 : (x + 1) % 2 ^ 32 ≠ 0) :
    inc_pos ⟨List.replicate n all_bits_one ++ [x], s⟩
      = ⟨List.replicate n 0 ++ [(x + 1) % 2 ^ 32], s⟩ := by
  unfold inc_pos
  simp only [trim_append_nonzero _ _ _ hx0, inc_loop_ones_append _ _ _ hxF]
  rw [if_neg]
  rintro ⟨_, h⟩
  simp at h
  exact hx1 h

theorem inc_pos_ones (n : Nat) (s : Bool) :
    inc_pos ⟨List.replicate (n + 2) all_bits_one, s⟩
      = ⟨List.replicate (n + 2) 0 ++ [1], s⟩ := by
  unfold inc_pos
  have ht : trim ⟨List.replicate (n + 2) all_bits_one, s⟩
      = ⟨List.replicate (n + 2) all_bits_one, s⟩ := by
    rw [List.replicate_succ']
    exact trim_append_nonzero _ _ _ (by decide)
  simp only [ht, inc_loop_ones]
  rw [if_pos]
  refine ⟨by simp, ?_⟩
  rw [List.replicate_succ']
  simp


theorem shl_loop_neg_zero : ∀ rem, rem < 32 → 0 < rem →
    shl_loop rem ((all_bits_one <<< rem) % 2 ^ 32) [0] 0 = [0, 2 ^ 32 - 2 ^ rem] := by
  decide

theorem pow_digit_facts : ∀ rem, rem < 32 →
    all_bits_one - (2 ^ 32 - 2 ^ rem) % 2 ^ 32 = 2 ^ rem - 1
    ∧ (0 < rem → 2 ^ rem - 1 ≠ 0 ∧ 2 ^ rem - 1 ≠ all_bits_one
        ∧ (2 ^ rem - 1 + 1) % 2 ^ 32 = 2 ^ rem)
    ∧ 2 ^ rem ≠ 0
    ∧ all_bits_one - 2 ^ rem % 2 ^ 32 ≠ 0 ∧ all_bits_one - 2 ^ rem % 2 ^ 32 ≠ all_bits_one
    ∧ (all_bits_one - 2 ^ rem % 2 ^ 32 + 1) % 2 ^ 32 = 2 ^ 32 - 2 ^ rem
    ∧ 2 ^ 32 - 2 ^ rem ≠ 0
    ∧ (0 < rem → (shr_loop rem [2 ^ 32 - 2 ^ rem, 0]
        ((all_bits_one <<< (base_cnt_bits - rem)) % 2 ^ 32)).reverse = [0, all_bits_one])
    ∧ (rem = 0 → 2 ^ 32 - 2 ^ rem = all_bits_one) := by
  decide

theorem map_inverse_zeros (n y : Nat) :
    (List.replicate n 0 ++ [y]).map (fun d => all_bits_one - d % 2 ^ 32)
      = List.replicate n all_bits_one ++ [all_bits_one - y % 2 ^ 32] := by
  simp

/-- Left shift of the zero with negative flag: the conversion reads the digit `0` with
negative flag as `-2^32`, so a shift by `k > 0` bits gives `-2^(k + 32)`. -/
theorem shl_neg_zero (k : Nat) (hk : 0 < k) :
    shl ⟨[0], false⟩ k
      = ⟨List.replicate (k / base_cnt_bits + 1) 0 ++ [2 ^ (k % base_cnt_bits)], false⟩ := by
  have htc : to_twos_complement ⟨[0], false⟩ = ⟨[0], false⟩ := by decide
  have hr : k % base_cnt_bits < 32 := Nat.mod_lt _ (by decide)
  obtain ⟨f1, f2, f3, _⟩ := pow_digit_facts _ hr
  unfold shl
  simp only [htc]
  by_cases h0 : k % base_cnt_bits > 0
  · rw [if_pos h0]
    obtain ⟨g1, g2, g3⟩ := f2 h0
    have e1 : (if (!false) = true then (all_bits_one <<< (k % base_cnt_bits)) % 2 ^ 32 else 0)
        = (all_bits_one <<< (k % base_cnt_bits)) % 2 ^ 32 := rfl
    rw [e1, shl_loop_neg_zero _ hr h0]
    have e2 : List.replicate (k / base_cnt_bits) 0 ++ [0, 2 ^ 32 - 2 ^ (k % base_cnt_bits)]
        = List.replicate (k / base_cnt_bits + 1) 0 ++ [2 ^ 32 - 2 ^ (k % base_cnt_bits)] := by
      rw [List.replicate_succ']
      simp
    rw [e2, to_twos_complement_neg, map_inverse_zeros, f1,
      inc_pos_ones_append _ _ _ g1 g2 (by rw [g3]; exact f3), g3]
    exact trim_append_nonzero _ _ _ f3
  · rw [if_neg h0]
    have hm : k % base_cnt_bits = 0 := by omega
    have hc : 1 ≤ k / base_cnt_bits := by
      have := Nat.div_add_mod k base_cnt_bits
      rw [hm] at this
      have hb : base_cnt_bits = 32 := rfl
      rw [hb] at this ⊢
      omega
    obtain ⟨c, hc2⟩ : ∃ c, k / base_cnt_bits = c + 1 := ⟨k / base_cnt_bits - 1, by omega⟩
    rw [hm, hc2]
    have e2 : List.replicate (c + 1) 0 ++ [0] = List.replicate (c + 2) 0 := by
      rw [List.replicate_succ' (c + 1)]
    have e3 : (List.replicate (c + 2) 0).map (fun d => all_bits_one - d % 2 ^ 32)
        = List.replicate (c + 2) all_bits_one := by
      simp
    rw [e2, to_twos_complement_neg, e3, inc_pos_ones]
    exact trim_append_nonzero _ _ _ (by decide)

/-- Right shift by `k` bits of `-2^(k + 32)`: the conversion back from two's complement
drops the carry, and the result is the zero with negative flag. -/
theorem shr_neg_pow (k : Nat) :
    shr ⟨List.replicate (k / base_cnt_bits + 1) 0 ++ [2 ^ (k % base_cnt_bits)], false⟩ k
      = ⟨[0], false⟩ := by
  have hr : k % base_cnt_bits < 32 := Nat.mod_lt _ (by decide)
  obtain ⟨_, _, f3, f4, f5, f6, f7, f8, f9⟩ := pow_digit_facts _ hr
  have hfin : trim (to_twos_complement ⟨[0, all_bits_one], false⟩) = ⟨[0], false⟩ := by decide
  unfold shr
  simp only
  rw [to_twos_complement_neg, map_inverse_zeros,
    inc_pos_ones_append _ _ _ f4 f5 (by rw [f6]; exact f7), f6]
  simp only
  have hlen : (List.replicate (k / base_cnt_bits + 1) 0
      ++ [2 ^ 32 - 2 ^ (k % base_cnt_bits)]).length = k / base_cnt_bits + 2 := by
    simp
  have hdrop : (List.replicate (k / base_cnt_bits + 1) 0
      ++ [2 ^ 32 - 2 ^ (k % base_cnt_bits)]).drop (k / base_cnt_bits)
      = [0, 2 ^ 32 - 2 ^ (k % base_cnt_bits)] := by
    rw [List.drop_append_of_le_length (by simp), List.drop_replicate]
    simp
  rw [if_neg (by rw [hlen]; omega), hdrop]
  by_cases h0 : k % base_cnt_bits > 0
  · rw [if_pos h0]
    have e1 : (if (!false) = true then
        (all_bits_one <<< (base_cnt_bits - k % base_cnt_bits)) % 2 ^ 32 else 0)
        = (all_bits_one <<< (base_cnt_bits - k % base_cnt_bits)) % 2 ^ 32 := rfl
    have e2 : [0, 2 ^ 32 - 2 ^ (k % base_cnt_bits)].reverse
        = [2 ^ 32 - 2 ^ (k % base_cnt_bits), 0] := rfl
    rw [e1, e2, f8 h0]
    exact hfin
  · rw [if_neg h0, f9 (by omega)]
    exact hfin

/-- The round trip `(a << k) >> k` on the zero with negative flag gives it back. -/
theorem shift_roundtrip_neg_zero (k : Nat) :
    shr (shl ⟨[0], false⟩ k) k = ⟨[0], false⟩ := by
  by_cases hk : 0 < k
  · rw [shl_neg_zero k hk]
    exact shr_neg_pow k
  · have : k = 0 := by omega
    subst this
    decide


/-! ## Constructors from fixed-width integers -/

theorem of_int64_wf (a : Int) : wf (of_int64 a) := by
  unfold of_int64
  simp only
  apply trim_wf
  · intro d hd
    simp only [List.mem_cons, List.mem_singleton, List.not_mem_nil, or_false] at hd
    rw [base_val]
    rcases hd with h | h <;> omega
  · simp

theorem of_uint64_wf (a : Nat) : wf (of_uint64 a) := by
  unfold of_uint64
  apply trim_wf
  · intro d hd
    simp only [List.mem_cons, List.mem_singleton, List.not_mem_nil, or_false] at hd
    rw [base_val]
    rcases hd with h | h <;> omega
  · simp

theorem of_int64_length (a : Int) : (of_int64 a).number.length ≤ 2 := by
  unfold of_int64 trim
  simp only [List.length_reverse]
  exact le_trans (trim_length_le _) (by simp)

theorem of_uint64_length (a : Nat) : (of_uint64 a).number.length ≤ 2 := by
  unfold of_uint64 trim
  simp only [List.length_reverse]
  exact le_trans (trim_length_le _) (by simp)

/-- The constructor from `long long` stores the magnitude and the sign of its argument. -/
theorem of_int64_spec (a : Int) (h1 : -(2 : Int) ^ 63 ≤ a) (h2 : a < (2 : Int) ^ 63) :
    mag (of_int64 a) = a.natAbs ∧ (of_int64 a).is_positive = decide (0 ≤ a)
    ∧ val (of_int64 a) = a := by
  have htemp : (if a = -(2 : Int) ^ 63 then ((-a - 1).toNat % 2 ^ 64 + 1) % 2 ^ 64
      else a.natAbs) = a.natAbs := by
    split
    · rename_i h
      rw [h]
      decide
    · rfl
  have hm : mag (of_int64 a) = a.natAbs := by
    unfold of_int64
    simp only [htemp]
    rw [mag_trim]
    simp only [mag, mag_nat]
    rw [base_val]
    omega
  have hs : (of_int64 a).is_positive = decide (0 ≤ a) := rfl
  refine ⟨hm, hs, ?_⟩
  unfold val
  rw [hm, hs]
  by_cases h0 : 0 ≤ a
  · simp only [h0, decide_True, if_true]
    omega
  · simp only [h0, decide_False, Bool.false_eq_true, if_false]
    omega


/-! ## Algebraic identities -/

/-- C11 fails on the code: for `a = -2^32` both `a & a` and `a | a` evaluate to a zero,
which does not compare equal to `a`.  The conversion of the digitwise result
`[0, 0xFFFFFFFF]` back from two's complement goes through `operator++`, which trims the
inverted digits `[0xFFFFFFFF, 0]` to `[0xFFFFFFFF]` and then drops the carry out of
that single digit. -/
theorem band_bor_not_idempotent :
    wf ⟨[0, 1], false⟩ ∧ val ⟨[0, 1], false⟩ = -4294967296
    ∧ band ⟨[0, 1], false⟩ ⟨[0, 1], false⟩ = ⟨[0], false⟩
    ∧ eq (band ⟨[0, 1], false⟩ ⟨[0, 1], false⟩) ⟨[0, 1], false⟩ = false
    ∧ bor ⟨[0, 1], false⟩ ⟨[0, 1], false⟩ = ⟨[0], false⟩
    ∧ eq (bor ⟨[0, 1], false⟩ ⟨[0, 1], false⟩) ⟨[0, 1], false⟩ = false
    ∧ to_twos_complement ⟨[0, 1], false⟩ = ⟨[0, 4294967295], false⟩
    ∧ to_twos_complement ⟨[0, 4294967295], false⟩ = ⟨[0], false⟩
    ∧ inc_pos ⟨[4294967295, 0], true⟩ = ⟨[0], true⟩ := by
  decide

/-- C12: for every well-formed `a`, `a ^ a` is the zero `[0]` with positive flag; it
compares equal to `big_integer(0)` and its value is 0. -/
theorem bxor_self_zero (a : big_integer) (ha : wf a) :
    bxor a a = ⟨[0], true⟩ ∧ eq (bxor a a) zero = true ∧ val (bxor a a) = 0 := by
  have h := bxor_self a ha.1 ha.2.1
  rw [h]
  decide

/-- Witness of C12 at `-2^32`. -/
theorem bxor_self_zero_witness :
    wf ⟨[0, 1], false⟩
    ∧ bxor ⟨[0, 1], false⟩ ⟨[0, 1], false⟩ = ⟨[0], true⟩
    ∧ eq (bxor ⟨[0, 1], false⟩ ⟨[0, 1], false⟩) zero = true
    ∧ val (bxor ⟨[0, 1], false⟩ ⟨[0, 1], false⟩) = 0 :=
  ⟨by decide, bxor_self_zero ⟨[0, 1], false⟩ (by decide)⟩

/-- C13: for every well-formed `a`, `a + (-a)` and `a - a` compare equal to
`big_integer(0)`, their value is 0, and `to_string` renders both as `"0"` (for any
amount of fuel: the loop of `to_string` is not entered). -/
theorem additive_cancellation (fuel : Nat) (a : big_integer) (ha : wf a) :
    eq (add a (neg a)) zero = true ∧ eq (sub a a) zero = true
    ∧ val (add a (neg a)) = 0 ∧ val (sub a a) = 0
    ∧ to_string fuel (add a (neg a)) = .ok [Char.ofNat 48]
    ∧ to_string fuel (sub a a) = .ok [Char.ofNat 48] := by
  obtain ⟨a1, a2⟩ := add_val a (neg a) ha (wf_neg a ha)
  obtain ⟨s1, s2⟩ := sub_val a a ha ha
  rw [val_neg] at a1
  have va : val (add a (neg a)) = 0 := by omega
  have vs : val (sub a a) = 0 := by omega
  have ea : eq (add a (neg a)) zero = true := by
    rw [eq_iff _ _ a2 wf_zero, va, val_zero]
  have es : eq (sub a a) zero = true := by
    rw [eq_iff _ _ s2 wf_zero, vs, val_zero]
  exact ⟨ea, es, va, vs, to_string_of_zero fuel _ ea, to_string_of_zero fuel _ es⟩

/-- Witness of C13 at `-(7 * 2^32 + 5)`, without fuel. -/
theorem additive_cancellation_witness :
    wf ⟨[5, 7], false⟩
    ∧ eq (add ⟨[5, 7], false⟩ (neg ⟨[5, 7], false⟩)) zero = true
    ∧ eq (sub ⟨[5, 7], false⟩ ⟨[5, 7], false⟩) zero = true
    ∧ val (add ⟨[5, 7], false⟩ (neg ⟨[5, 7], false⟩)) = 0
    ∧ val (sub ⟨[5, 7], false⟩ ⟨[5, 7], false⟩) = 0
    ∧ to_string 0 (add ⟨[5, 7], false⟩ (neg ⟨[5, 7], false⟩)) = .ok [Char.ofNat 48]
    ∧ to_string 0 (sub ⟨[5, 7], false⟩ ⟨[5, 7], false⟩) = .ok [Char.ofNat 48] :=
  ⟨by decide, additive_cancellation 0 ⟨[5, 7], false⟩ (by decide)⟩

/-! ## Shifts -/

/-- C14: for every well-formed `a` with `a >= 0` (the zero with negative flag included)
and every `k`, `(a << k) >> k` compares equal to `a` and has the value of `a`. -/
theorem shift_roundtrip_nonneg (a : big_integer) (k : Nat) (ha : wf a)
    (hn : ge a zero = true) :
    eq (shr (shl a k) k) a = true ∧ val (shr (shl a k) k) = val a := by
  rw [ge_iff a zero ha wf_zero, val_zero] at hn
  have hw := shr_wf (shl a k) k (shl_wf a k ha.1 ha.2.1).1 (shl_wf a k ha.1 ha.2.1).2.1
  have hv : val (shr (shl a k) k) = val a := by
    cases hp : a.is_positive
    · have hm : mag a = 0 := by
        rw [val_of_neg a hp] at hn
        omega
      have hnum : a.number = [0] := (canonical_mag_zero a.number ha.2).1 hm
      have ea : a = ⟨[0], false⟩ := by
        cases a
        simp only at hnum hp
        rw [hnum, hp]
      rw [ea, shift_roundtrip_neg_zero]
    · obtain ⟨l1, l2, l3⟩ := shl_spec_pos a k ha hp
      obtain ⟨r1, r2, _⟩ := shr_spec_pos (shl a k) k l3 l2
      rw [val_of_pos _ r2, val_of_pos _ hp, r1, l1,
        Nat.mul_div_cancel _ (Nat.pow_pos (by decide))]
  exact ⟨(eq_iff _ _ hw ha).2 hv, hv⟩

/-- Witness of C14 at `7 * 2^32 + 5` and a shift by 40 bits. -/
theorem shift_roundtrip_nonneg_witness :
    wf ⟨[5, 7], true⟩ ∧ ge ⟨[5, 7], true⟩ zero = true
    ∧ eq (shr (shl ⟨[5, 7], true⟩ 40) 40) ⟨[5, 7], true⟩ = true
    ∧ val (shr (shl ⟨[5, 7], true⟩ 40) 40) = val ⟨[5, 7], true⟩ :=
  ⟨by decide, by decide, shift_roundtrip_nonneg ⟨[5, 7], true⟩ 40 (by decide) (by decide)⟩

/-- C15 fails on the code: for `a = -1` and `k = 32`, `a << k` evaluates to a zero and
`(a << k) >> k` to `0`, which does not compare equal to `a`; with `k = 64` the round
trip gives `a` back.  The carry out of a single all-ones digit is dropped by
`operator++` when `a << 32` is converted back from two's complement. -/
theorem shift_roundtrip_negative_fails :
    wf ⟨[1], false⟩ ∧ lt ⟨[1], false⟩ zero = true
    ∧ shl ⟨[1], false⟩ 32 = ⟨[0], false⟩
    ∧ shr (shl ⟨[1], false⟩ 32) 32 = ⟨[0], true⟩
    ∧ eq (shr (shl ⟨[1], false⟩ 32) 32) ⟨[1], false⟩ = false
    ∧ shr (shl ⟨[1], false⟩ 64) 64 = ⟨[1], false⟩ := by
  decide

/-- C16 fails on the code: `(-1) << 32` evaluates to a zero, whereas `-1 * 2^32` is
`-2^32`; `(-1) << 64` is `-2^64` as it should be.  The carry out of a single all-ones
digit is dropped by `operator++` in the conversion back from two's complement. -/
theorem shl_negative_loses_carry :
    wf ⟨[1], false⟩ ∧ val ⟨[1], false⟩ = -1
    ∧ shl ⟨[1], false⟩ 32 = ⟨[0], false⟩
    ∧ val (shl ⟨[1], false⟩ 32) = 0
    ∧ val ⟨[1], false⟩ * 2 ^ 32 = -4294967296
    ∧ mul ⟨[1], false⟩ ⟨[0, 1], true⟩ = ⟨[0, 1], false⟩
    ∧ eq (shl ⟨[1], false⟩ 32) (mul ⟨[1], false⟩ ⟨[0, 1], true⟩) = false
    ∧ shl ⟨[1], false⟩ 64 = ⟨[0, 0, 1], false⟩ := by
  decide

/-- C17 fails on the code: `(-1) >> 32` evaluates to `0`, whereas the arithmetic shift
`floor(-1 / 2^32)` is `-1`; the early return of `operator>>=` for a shift that drops
every digit assigns `0` whatever the sign, while the path of a shift by 31 bits extends
the sign and gives `-1`.  Besides, `(-2^33) >> 1` evaluates to a zero instead of
`-2^32`, by the carry that `operator++` drops. -/
theorem shr_negative_all_digits :
    wf ⟨[1], false⟩ ∧ val ⟨[1], false⟩ = -1
    ∧ shr ⟨[1], false⟩ 32 = ⟨[0], true⟩
    ∧ val (shr ⟨[1], false⟩ 32) = 0
    ∧ Int.fdiv (-1) (2 ^ 32) = -1
    ∧ shr ⟨[1], false⟩ 31 = ⟨[1], false⟩
    ∧ wf ⟨[0, 2], false⟩
    ∧ shr ⟨[0, 2], false⟩ 1 = ⟨[0], false⟩
    ∧ Int.fdiv (val ⟨[0, 2], false⟩) (2 ^ 1) = -4294967296 := by
  decide

/-! ## Increment and decrement -/

/-- C18 fails on the code: `++a` for `a = 2^32 - 1` evaluates to `0` instead of `2^32`,
and `--a` for `a = -(2^32 - 1)` to a zero instead of `-2^32`; the postfix forms return
the old value and leave the same wrong receiver.  The digit loop of `operator++` turns
`[0xFFFFFFFF]` into `[0]` and the carry is pushed only when `number.size() > 1`, as it is
for `2^64 - 1`. -/
theorem inc_drops_carry :
    wf ⟨[4294967295], true⟩ ∧ val ⟨[4294967295], true⟩ = 4294967295
    ∧ inc ⟨[4294967295], true⟩ = ⟨[0], true⟩
    ∧ val (inc ⟨[4294967295], true⟩) = 0
    ∧ add ⟨[4294967295], true⟩ ⟨[1], true⟩ = ⟨[0, 1], true⟩
    ∧ eq (inc ⟨[4294967295], true⟩) (add ⟨[4294967295], true⟩ ⟨[1], true⟩) = false
    ∧ post_inc ⟨[4294967295], true⟩ = (⟨[4294967295], true⟩, ⟨[0], true⟩)
    ∧ dec ⟨[4294967295], false⟩ = ⟨[0], false⟩
    ∧ post_dec ⟨[4294967295], false⟩ = (⟨[4294967295], false⟩, ⟨[0], false⟩)
    ∧ inc ⟨[4294967295, 4294967295], true⟩ = ⟨[0, 0, 1], true⟩ := by
  decide


/-- C19: for every 64-bit signed `n`, the minimum `-2^63` included, `big_integer(n)` has
value `n`, at most two digits, and is well formed; `std::abs` is applied only where its
result fits in 64 signed bits; `to_string(big_integer(n))` is the canonical decimal text
of `n`, which for the minimum is `"-9223372036854775808"`; and `big_integer(u)` has value
`u` for every 64-bit unsigned `u`. -/
theorem ctor_fixed_width (fuel : Nat) (n : Int) (u : Nat) (hf : 4 ≤ fuel)
    (h1 : -(2 : Int) ^ 63 ≤ n) (h2 : n < (2 : Int) ^ 63) (hu : u < 2 ^ 64) :
    val (of_int64 n) = n ∧ wf (of_int64 n) ∧ (of_int64 n).number.length ≤ 2
    ∧ (n ≠ -(2 : Int) ^ 63 → (n.natAbs : Int) < (2 : Int) ^ 63)
    ∧ (∃ body : List Char,
        to_string fuel (of_int64 n) = .ok (if n < 0 then Char.ofNat 45 :: body else body)
        ∧ canonical_decimal body n.natAbs)
    ∧ to_string fuel (of_int64 (-(2 : Int) ^ 63)) = .ok ("-9223372036854775808".toList)
    ∧ val (of_uint64 u) = u ∧ wf (of_uint64 u) ∧ (of_uint64 u).number.length ≤ 2 := by
  obtain ⟨m1, _, m3⟩ := of_int64_spec n h1 h2
  obtain ⟨u1, u2, u3⟩ := of_uint64_spec u hu
  have hl := of_int64_length n
  have hw := of_int64_wf n
  have htxt : ∀ x : Int, -(2 : Int) ^ 63 ≤ x → x < (2 : Int) ^ 63 → ∃ body : List Char,
      to_string fuel (of_int64 x) = .ok (if x < 0 then Char.ofNat 45 :: body else body)
      ∧ canonical_decimal body x.natAbs := by
    intro x x1 x2
    obtain ⟨xm, _, xv⟩ := of_int64_spec x x1 x2
    have xl := of_int64_length x
    obtain ⟨body, b1, b2, _⟩ := to_string_spec fuel (of_int64 x) (of_int64_wf x)
      (fuel_of_length _ (of_int64_wf x) fuel (by omega))
    rw [xv] at b1
    rw [xm] at b2
    exact ⟨body, b1, b2⟩
  refine ⟨m3, hw, hl, by omega, htxt n h1 h2, ?_,
    by rw [val_of_pos _ u2, u1], u3, of_uint64_length u⟩
  obtain ⟨body, b1, b2⟩ := htxt (-(2 : Int) ^ 63) (le_refl _) (by decide)
  have hc : canonical_decimal ("9223372036854775808".toList) (-(2 : Int) ^ 63).natAbs := by
    decide
  rw [b1, canonical_decimal_unique _ _ _ b2 hc]
  rfl

/-- Witness of C19 at the minimum `-2^63` and at the maximum `2^64 - 1`. -/
theorem ctor_fixed_width_witness :
    4 ≤ 4 ∧ -(2 : Int) ^ 63 ≤ -(2 : Int) ^ 63 ∧ -(2 : Int) ^ 63 < (2 : Int) ^ 63
    ∧ 18446744073709551615 < 2 ^ 64
    ∧ val (of_int64 (-(2 : Int) ^ 63)) = -(2 : Int) ^ 63 ∧ wf (of_int64 (-(2 : Int) ^ 63))
    ∧ (of_int64 (-(2 : Int) ^ 63)).number.length ≤ 2
    ∧ (-(2 : Int) ^ 63 ≠ -(2 : Int) ^ 63
        → ((-(2 : Int) ^ 63).natAbs : Int) < (2 : Int) ^ 63)
    ∧ (∃ body : List Char,
        to_string 4 (of_int64 (-(2 : Int) ^ 63))
          = .ok (if -(2 : Int) ^ 63 < 0 then Char.ofNat 45 :: body else body)
        ∧ canonical_decimal body (-(2 : Int) ^ 63).natAbs)
    ∧ to_string 4 (of_int64 (-(2 : Int) ^ 63)) = .ok ("-9223372036854775808".toList)
    ∧ val (of_uint64 18446744073709551615) = (18446744073709551615 : Nat)
    ∧ wf (of_uint64 18446744073709551615)
    ∧ (of_uint64 18446744073709551615).number.length ≤ 2 :=
  ⟨by decide, by decide, by decide, by decide,
    ctor_fixed_width 4 (-(2 : Int) ^ 63) 18446744073709551615 (by decide) (by decide)
      (by decide) (by decide)⟩


/-! ## The canonical form is an invariant -/

/-- C20: every object returned by a constructor or by an operator applied to well-formed
operands is well formed, that is, its digits are 32-bit values and its digit sequence is
canonical (nonempty, with a nonzero most significant digit unless it is `[0]`): the
constructors from integers and from a valid decimal string, `+`, `-`, `*`, `/` and `%`
(which return a result when the divisor is not zero), `&`, `|`, `^`, `~`, `<<`, `>>`,
unary `-`, and prefix and postfix `++` and `--`. -/
theorem canonical_invariant (fuel : Nat) (a b : big_integer) (k : Nat) (n : Int) (u : Nat)
    (s : List Char) (ha : wf a) (hb : wf b) (hf : 32 ≤ fuel) (hs : s.length ≤ fuel) :
    (wf (of_int64 n) ∧ canonical (of_int64 n).number)
    ∧ (wf (of_uint64 u) ∧ canonical (of_uint64 u).number)
    ∧ (valid_decimal s → ∃ r, of_string fuel s = .ok r ∧ wf r ∧ canonical r.number)
    ∧ (wf (add a b) ∧ canonical (add a b).number)
    ∧ (wf (sub a b) ∧ canonical (sub a b).number)
    ∧ (wf (mul a b) ∧ canonical (mul a b).number)
    ∧ (val b ≠ 0 → ∃ q r, div fuel a b = .ok q ∧ mod fuel a b = .ok r
        ∧ wf q ∧ canonical q.number ∧ wf r ∧ canonical r.number)
    ∧ (wf (band a b) ∧ canonical (band a b).number)
    ∧ (wf (bor a b) ∧ canonical (bor a b).number)
    ∧ (wf (bxor a b) ∧ canonical (bxor a b).number)
    ∧ (wf (bnot a) ∧ canonical (bnot a).number)
    ∧ (wf (shl a k) ∧ canonical (shl a k).number)
    ∧ (wf (shr a k) ∧ canonical (shr a k).number)
    ∧ (wf (neg a) ∧ canonical (neg a).number)
    ∧ (wf (inc a) ∧ canonical (inc a).number)
    ∧ (wf (dec a) ∧ canonical (dec a).number)
    ∧ (wf (post_inc a).1 ∧ wf (post_inc a).2 ∧ canonical (post_inc a).2.number)
    ∧ (wf (post_dec a).1 ∧ wf (post_dec a).2 ∧ canonical (post_dec a).2.number) := by
  have both : ∀ x : big_integer, wf x → wf x ∧ canonical x.number := fun x h => ⟨h, h.2⟩
  have hinc := inc_wf a ha.1 ha.2.1
  have hdec := dec_wf a ha.1 ha.2.1
  refine ⟨both _ (of_int64_wf n), both _ (of_uint64_wf u), ?_, both _ (add_val a b ha hb).2,
    both _ (sub_val a b ha hb).2, both _ (mul_val a b ha hb).2, ?_,
    both _ (bitwise_operation_wf _ a b ha.1 ha.2.1 hb.1 hb.2.1),
    both _ (bitwise_operation_wf _ a b ha.1 ha.2.1 hb.1 hb.2.1),
    both _ (bitwise_operation_wf _ a b ha.1 ha.2.1 hb.1 hb.2.1),
    both _ (bnot_wf a ha.1), both _ (shl_wf a k ha.1 ha.2.1), both _ (shr_wf a k ha.1 ha.2.1),
    both _ (wf_neg a ha), both _ hinc, both _ hdec, ⟨ha, hinc, hinc.2⟩, ⟨ha, hdec, hdec.2⟩⟩
  · intro hv
    obtain ⟨r, r1, r2, _⟩ := (of_string_spec fuel s hs).1 hv
    exact ⟨r, r1, r2, r2.2⟩
  · intro hb0
    have hm : mag b ≠ 0 := fun h => hb0 ((val_eq_zero_iff b).2 h)
    obtain ⟨q, r, d1, _, _, _, _, d6, d7⟩ := division_spec fuel hf a b ha hb hm
    refine ⟨q, r, ?_, ?_, d6, d6.2, d7, d7.2⟩
    · unfold div; rw [d1]; rfl
    · unfold mod; rw [d1]; rfl

/-- Witness of C20 at `-(2^64 - 1)` and `-2^32`, operands on which the conversions to
and from two's complement meet an all-ones digit. -/
theorem canonical_invariant_witness :
    wf ⟨[4294967295, 4294967295], false⟩ ∧ wf ⟨[0, 1], false⟩ ∧ 32 ≤ 32
    ∧ [Char.ofNat 45, Char.ofNat 48].length ≤ 32
    ∧ (wf (of_int64 (-5)) ∧ canonical (of_int64 (-5)).number)
    ∧ (wf (of_uint64 7) ∧ canonical (of_uint64 7).number)
    ∧ (valid_decimal [Char.ofNat 45, Char.ofNat 48] →
        ∃ r, of_string 32 [Char.ofNat 45, Char.ofNat 48] = .ok r ∧ wf r
          ∧ canonical r.number)
    ∧ (wf (add ⟨[4294967295, 4294967295], false⟩ ⟨[0, 1], false⟩)
        ∧ canonical (add ⟨[4294967295, 4294967295], false⟩ ⟨[0, 1], false⟩).number)
    ∧ (wf (sub ⟨[4294967295, 4294967295], false⟩ ⟨[0, 1], false⟩)
        ∧ canonical (sub ⟨[4294967295, 4294967295], false⟩ ⟨[0, 1], false⟩).number)
    ∧ (wf (mul ⟨[4294967295, 4294967295], false⟩ ⟨[0, 1], false⟩)
        ∧ canonical (mul ⟨[4294967295, 4294967295], false⟩ ⟨[0, 1], false⟩).number)
    ∧ (val ⟨[0, 1], false⟩ ≠ 0 → ∃ q r,
        div 32 ⟨[4294967295, 4294967295], false⟩ ⟨[0, 1], false⟩ = .ok q
        ∧ mod 32 ⟨[4294967295, 4294967295], false⟩ ⟨[0, 1], false⟩ = .ok r
        ∧ wf q ∧ canonical q.number ∧ wf r ∧ canonical r.number)
    ∧ (wf (band ⟨[4294967295, 4294967295], false⟩ ⟨[0, 1], false⟩)
        ∧ canonical (band ⟨[4294967295, 4294967295], false⟩ ⟨[0, 1], false⟩).number)
    ∧ (wf (bor ⟨[4294967295, 4294967295], false⟩ ⟨[0, 1], false⟩)
        ∧ canonical (bor ⟨[4294967295, 4294967295], false⟩ ⟨[0, 1], false⟩).number)
    ∧ (wf (bxor ⟨[4294967295, 4294967295], false⟩ ⟨[0, 1], false⟩)
        ∧ canonical (bxor ⟨[4294967295, 4294967295], false⟩ ⟨[0, 1], false⟩).number)
    ∧ (wf (bnot ⟨[4294967295, 4294967295], false⟩)
        ∧ canonical (bnot ⟨[4294967295, 4294967295], false⟩).number)
    ∧ (wf (shl ⟨[4294967295, 4294967295], false⟩ 33)
        ∧ canonical (shl ⟨[4294967295, 4294967295], false⟩ 33).number)
    ∧ (wf (shr ⟨[4294967295, 4294967295], false⟩ 33)
        ∧ canonical (shr ⟨[4294967295, 4294967295], false⟩ 33).number)
    ∧ (wf (neg ⟨[4294967295, 4294967295], false⟩)
        ∧ canonical (neg ⟨[4294967295, 4294967295], false⟩).number)
    ∧ (wf (inc ⟨[4294967295, 4294967295], false⟩)
        ∧ canonical (inc ⟨[4294967295, 4294967295], false⟩).number)
    ∧ (wf (dec ⟨[4294967295, 4294967295], false⟩)
        ∧ canonical (dec ⟨[4294967295, 4294967295], false⟩).number)
    ∧ (wf (post_inc ⟨[4294967295, 4294967295], false⟩).1
        ∧ wf (post_inc ⟨[4294967295, 4294967295], false⟩).2
        ∧ canonical (post_inc ⟨[4294967295, 4294967295], false⟩).2.number)
    ∧ (wf (post_dec ⟨[4294967295, 4294967295], false⟩).1
        ∧ wf (post_dec ⟨[4294967295, 4294967295], false⟩).2
        ∧ canonical (post_dec ⟨[4294967295, 4294967295], false⟩).2.number) :=
  ⟨by decide, by decide, by decide, by decide,
    canonical_invariant 32 ⟨[4294967295, 4294967295], false⟩ ⟨[0, 1], false⟩ 33 (-5) 7
      [Char.ofNat 45, Char.ofNat 48] (by decide) (by decide) (by decide) (by decide)⟩


/-! ## Long division: the number of rounds of the correction loop -/

/-- More fuel does not change a result of the correction loop. -/
theorem correction_loop_mono (sd : big_integer) : ∀ (f : Nat) (dc : big_integer) (p : Nat)
    (r : big_integer × Nat), correction_loop sd f dc p = .ok r →
    correction_loop sd (f + 1) dc p = .ok r := by
  intro f
  induction f with
  | zero =>
    intro dc p r h
    cases hp : dc.is_positive
    · simp [correction_loop, hp] at h
    · simp only [correction_loop, hp, Bool.not_true, Bool.false_eq_true, if_false] at h ⊢
      exact h
  | succ f ih =>
    intro dc p r h
    cases hp : dc.is_positive
    · rw [correction_loop] at h ⊢
      simp only [hp, Bool.not_false, if_true] at h ⊢
      exact ih _ _ _ h
    · simp only [correction_loop, hp, Bool.not_true, Bool.false_eq_true, if_false] at h ⊢
      exact h

theorem correction_loop_mono_le (sd : big_integer) (f g : Nat) (hfg : f ≤ g)
    (dc : big_integer) (p : Nat) (r : big_integer × Nat)
    (h : correction_loop sd f dc p = .ok r) : correction_loop sd g dc p = .ok r := by
  induction g with
  | zero =>
    have : f = 0 := by omega
    rw [this] at h
    exact h
  | succ g ih =>
    by_cases hf : f = g + 1
    · rw [← hf]; exact h
    · exact correction_loop_mono sd g dc p r (ih (by omega))

/-- More fuel for the correction loops does not change a result of the quotient-digit
loop. -/
theorem division_loop_mono (f g : Nat) (hfg : f ≤ g) (m pd : Nat) :
    ∀ (j : Nat) (dc sd : big_integer) (q : List Nat) (r : big_integer × List Nat),
      division_loop f m pd j dc sd q = .ok r → division_loop g m pd j dc sd q = .ok r := by
  intro j
  induction j with
  | zero =>
    intro dc sd q r h
    exact h
  | succ j ih =>
    intro dc sd q r h
    rw [division_loop] at h ⊢
    generalize hp : min ((((dc.number.getD (m + (j + 1) - 1) 0 * base) % 2 ^ 64
            + dc.number.getD (m + (j + 1) - 2) 0) % 2 ^ 64) / pd) (base - 1) = p at *
    cases hc : correction_loop sd f (sub dc (mul sd (of_uint64 p))) p with
    | error e =>
      rw [hc] at h
      cases h
    | ok res =>
      rw [hc] at h
      rw [correction_loop_mono_le sd f g hfg _ _ _ hc]
      obtain ⟨dc2, p2⟩ := res
      simp only at h ⊢
      exact ih _ _ _ _ h

/-- The trial digit of a step of `division` (line 229) against the true quotient digit:
it is not below it, and not above it by more than 2. -/
theorem trial_digit_bounds (m pd D j : Nat) (hm : 1 ≤ m)
    (hD1 : pd * base ^ (m - 1) ≤ D) (hD2 : D < (pd + 1) * base ^ (m - 1))
    (hpd1 : 2 ^ 31 ≤ pd) (hpd2 : pd < base)
    (dc sd : big_integer) (hdc : wf dc) (hS : mag sd = D * base ^ j)
    (hR : mag dc < D * base ^ (j + 1)) :
    mag dc / mag sd ≤ min ((((dc.number.getD (m + (j + 1) - 1) 0 * base) % 2 ^ 64
            + dc.number.getD (m + (j + 1) - 2) 0) % 2 ^ 64) / pd) (base - 1)
    ∧ min ((((dc.number.getD (m + (j + 1) - 1) 0 * base) % 2 ^ 64
            + dc.number.getD (m + (j + 1) - 2) 0) % 2 ^ 64) / pd) (base - 1)
        ≤ mag dc / mag sd + 2 := by
  have hP : 0 < base ^ (m - 1 + j) := Nat.pow_pos base_pos
  have hpd0 : 0 < pd := lt_of_lt_of_le (by decide) hpd1
  have hS1 : pd * base ^ (m - 1 + j) ≤ mag sd := by
    rw [hS, pow_add, ← Nat.mul_assoc]
    exact Nat.mul_le_mul_right _ hD1
  have hS2 : mag sd < (pd + 1) * base ^ (m - 1 + j) := by
    rw [hS, pow_add, ← Nat.mul_assoc]
    exact Nat.mul_lt_mul_of_pos_right hD2 (Nat.pow_pos base_pos)
  have hRS : mag dc < mag sd * base := by
    rw [hS, Nat.mul_assoc, ← pow_succ]; exact hR
  have hRb : mag_nat dc.number < base ^ (m - 1 + j + 2) := by
    have h1 : mag sd * base < (pd + 1) * base ^ (m - 1 + j) * base :=
      Nat.mul_lt_mul_of_pos_right hS2 base_pos
    have h2 : (pd + 1) * base ^ (m - 1 + j) * base ≤ base * base ^ (m - 1 + j) * base :=
      Nat.mul_le_mul_right _ (Nat.mul_le_mul_right _ (by omega))
    have h3 : base * base ^ (m - 1 + j) * base = base ^ (m - 1 + j + 2) := by ring
    rw [h3] at h2
    exact lt_of_lt_of_le (lt_trans hRS h1) h2
  have i1 : m + (j + 1) - 1 = m - 1 + j + 1 := by omega
  have i2 : m + (j + 1) - 2 = m - 1 + j := by omega
  rw [i1, i2, prediction_dividend_eq dc.number hdc.1 (m - 1 + j) hRb]
  obtain ⟨e1, e2⟩ := estimate_bounds (mag dc) (mag sd) (base ^ (m - 1 + j)) pd hP hpd0 hS1 hS2 hRS
  exact ⟨e1, e2 (by rw [base_val]; omega)⟩


/-- More fuel does not change a result of the normalisation loop. -/
theorem normalize_loop_mono : ∀ (f sp k r : Nat), normalize_loop f sp k = .ok r →
    normalize_loop (f + 1) sp k = .ok r := by
  intro f
  induction f with
  | zero =>
    intro sp k r h
    simp [normalize_loop] at h
  | succ f ih =>
    intro sp k r h
    rw [normalize_loop] at h ⊢
    split
    · rename_i hc
      rw [if_pos hc] at h
      exact ih _ _ _ h
    · rename_i hc
      rw [if_neg hc] at h
      exact h

theorem normalize_loop_mono_le (f g : Nat) (hfg : f ≤ g) (sp k r : Nat)
    (h : normalize_loop f sp k = .ok r) : normalize_loop g sp k = .ok r := by
  induction g with
  | zero =>
    have : f = 0 := by omega
    rw [this] at h
    exact h
  | succ g ih =>
    by_cases hf : f = g + 1
    · rw [← hf]; exact h
    · exact normalize_loop_mono g sp k r (ih (by omega))

theorem shr_base_cnt_bits (sd : big_integer) (hsd : wf sd) (hp : sd.is_positive = true)
    (D j : Nat) (hS : mag sd = D * base ^ (j + 1)) :
    mag (shr sd base_cnt_bits) = D * base ^ j := by
  obtain ⟨r1, _, _⟩ := shr_spec_pos sd base_cnt_bits hsd hp
  rw [r1, hS]
  have : base_cnt_bits = 32 := rfl
  rw [this, pow_succ, ← Nat.mul_assoc]
  have : (2 : Nat) ^ 32 = base := by decide
  rw [this, Nat.mul_div_cancel _ base_pos]


/-- C22: long division of a well-formed `a` by a well-formed multi-digit `b` with
`|a| >= |b|`.  The normalisation loop returns `k < 32`, and the leading digit of the
divisor shifted by `k` bits has its top bit set.  At a step of the quotient-digit loop,
that is for a running remainder `dc >= 0` and a shifted divisor `sd = dv * 2^(32 j)` with
`dc < sd * 2^32`, the trial digit `p` of line 229 satisfies `q <= p <= q + 2` for the true
digit `q = floor(dc / sd) < 2^32`, the correction loop given fuel for two rounds returns
`q` and a remainder in `[0, sd)`, and the next state is again of this form.  The state before
the loop is of this form, and the loop on it returns with any fuel of at least two
rounds per digit; `division` returns the quotient and remainder made from its result. -/
theorem knuth_trial_digit (a b : big_integer) (ha : wf a) (hb : wf b)
    (hl : b.number.length ≠ 1) (hab : mag b ≤ mag a) :
    ∃ (k : Nat) (dd dv sd0 dc0 : big_integer) (q0 : List Nat),
      normalize_loop 32 (b.number.getLastD 0) 0 = .ok k ∧ k < 32
      ∧ dd = shl { a with is_positive := true } k
      ∧ dv = shl { b with is_positive := true } k
      ∧ sd0 = shl dv (base_cnt_bits * (dd.number.length - dv.number.length))
      ∧ dc0 = (if ge dd sd0 then sub dd sd0 else dd)
      ∧ q0 = (if ge dd sd0 then
            (List.replicate (dd.number.length - dv.number.length + 1) 0).set
              (dd.number.length - dv.number.length) 1
          else List.replicate (dd.number.length - dv.number.length + 1) 0)
      ∧ mag dv = mag b * 2 ^ k ∧ mag dd = mag a * 2 ^ k
      ∧ 2 ^ 31 ≤ dv.number.getLastD 0 ∧ dv.number.getLastD 0 < 2 ^ 32
      ∧ (∀ (j : Nat) (dc sd : big_integer), wf dc → dc.is_positive = true → wf sd →
          sd.is_positive = true → mag sd = mag dv * base ^ j → mag dc < mag sd * base →
          ∃ (p : Nat) (dc2 : big_integer),
            p = min ((((dc.number.getD (dv.number.length + (j + 1) - 1) 0 * base) % 2 ^ 64
                  + dc.number.getD (dv.number.length + (j + 1) - 2) 0) % 2 ^ 64)
                / dv.number.getLastD 0) (base - 1)
            ∧ mag dc / mag sd ≤ p ∧ p ≤ mag dc / mag sd + 2 ∧ mag dc / mag sd < base
            ∧ correction_loop sd 2 (sub dc (mul sd (of_uint64 p))) p
                = .ok (dc2, mag dc / mag sd)
            ∧ wf dc2 ∧ dc2.is_positive = true ∧ mag dc2 < mag sd
            ∧ mag dc2 + mag dc / mag sd * mag sd = mag dc
            ∧ wf (shr sd base_cnt_bits) ∧ (shr sd base_cnt_bits).is_positive = true
            ∧ (1 ≤ j → mag (shr sd base_cnt_bits) = mag dv * base ^ (j - 1)
                ∧ mag dc2 < mag (shr sd base_cnt_bits) * base))
      ∧ (wf dc0 ∧ dc0.is_positive = true
          ∧ wf (shr sd0 base_cnt_bits) ∧ (shr sd0 base_cnt_bits).is_positive = true
          ∧ (1 ≤ dd.number.length - dv.number.length →
              mag (shr sd0 base_cnt_bits)
                = mag dv * base ^ (dd.number.length - dv.number.length - 1)
              ∧ mag dc0 < mag (shr sd0 base_cnt_bits) * base))
      ∧ ∃ (dc2 : big_integer) (q2 : List Nat),
          (∀ fuel, 2 ≤ fuel →
            division_loop fuel dv.number.length (dv.number.getLastD 0)
              (dd.number.length - dv.number.length) dc0 (shr sd0 base_cnt_bits) q0
              = .ok (dc2, q2))
          ∧ dc2.is_positive = true ∧ mag dc2 < mag dv
          ∧ mag_nat q2 * mag dv + mag dc2 = mag dd
          ∧ (∀ fuel, 32 ≤ fuel → division fuel a b
              = .ok ⟨trim ⟨q2, decide (a.is_positive = b.is_positive)⟩,
                  trim { shr dc2 k with is_positive := a.is_positive }⟩) := by
  have ha1 : wf { a with is_positive := true } := ha
  have hb1 : wf { b with is_positive := true } := hb
  have ema : mag { a with is_positive := true } = mag a := rfl
  have emb : mag { b with is_positive := true } = mag b := rfl
  have hlt := lt_iff _ _ ha1 hb1
  rw [val_of_pos _ rfl, val_of_pos _ rfl, ema, emb] at hlt
  have hnlt : ¬ lt { a with is_positive := true } { b with is_positive := true } = true := by
    rw [hlt]
    have : ¬ mag a < mag b := by omega
    exact_mod_cast this
  have hlb := length_pos_of_wf b hb
  have hbz : b.number ≠ [0] := number_ne_zero_of_length b (by omega)
  obtain ⟨t1, t2, t3⟩ := top_digit_bounds b.number hb.1 hb.2.1
  have ht0 : 0 < b.number.getLastD 0 := by
    by_contra h
    have : b.number.getLastD 0 = 0 := by omega
    rw [this] at t2
    have := canonical_mag_ge b.number hb.2 hbz
    omega
  obtain ⟨k, hk1, hk2, hk3, hk4⟩ := normalize_loop_spec 31 32 (b.number.getLastD 0) 0
    (by omega) (Nat.le_mul_of_pos_left _ ht0) (by rw [base_val] at t3; omega) (by omega)
  rw [Nat.zero_add] at hk2
  obtain ⟨sa1, sa2, sa3⟩ := shl_spec_pos { a with is_positive := true } k ha1 rfl
  obtain ⟨sb1, sb2, sb3⟩ := shl_spec_pos { b with is_positive := true } k hb1 rfl
  rw [ema] at sa1
  rw [emb] at sb1
  have hdiv : ∀ fuel, 32 ≤ fuel → division fuel a b
      = (match division_loop fuel (shl { b with is_positive := true } k).number.length
            ((shl { b with is_positive := true } k).number.getLastD 0)
            ((shl { a with is_positive := true } k).number.length
              - (shl { b with is_positive := true } k).number.length)
            (if ge (shl { a with is_positive := true } k)
                (shl (shl { b with is_positive := true } k) (base_cnt_bits *
                  ((shl { a with is_positive := true } k).number.length
                    - (shl { b with is_positive := true } k).number.length)))
              then sub (shl { a with is_positive := true } k)
                (shl (shl { b with is_positive := true } k) (base_cnt_bits *
                  ((shl { a with is_positive := true } k).number.length
                    - (shl { b with is_positive := true } k).number.length)))
              else shl { a with is_positive := true } k)
            (shr (shl (shl { b with is_positive := true } k) (base_cnt_bits *
                  ((shl { a with is_positive := true } k).number.length
                    - (shl { b with is_positive := true } k).number.length))) base_cnt_bits)
            (if ge (shl { a with is_positive := true } k)
                (shl (shl { b with is_positive := true } k) (base_cnt_bits *
                  ((shl { a with is_positive := true } k).number.length
                    - (shl { b with is_positive := true } k).number.length)))
              then (List.replicate ((shl { a with is_positive := true } k).number.length
                    - (shl { b with is_positive := true } k).number.length + 1) 0).set
                  ((shl { a with is_positive := true } k).number.length
                    - (shl { b with is_positive := true } k).number.length) 1
              else List.replicate ((shl { a with is_positive := true } k).number.length
                    - (shl { b with is_positive := true } k).number.length + 1) 0) with
          | .error e => .error e
          | .ok (dividend_copy, quotient) =>
            .ok ⟨trim ⟨quotient, decide (a.is_positive = b.is_positive)⟩,
              trim { shr dividend_copy k with is_positive := a.is_positive }⟩) := by
    intro fuel hf
    unfold division
    rw [if_neg hl]
    simp only
    rw [if_neg hnlt, normalize_loop_mono_le 32 fuel hf _ _ _ hk2]
  refine ⟨k, shl { a with is_positive := true } k, shl { b with is_positive := true } k,
    _, _, _, hk2, by omega, rfl, rfl, rfl, rfl, rfl, sb1, sa1, ?_⟩
  generalize shl { a with is_positive := true } k = dd at *
  generalize shl { b with is_positive := true } k = dv at *
  obtain ⟨hm, p1, p2, p3, p4, p5⟩ := normalized_divisor b dv hb sb3 k hk1 hk3 hk4 sb1
  have hDA : mag dv ≤ mag dd := by
    rw [sa1, sb1]; exact Nat.mul_le_mul_right _ hab
  have hnm := length_le_of_mag_le dd dv sa3 sb3 hDA
  have hAn := mag_nat_lt dd.number sa3.1
  obtain ⟨ss1, ss2, ss3⟩ := shl_spec_pos dv
    (base_cnt_bits * (dd.number.length - dv.number.length)) sb3 sb2
  rw [base_pow_eq] at ss1
  generalize hx : dd.number.length - dv.number.length = x at *
  generalize shl dv (base_cnt_bits * x) = sd0 at *
  have hA2 : mag dd < 2 * (mag dv * base ^ x) := by
    have e : base ^ dd.number.length = base ^ dv.number.length * base ^ x := by
      rw [← pow_add]; congr 1; omega
    have : base ^ dv.number.length * base ^ x ≤ 2 * mag dv * base ^ x :=
      Nat.mul_le_mul_right _ p5
    have emd : mag_nat dd.number = mag dd := rfl
    rw [Nat.mul_assoc] at this
    omega
  obtain ⟨f1, f2, f3, f4, f5, f6, f7⟩ := division_first dd sd0 x (mag dv) sa3 ss3 sa2 ss2
    ss1 hA2
  obtain ⟨r1, r2, r3⟩ := shr_spec_pos sd0 base_cnt_bits ss3 ss2
  have hsd1 : 1 ≤ x → mag (shr sd0 base_cnt_bits) = mag dv * base ^ (x - 1) := by
    intro hx1
    obtain ⟨x', rfl⟩ : ∃ x', x = x' + 1 := ⟨x - 1, by omega⟩
    rw [Nat.add_sub_cancel]
    exact shr_base_cnt_bits sd0 ss3 ss2 (mag dv) x' ss1
  refine ⟨p3, by rw [base_val] at p4; exact p4, ?_, ?_, ?_⟩
  · intro j dc sd hdc hpdc hsd hpsd hS hR
    have hR2 : mag dc < mag dv * base ^ (j + 1) := by
      rw [pow_succ, ← Nat.mul_assoc, ← hS]; exact hR
    obtain ⟨dc2, c1, c2, c3, c4, c5, c6⟩ := division_step 2 (le_refl _) dv.number.length
      (dv.number.getLastD 0) (mag dv) j hm p1 p2 p3 p4 dc sd hdc hpdc hsd hpsd hS hR2
    obtain ⟨b1, b2⟩ := trial_digit_bounds dv.number.length (dv.number.getLastD 0) (mag dv) j
      hm p1 p2 p3 p4 dc sd hdc hS hR2
    obtain ⟨u1, u2, u3⟩ := shr_spec_pos sd base_cnt_bits hsd hpsd
    refine ⟨_, dc2, rfl, b1, b2, c6, c1, c2, c3, c5, c4, u3, u2, ?_⟩
    intro hj
    obtain ⟨j', rfl⟩ : ∃ j', j = j' + 1 := ⟨j - 1, by omega⟩
    rw [Nat.add_sub_cancel]
    have e := shr_base_cnt_bits sd hsd hpsd (mag dv) j' hS
    refine ⟨e, ?_⟩
    rw [e, Nat.mul_assoc, ← pow_succ, ← hS]
    exact c5
  · refine ⟨f1, f2, r3, r2, ?_⟩
    intro hx1
    have e := hsd1 hx1
    refine ⟨e, ?_⟩
    rw [e, Nat.mul_assoc, ← pow_succ]
    have : x - 1 + 1 = x := by omega
    rw [this]
    exact f3
  · obtain ⟨dc2, q2, l1, l2, l3, l4, l5, l6, l7⟩ := division_loop_spec 2 (le_refl _)
      dv.number.length (dv.number.getLastD 0) (mag dv) hm p1 p2 p3 p4 x
      (if ge dd sd0 then sub dd sd0 else dd) (shr sd0 base_cnt_bits)
      (if ge dd sd0 then (List.replicate (x + 1) 0).set x 1 else List.replicate (x + 1) 0)
      f1 f2 r3 r2 hsd1 f3 f4 (by rw [f5]; omega) f6
    have hall : ∀ fuel, 2 ≤ fuel →
        division_loop fuel dv.number.length (dv.number.getLastD 0) x
          (if ge dd sd0 then sub dd sd0 else dd) (shr sd0 base_cnt_bits)
          (if ge dd sd0 then (List.replicate (x + 1) 0).set x 1
            else List.replicate (x + 1) 0) = .ok (dc2, q2) :=
      fun fuel hf => division_loop_mono 2 fuel hf _ _ _ _ _ _ _ l1
    refine ⟨dc2, q2, hall, l3, l4, by rw [l5, f7], ?_⟩
    intro fuel hf
    rw [hdiv fuel hf, hall fuel (by omega)]

/-- Witness of C22 at the dividend `-(9 * 2^64 + 7 * 2^32 + 5)` and the divisor
`2^32 + 3`, which is normalised by 31 bits. -/
theorem knuth_trial_digit_witness :
    wf (⟨[5, 7, 9], false⟩ : big_integer) ∧ wf (⟨[3, 1], true⟩ : big_integer)
    ∧ (⟨[3, 1], true⟩ : big_integer).number.length ≠ 1
    ∧ mag (⟨[3, 1], true⟩ : big_integer) ≤ mag (⟨[5, 7, 9], false⟩ : big_integer)
    ∧ ∃ (k : Nat) (dd dv sd0 dc0 : big_integer) (q0 : List Nat),
      normalize_loop 32 ((⟨[3, 1], true⟩ : big_integer).number.getLastD 0) 0 = .ok k ∧ k < 32
      ∧ dd = shl { (⟨[5, 7, 9], false⟩ : big_integer) with is_positive := true } k
      ∧ dv = shl { (⟨[3, 1], true⟩ : big_integer) with is_positive := true } k
      ∧ sd0 = shl dv (base_cnt_bits * (dd.number.length - dv.number.length))
      ∧ dc0 = (if ge dd sd0 then sub dd sd0 else dd)
      ∧ q0 = (if ge dd sd0 then
            (List.replicate (dd.number.length - dv.number.length + 1) 0).set
              (dd.number.length - dv.number.length) 1
          else List.replicate (dd.number.length - dv.number.length + 1) 0)
      ∧ mag dv = mag (⟨[3, 1], true⟩ : big_integer) * 2 ^ k
      ∧ mag dd = mag (⟨[5, 7, 9], false⟩ : big_integer) * 2 ^ k
      ∧ 2 ^ 31 ≤ dv.number.getLastD 0 ∧ dv.number.getLastD 0 < 2 ^ 32
      ∧ (∀ (j : Nat) (dc sd : big_integer), wf dc → dc.is_positive = true → wf sd →
          sd.is_positive = true → mag sd = mag dv * base ^ j → mag dc < mag sd * base →
          ∃ (p : Nat) (dc2 : big_integer),
            p = min ((((dc.number.getD (dv.number.length + (j + 1) - 1) 0 * base) % 2 ^ 64
                  + dc.number.getD (dv.number.length + (j + 1) - 2) 0) % 2 ^ 64)
                / dv.number.getLastD 0) (base - 1)
            ∧ mag dc / mag sd ≤ p ∧ p ≤ mag dc / mag sd + 2 ∧ mag dc / mag sd < base
            ∧ correction_loop sd 2 (sub dc (mul sd (of_uint64 p))) p
                = .ok (dc2, mag dc / mag sd)
            ∧ wf dc2 ∧ dc2.is_positive = true ∧ mag dc2 < mag sd
            ∧ mag dc2 + mag dc / mag sd * mag sd = mag dc
            ∧ wf (shr sd base_cnt_bits) ∧ (shr sd base_cnt_bits).is_positive = true
            ∧ (1 ≤ j → mag (shr sd base_cnt_bits) = mag dv * base ^ (j - 1)
                ∧ mag dc2 < mag (shr sd base_cnt_bits) * base))
      ∧ (wf dc0 ∧ dc0.is_positive = true
          ∧ wf (shr sd0 base_cnt_bits) ∧ (shr sd0 base_cnt_bits).is_positive = true
          ∧ (1 ≤ dd.number.length - dv.number.length →
              mag (shr sd0 base_cnt_bits)
                = mag dv * base ^ (dd.number.length - dv.number.length - 1)
              ∧ mag dc0 < mag (shr sd0 base_cnt_bits) * base))
      ∧ ∃ (dc2 : big_integer) (q2 : List Nat),
          (∀ fuel, 2 ≤ fuel →
            division_loop fuel dv.number.length (dv.number.getLastD 0)
              (dd.number.length - dv.number.length) dc0 (shr sd0 base_cnt_bits) q0
              = .ok (dc2, q2))
          ∧ dc2.is_positive = true ∧ mag dc2 < mag dv
          ∧ mag_nat q2 * mag dv + mag dc2 = mag dd
          ∧ (∀ fuel, 32 ≤ fuel →
              division fuel (⟨[5, 7, 9], false⟩ : big_integer)
                (⟨[3, 1], true⟩ : big_integer)
              = .ok ⟨trim ⟨q2, decide ((⟨[5, 7, 9], false⟩ : big_integer).is_positive
                    = (⟨[3, 1], true⟩ : big_integer).is_positive)⟩,
                  trim { shr dc2 k with
                    is_positive := (⟨[5, 7, 9], false⟩ : big_integer).is_positive }⟩) :=
  ⟨by decide, by decide, by decide, by decide,
    knuth_trial_digit ⟨[5, 7, 9], false⟩ ⟨[3, 1], true⟩ (by decide) (by decide) (by decide)
      (by decide)⟩


/-! ## The zero with negative flag -/

/-- For a positive `a`, `a + (-a)` is the zero with negative flag. -/
theorem add_neg_self (a : big_integer) (ha : wf a) (hp : a.is_positive = true) :
    add a (neg a) = ⟨[0], false⟩ := by
  have ea : a = ⟨a.number, true⟩ := by
    cases a
    simp only at hp
    rw [hp]
  have hle : le a ⟨a.number, true⟩ = true := by
    rw [← ea, le_iff a a ha ha]
  obtain ⟨v1, v2⟩ := sub_val a a ha ha
  have hm : mag (sub a a) = 0 := by
    have : val (sub a a) = 0 := by omega
    exact (val_eq_zero_iff _).1 this
  have hn : (sub a a).number = [0] := (canonical_mag_zero _ v2.2).1 hm
  unfold add neg
  simp only [hp, Bool.not_true, Bool.false_and, Bool.false_eq_true, if_false, Bool.not_false,
    Bool.and_self, if_true, hle]
  rw [← ea, hn]

theorem mag_neg_zero : mag ⟨[0], false⟩ = 0 := by decide

/-- Where the flag of a zero is not observed: `+`, `-`, `*`, the comparison, unary `-`,
`--` and `to_string` give results of equal value for the two zeros, and so do `/` and `%`
with a zero dividend, while both zeros are rejected as divisors. -/
theorem zero_sign_unobserved (fuel : Nat) (b : big_integer) (hb : wf b) :
    val (add ⟨[0], false⟩ b) = val (add ⟨[0], true⟩ b)
    ∧ val (add b ⟨[0], false⟩) = val (add b ⟨[0], true⟩)
    ∧ val (sub ⟨[0], false⟩ b) = val (sub ⟨[0], true⟩ b)
    ∧ val (sub b ⟨[0], false⟩) = val (sub b ⟨[0], true⟩)
    ∧ val (mul ⟨[0], false⟩ b) = val (mul ⟨[0], true⟩ b)
    ∧ val (mul b ⟨[0], false⟩) = val (mul b ⟨[0], true⟩)
    ∧ compare ⟨[0], false⟩ b = compare ⟨[0], true⟩ b
    ∧ compare b ⟨[0], false⟩ = compare b ⟨[0], true⟩
    ∧ val (neg ⟨[0], false⟩) = val (neg ⟨[0], true⟩)
    ∧ dec ⟨[0], false⟩ = dec ⟨[0], true⟩
    ∧ to_string fuel ⟨[0], false⟩ = to_string fuel ⟨[0], true⟩
    ∧ division fuel b ⟨[0], false⟩ = .error .division_by_zero
    ∧ division fuel b ⟨[0], true⟩ = .error .division_by_zero
    ∧ (32 ≤ fuel → mag b ≠ 0 → ∃ q r q2 r2 : big_integer,
        division fuel ⟨[0], false⟩ b = .ok ⟨q, r⟩ ∧ division fuel ⟨[0], true⟩ b = .ok ⟨q2, r2⟩
        ∧ val q = 0 ∧ val r = 0 ∧ val q2 = 0 ∧ val r2 = 0) := by
  have wn : wf (⟨[0], false⟩ : big_integer) := by decide
  have wp : wf (⟨[0], true⟩ : big_integer) := by decide
  have vn : val (⟨[0], false⟩ : big_integer) = 0 := by decide
  have vp : val (⟨[0], true⟩ : big_integer) = 0 := by decide
  refine ⟨?_, ?_, ?_, ?_, ?_, ?_, ?_, ?_, by decide, by decide, rfl,
    division_by_zero fuel b _ wn (by decide), division_by_zero fuel b _ wp (by decide), ?_⟩
  · rw [(add_val _ b wn hb).1, (add_val _ b wp hb).1, vn, vp]
  · rw [(add_val b _ hb wn).1, (add_val b _ hb wp).1, vn, vp]
  · rw [(sub_val _ b wn hb).1, (sub_val _ b wp hb).1, vn, vp]
  · rw [(sub_val b _ hb wn).1, (sub_val b _ hb wp).1, vn, vp]
  · rw [(mul_val _ b wn hb).1, (mul_val _ b wp hb).1, vn, vp]
  · rw [(mul_val b _ hb wn).1, (mul_val b _ hb wp).1, vn, vp]
  · rw [compare_val _ b wn hb, compare_val _ b wp hb, vn, vp]
  · rw [compare_val b _ hb wn, compare_val b _ hb wp, vn, vp]
  · intro hf hb0
    obtain ⟨q, r, d1, d2, _, _, _, _, _⟩ := division_spec fuel hf ⟨[0], false⟩ b wn hb hb0
    obtain ⟨q2, r2, e1, e2, _, _, _, _, _⟩ := division_spec fuel hf ⟨[0], true⟩ b wp hb hb0
    have m0 : mag (⟨[0], false⟩ : big_integer) = 0 := by decide
    have m1 : mag (⟨[0], true⟩ : big_integer) = 0 := by decide
    rw [m0] at d2
    rw [m1] at e2
    have hq : mag q = 0 := by
      rcases Nat.eq_zero_or_pos (mag q) with h | h
      · exact h
      · have := Nat.mul_pos h (Nat.pos_of_ne_zero hb0)
        omega
    have hq2 : mag q2 = 0 := by
      rcases Nat.eq_zero_or_pos (mag q2) with h | h
      · exact h
      · have := Nat.mul_pos h (Nat.pos_of_ne_zero hb0)
        omega
    refine ⟨q, r, q2, r2, d1, e1, (val_eq_zero_iff q).2 hq, (val_eq_zero_iff r).2 (by omega),
      (val_eq_zero_iff q2).2 hq2, (val_eq_zero_iff r2).2 (by omega)⟩

/-- C21 fails on the code.  The zero with negative flag is what `big_integer("-0")`,
`-big_integer(0)` and `5 + (-5)` return.  On it `++` gives `-1` where `++` of the zero
with positive flag gives `1`: the negative path of `operator++` has no test for zero,
unlike `operator--`.  And `to_twos_complement` turns it into the digit `[0]` with
negative flag, which `~`, `<<`, `>>`, `&`, `|` and `^` read as `-2^32`. -/
theorem negative_zero_observed :
    of_string 2 [Char.ofNat 45, Char.ofNat 48] = .ok ⟨[0], false⟩
    ∧ neg zero = ⟨[0], false⟩
    ∧ add ⟨[5], true⟩ (neg ⟨[5], true⟩) = ⟨[0], false⟩
    ∧ wf ⟨[0], false⟩ ∧ val ⟨[0], false⟩ = val ⟨[0], true⟩
    ∧ inc ⟨[0], true⟩ = ⟨[1], true⟩ ∧ inc ⟨[0], false⟩ = ⟨[1], false⟩
    ∧ val (inc ⟨[0], true⟩) = 1 ∧ val (inc ⟨[0], false⟩) = -1
    ∧ eq (inc ⟨[0], true⟩) (inc ⟨[0], false⟩) = false
    ∧ dec ⟨[0], true⟩ = ⟨[1], false⟩ ∧ dec ⟨[0], false⟩ = ⟨[1], false⟩
    ∧ to_twos_complement ⟨[0], false⟩ = ⟨[0], false⟩
    ∧ bnot ⟨[0], true⟩ = ⟨[1], false⟩ ∧ bnot ⟨[0], false⟩ = ⟨[1, 0, 1], false⟩
    ∧ shl ⟨[0], true⟩ 1 = ⟨[0], true⟩ ∧ shl ⟨[0], false⟩ 1 = ⟨[0, 2], false⟩
    ∧ shr ⟨[0], true⟩ 16 = ⟨[0], true⟩ ∧ shr ⟨[0], false⟩ 16 = ⟨[65536], false⟩
    ∧ band ⟨[0], true⟩ ⟨[7, 3], true⟩ = ⟨[0], true⟩
    ∧ band ⟨[0], false⟩ ⟨[7, 3], true⟩ = ⟨[0, 3], true⟩
    ∧ bor ⟨[0], true⟩ ⟨[5], true⟩ = ⟨[5], true⟩
    ∧ bor ⟨[0], false⟩ ⟨[5], true⟩ = ⟨[4294967291], false⟩
    ∧ bxor ⟨[0], true⟩ ⟨[5], true⟩ = ⟨[5], true⟩
    ∧ bxor ⟨[0], false⟩ ⟨[5], true⟩ = ⟨[4294967291], false⟩ := by
  refine ⟨rfl, by decide, add_neg_self ⟨[5], true⟩ (by decide) rfl, ?_⟩
  decide

end big_integer
